import Mathlib

/-!
# Sticky-notes extension: highlight anchoring (content.js)

A shallow embedding of the content script's path encoder (`getXPath`), path
resolver (`getNodeByXPath`), highlight materializer and per-site store
updates, with the properties of the specification stated over it.

A document is an immutable tree.  A node is referred to by the list of child
indices leading to it from the document (`Ref`, root first); `parentNode` is
the reference without its last index and `previousSibling` is the index
before.  The document node itself is the empty reference.
-/

namespace StickyNotes

/-- A DOM node.  `hid` is `some id` exactly for an element that carries the
class `saved-highlight` and the attribute `data-hid="id"`.  Character data is
a sequence of UTF-16 code units, as in the DOM: lengths and offsets count
code units. -/
inductive Node where
  | element (nodeName : String) (hid : Option String) (childNodes : List Node)
  | text (data : List Nat)
  | comment (data : List Nat)
  deriving Repr, Inhabited

/-- The UTF-16 code units of a string: one unit for a character of the basic
plane, a surrogate pair for any other character. -/
def utf16 (s : String) : List Nat :=
  s.data.flatMap (fun c =>
    if c.toNat < 65536 then [c.toNat]
    else [55296 + (c.toNat - 65536) / 1024, 56320 + (c.toNat - 65536) % 1024])

/-- The document node: only its children are stored. -/
structure Document where
  childNodes : List Node
  deriving Repr

/-- A node reference: child indices from the document down to the node. -/
abbrev Ref := List Nat

/-- The `childNodes` of a node (empty for text and comment nodes). -/
def Node.kids : Node → List Node
  | Node.element _ _ cs => cs
  | _ => []

/-- Follow child indices downwards inside a list of siblings. -/
def nodeIn : List Node → Ref → Option Node
  | _, [] => none
  | ns, [i] => ns[i]?
  | ns, i :: j :: rest =>
    match ns[i]? with
    | some n => nodeIn n.kids (j :: rest)
    | none => none

/-- The node a reference denotes; `none` for the document itself and for a
reference that leaves the tree. -/
def nodeAt (doc : Document) (ref : Ref) : Option Node :=
  nodeIn doc.childNodes ref

/-- The `childNodes` of the node (or document) a reference denotes. -/
def childNodesAt (doc : Document) (ref : Ref) : Option (List Node) :=
  match ref with
  | [] => some doc.childNodes
  | _ => (nodeAt doc ref).map Node.kids

/-- Reading of `nodeType === Node.TEXT_NODE`. -/
def Node.isText : Node → Bool
  | Node.text _ => true
  | _ => false

/-- Reading of `nodeType === Node.ELEMENT_NODE`. -/
def Node.isElement : Node → Bool
  | Node.element _ _ _ => true
  | _ => false

/-- The method `String.prototype.toLowerCase`, on ASCII letters. -/
def toLowerCase (s : String) : String :=
  String.mk (s.data.map Char.toLower)

/-- The `for` loop of the text branch of `getXPath`: scan `childNodes` from
index `i`, incrementing `idx` at each text node, and stop at the node itself
(the child at index `target`). -/
def textIndexLoop (target : Nat) : List Node → Nat → Nat → Option Nat
  | [], _, _ => none
  | n :: rest, i, idx =>
    match n with
    | Node.text _ =>
      if i = target then some (idx + 1) else textIndexLoop target rest (i + 1) (idx + 1)
    | _ => textIndexLoop target rest (i + 1) idx

/-- The `while (sib)` loop of `getXPath`: `j` previous siblings remain to be
visited, the next one being `siblings[j - 1]`. -/
def sameTagLoop (siblings : List Node) (nodeName : String) : Nat → Nat → Nat
  | 0, index => index
  | j + 1, index =>
    match siblings[j]? with
    | some (Node.element n _ _) =>
      if n = nodeName then sameTagLoop siblings nodeName j (index + 1)
      else sameTagLoop siblings nodeName j index
    | _ => sameTagLoop siblings nodeName j index

/-- One path segment: `tag` or `tag[index]`. -/
def segmentOf (siblings : List Node) (i : Nat) (nodeName : String) : String :=
  let tag := toLowerCase nodeName
  let index := sameTagLoop siblings nodeName i 1
  if index > 1 then tag ++ "[" ++ toString index ++ "]" else tag

/-- The `for (cur = node; cur is an element; cur = cur.parentNode)` loop of
`getXPath`.  The cursor is the reference of `cur` with the innermost index
first, so that `parentNode` is its tail; each segment is put in front
(`unshift`). -/
def segmentsLoop (doc : Document) : List Nat → List String → List String
  | [], segments => segments
  | i :: up, segments =>
    match nodeAt doc (i :: up).reverse, childNodesAt doc up.reverse with
    | some (Node.element nodeName _ _), some siblings =>
      segmentsLoop doc up (segmentOf siblings i nodeName :: segments)
    | _, _ => segments

/-- The function `getXPath` on a cursor (innermost index first). -/
def getXPathUp (doc : Document) : List Nat → Option String
  | [] => some ("/" ++ "/".intercalate (segmentsLoop doc [] []))
  | i :: up =>
    match nodeAt doc (i :: up).reverse with
    | none => none
    | some node =>
      let elementBranch := some ("/" ++ "/".intercalate (segmentsLoop doc (i :: up) []))
      if node.isText then
        match childNodesAt doc up.reverse with
        | some childNodes =>
          match textIndexLoop i childNodes 0 0 with
          | some idx =>
            (getXPathUp doc up).map (fun p => p ++ "/text()[" ++ toString idx ++ "]")
          | none => elementBranch
        | none => elementBranch
      else elementBranch

/-- The function `getXPath`: `none` stands for `null` (no node). -/
def getXPath (doc : Document) (ref : Ref) : Option String :=
  getXPathUp doc ref.reverse

/-- A sample page: `html > body > [p "ab", p ["cd", comment, "ef"], div]`. -/
def sampleDoc : Document :=
  { childNodes := [Node.element "HTML" none [Node.element "BODY" none
      [Node.element "P" none [Node.text (utf16 "ab")],
       Node.element "P" none [Node.text (utf16 "cd"), Node.comment (utf16 "c"),
         Node.text (utf16 "ef")],
       Node.element "DIV" none []]]] }

/-- Same-tag test of the sibling scan: an element whose `nodeName` equals the
given one. -/
def Node.hasName (nodeName : String) : Node → Bool
  | Node.element n _ _ => n = nodeName
  | _ => false

/-- The `childNodes` reached by following a reference inside a sibling list. -/
def kidsIn (ns : List Node) (ref : Ref) : Option (List Node) :=
  match ref with
  | [] => some ns
  | _ => (nodeIn ns ref).map Node.kids

/-- The segment the specification describes: the lowercased tag alone when no
preceding sibling element has the same tag name, otherwise `tag[k]` with `k`
one more than the number of such siblings. -/
def specSegment (siblings : List Node) (i : Nat) (nodeName : String) : String :=
  let k := 1 + (siblings.take i).countP (Node.hasName nodeName)
  if k = 1 then toLowerCase nodeName
  else toLowerCase nodeName ++ "[" ++ toString k ++ "]"

/-- The segments the specification describes, root first: one per element of
the ancestor chain. -/
def specSegments : List Node → Ref → List String
  | _, [] => []
  | ns, i :: rest =>
    match ns[i]? with
    | some (Node.element nodeName _ cs) => specSegment ns i nodeName :: specSegments cs rest
    | _ => []

/-! ### The host's path-query evaluator

`document.evaluate` belongs to the browser, not to the extension.  It is
modelled for a fragment of XPath 1.0 that holds what `getXPath` emits:
absolute location paths of child steps, each step a name test, `text()` or
`comment()`, with an optional positional predicate `[k]`; `/` alone is the
document node.  Name tests follow the HTML-document rule: they are compared
with element names irrespective of ASCII letter case.  Every DOM text node
counts as one XPath text node.  The model gives no answer for a string
outside the fragment (it reports an error, where the browser may resolve the
path): statements that are to hold for every path string are made over an
arbitrary evaluator instead. -/

/-- The node test of a step. -/
inductive NodeTest where
  | name (n : String)
  | text
  | comment
  deriving DecidableEq, Repr

/-- A child step with an optional positional predicate. -/
structure Step where
  test : NodeTest
  position : Option Nat
  deriving DecidableEq, Repr

/-- Characters that may start a name test. -/
def nameStartChars : List Char :=
  "ABCDEFGHIJKLMNOPQRSTUVWXYZabcdefghijklmnopqrstuvwxyz_".data

/-- Characters that may continue a name test. -/
def nameChars : List Char :=
  "ABCDEFGHIJKLMNOPQRSTUVWXYZabcdefghijklmnopqrstuvwxyz_0123456789-.".data

/-- An ASCII `NCName`. -/
def isNCName : List Char → Bool
  | [] => false
  | c :: rest => nameStartChars.contains c && rest.all (fun d => nameChars.contains d)

/-- Value of a decimal digit character. -/
def digitValue (c : Char) : Nat := c.toNat - 48

/-- A non-empty run of decimal digits read as a number. -/
def parseDigits (cs : List Char) : Option Nat :=
  if cs ≠ [] ∧ cs.all Char.isDigit then
    some (cs.foldl (fun acc c => acc * 10 + digitValue c) 0)
  else none

/-- The node test of a step: `text()`, `comment()` or a name. -/
def parseTest (cs : List Char) : Option NodeTest :=
  if cs = "text()".data then some NodeTest.text
  else if cs = "comment()".data then some NodeTest.comment
  else if isNCName cs then some (NodeTest.name (String.mk cs))
  else none

/-- What follows the node test: nothing, or `[k]`. -/
def parsePredicate : List Char → Option (Option Nat)
  | [] => some none
  | c :: rest =>
    if c = '[' ∧ rest.getLast? = some ']' then (parseDigits rest.dropLast).map some
    else none

/-- One step of a path. -/
def parseStep (cs : List Char) : Option Step :=
  match parseTest (cs.takeWhile (fun c => c != '[')),
        parsePredicate (cs.dropWhile (fun c => c != '[')) with
  | some t, some p => some { test := t, position := p }
  | _, _ => none

/-- All the steps of a path. -/
def parseSteps : List (List Char) → Option (List Step)
  | [] => some []
  | cs :: rest =>
    match parseStep cs, parseSteps rest with
    | some st, some sts => some (st :: sts)
    | _, _ => none

/-- Cut a character list at every `/`. -/
def splitSlash : List Char → List (List Char)
  | [] => [[]]
  | c :: cs =>
    if c = '/' then [] :: splitSlash cs
    else
      match splitSlash cs with
      | seg :: segs => (c :: seg) :: segs
      | [] => [[c]]

/-- An absolute path: `/` alone is the document, otherwise `/step/.../step`. -/
def parseXPath (xpath : String) : Option (List Step) :=
  match xpath.data with
  | '/' :: rest => if rest = [] then some [] else parseSteps (splitSlash rest)
  | _ => none

/-- Whether a node passes a node test. -/
def NodeTest.selects : NodeTest → Node → Bool
  | NodeTest.name n, Node.element nodeName _ _ => toLowerCase nodeName = toLowerCase n
  | NodeTest.text, Node.text _ => true
  | NodeTest.comment, Node.comment _ => true
  | _, _ => false

/-- Indices (from `j` on) of the nodes of a sibling list that satisfy `p`. -/
def matchingIndices (p : Node → Bool) : List Node → Nat → List Nat
  | [], _ => []
  | n :: rest, j =>
    if p n then j :: matchingIndices p rest (j + 1) else matchingIndices p rest (j + 1)

/-- The children a step selects from one context node, in document order. -/
def selectStep (st : Step) (ns : List Node) : List Nat :=
  let candidates := matchingIndices st.test.selects ns 0
  match st.position with
  | none => candidates
  | some k => if k = 0 then [] else (candidates[k - 1]?).toList

/-- The node-set of a relative path from a context whose children are `ns`,
in document order; references are relative to the context. -/
def evalIn : List Step → List Node → List Ref
  | [], _ => [[]]
  | st :: rest, ns =>
    (selectStep st ns).flatMap (fun i =>
      match ns[i]? with
      | some n => (evalIn rest n.kids).map (fun r => i :: r)
      | none => [])

/-- The host function `document.evaluate(xpath, document, ...)` on the
fragment: the node-set in document order; an error for a string outside the
fragment. -/
def xpathEvaluate (xpath : String) (doc : Document) : Except String (List Ref) :=
  match parseXPath xpath with
  | some steps => Except.ok (evalIn steps doc.childNodes)
  | none => Except.error "SyntaxError"

/-- The function `getNodeByXPath`, over the host's evaluator.  A result of
type `FIRST_ORDERED_NODE_TYPE` has as `singleNodeValue` the first node of the
node-set in document order, `null` when the set is empty. -/
def getNodeByXPath (evaluate : String → Document → Except String (List Ref))
    (doc : Document) (xpath : String) : Option Ref :=
  if xpath = "" then none
  else
    match evaluate xpath doc with
    | Except.ok nodes => nodes.head?
    | Except.error _ => none

/-! ### Documents with HTML element names -/

/-- Characters that start the `nodeName` of an HTML element. -/
def upperStartChars : List Char :=
  "ABCDEFGHIJKLMNOPQRSTUVWXYZ".data

/-- Characters of the `nodeName` of an HTML element. -/
def upperChars : List Char :=
  "ABCDEFGHIJKLMNOPQRSTUVWXYZ0123456789-_.".data

/-- The `nodeName` of an HTML element in an HTML document, in ASCII: an
uppercase letter followed by uppercase letters, digits, `-`, `_` or `.`. -/
def isHtmlName : List Char → Bool
  | [] => false
  | c :: rest => upperStartChars.contains c && rest.all (fun d => upperChars.contains d)

mutual
/-- Every element of the subtree has an HTML element name. -/
def Node.htmlNames : Node → Bool
  | Node.element nodeName _ cs => isHtmlName nodeName.data && htmlNamesList cs
  | _ => true
/-- Every element below a sibling list has an HTML element name. -/
def htmlNamesList : List Node → Bool
  | [] => true
  | n :: rest => n.htmlNames && htmlNamesList rest
end

/-- The nodes the encoder is meant for: an element, or a text node whose
parent is an element. -/
def anchorable (doc : Document) (ref : Ref) : Bool :=
  match nodeAt doc ref with
  | some (Node.element _ _ _) => true
  | some (Node.text _) => decide (2 ≤ ref.length)
  | _ => false

/-- The steps that lead to a node, root first, as the specification describes
the path: a name step per element level, a `text()` step for a text node. -/
def specSteps : List Node → Ref → List Step
  | _, [] => []
  | ns, i :: rest =>
    match ns[i]? with
    | some (Node.element nodeName _ cs) =>
      let k := 1 + (ns.take i).countP (Node.hasName nodeName)
      { test := NodeTest.name (toLowerCase nodeName)
        position := if k = 1 then none else some k } :: specSteps cs rest
    | some (Node.text _) =>
      [{ test := NodeTest.text, position := some ((ns.take i).countP Node.isText + 1) }]
    | _ => []

/-- A page with an element whose tag name is `p[2]`, as the HTML parser
creates for the markup `<p[2]>`. -/
def bracketDoc : Document :=
  { childNodes := [Node.element "HTML" none [Node.element "BODY" none
      [Node.element "P" none [Node.text (utf16 "a")],
       Node.element "P" none [Node.text (utf16 "b")],
       Node.element "P[2]" none [Node.text (utf16 "c")]]]] }

/-- A tree with two sibling elements whose names differ only in letter case. -/
def caseDoc : Document :=
  { childNodes := [Node.element "root" none
      [Node.element "Item" none [], Node.element "item" none []]] }

/-! ### Identifiers -/

/-- One digit of `Number.prototype.toString(36)`. -/
def digit36 (d : Nat) : Char :=
  if d < 10 then Char.ofNat (48 + d) else Char.ofNat (87 + d)

/-- Digits of a natural number in base 36, most significant first. -/
def toString36Core : Nat → Nat → List Char → List Char
  | 0, _, ds => ds
  | fuel + 1, n, ds =>
    let d := digit36 (n % 36)
    let n' := n / 36
    if n' = 0 then d :: ds else toString36Core fuel n' (d :: ds)

/-- The call `n.toString(36)` for a natural number. -/
def toString36 (n : Nat) : String :=
  String.mk (toString36Core (n + 1) n [])

/-- The function `genId`, as a function of its argument, of the value of
`Date.now()` (milliseconds) and of the value of `Math.random()` (a number of
`[0, 1)`) at the call. -/
def genId (pre : String) (now : Nat) (random : ℚ) : String :=
  pre ++ "_" ++ toString36 now ++ "_" ++ toString36 (Int.toNat ⌊random * 1000000⌋)

/-! ### The per-site store -/

/-- A persisted highlight. -/
structure HighlightRecord where
  id : String
  color : String
  startXPath : String
  startOffset : Nat
  endXPath : String
  endOffset : Nat
  selectedText : String
  deriving DecidableEq, Repr

/-- A persisted sticky note. -/
structure NoteRecord where
  id : String
  text : String
  x : Int
  y : Int
  color : String
  deriving DecidableEq, Repr

/-- The collection stored under the site's hostname. -/
structure SiteData where
  notes : List NoteRecord
  highlights : List HighlightRecord
  deriving DecidableEq, Repr

/-- The function `loadSiteData`: `data[SITE] || { notes: [], highlights: [] }`. -/
def loadSiteData (store : Option SiteData) : SiteData :=
  match store with
  | some siteData => siteData
  | none => { notes := [], highlights := [] }

/-- The page as the content script sees it: the document and the value stored
for the site (`none` before the first write). -/
structure Page where
  doc : Document
  store : Option SiteData

/-! ### Markers in the document -/

mutual
/-- First element, in document order, inside a node (the node included) that
is a marker with the given id; the reference is relative to the node. -/
def Node.findMarker (id : String) : Node → Option Ref
  | Node.element _ hid cs => if hid = some id then some [] else findMarkerList id cs 0
  | _ => none
/-- First marker with the given id in a sibling list whose first index is `j`. -/
def findMarkerList (id : String) : List Node → Nat → Option Ref
  | [], _ => none
  | n :: rest, j =>
    match n.findMarker id with
    | some r => some (j :: r)
    | none => findMarkerList id rest (j + 1)
end

/-- What `document.querySelector` finds for the marker selector of an id. -/
def findMarker (id : String) (doc : Document) : Option Ref :=
  findMarkerList id doc.childNodes 0

/-- The selector string built by `removeHighlightById`. -/
def markerSelector (id : String) : String :=
  ".saved-highlight[data-hid=\"" ++ id ++ "\"]"

/-- The DOM step of `removeHighlightById` inside a sibling list: every child
of the element is moved in front of it, in order, and the element is removed. -/
def unwrapIn : List Node → Ref → List Node
  | ns, [] => ns
  | ns, [i] =>
    match ns[i]? with
    | some el => ns.take i ++ el.kids ++ ns.drop (i + 1)
    | none => ns
  | ns, i :: j :: rest =>
    match ns[i]? with
    | some (Node.element nodeName hid cs) =>
      ns.set i (Node.element nodeName hid (unwrapIn cs (j :: rest)))
    | _ => ns

/-- Reading of `nodeType === Node.COMMENT_NODE`. -/
def Node.isComment : Node → Bool
  | Node.comment _ => true
  | _ => false

/-- The DOM step of `removeHighlightById` on the element `el` (if any):
`while (el.firstChild) parent.insertBefore(el.firstChild, el)` and then
`parent.removeChild(el)`.  An element takes any child.  The document does
not: when the parent of `el` is the document, `insertBefore` throws
`HierarchyRequestError` at the first child of `el` that is a text node or an
element (the document has an element child already, `el` itself), and only
comments can be moved out. -/
def unwrapAt (doc : Document) (el : Option Ref) : Except String Document :=
  match el with
  | none => Except.ok doc
  | some [i] =>
    match doc.childNodes[i]? with
    | some marker =>
      if marker.kids.all Node.isComment then
        Except.ok { childNodes := unwrapIn doc.childNodes [i] }
      else Except.error "HierarchyRequestError"
    | none => Except.ok doc
  | some ref => Except.ok { childNodes := unwrapIn doc.childNodes ref }

/-- The function `removeHighlightById`.  The host's `querySelector` receives
the selector string and either returns the first matching element or throws
(a selector it cannot parse).  An exception of the DOM step leaves the
function at once: the storage step, which comes after it, runs only when the
DOM step has returned.  `Except.error` stands for such an exception; the
stored value is then as it was. -/
def removeHighlightById (querySelector : String → Document → Except String (Option Ref))
    (id : String) (page : Page) : Except String Page :=
  if id = "" then Except.ok page
  else
    match querySelector (markerSelector id) page.doc with
    | Except.error e => Except.error e
    | Except.ok el =>
      match unwrapAt page.doc el with
      | Except.error e => Except.error e
      | Except.ok doc =>
        let siteData := loadSiteData page.store
        Except.ok
          { doc := doc
            store := some { siteData with
              highlights := siteData.highlights.filter (fun h => h.id != id) } }

/-- A message delivered to the content script. -/
structure Message where
  action : String
  id : String

/-- The message listener.  Only the `remove-highlight` branch is spelled out;
the other actions are handled by `others`. -/
def onMessage (querySelector : String → Document → Except String (Option Ref))
    (others : Message → Page → Except String Page) (msg : Message) (page : Page) :
    Except String Page :=
  if msg.action = "" then Except.ok page
  else if msg.action = "highlight-selection" then others msg page
  else if msg.action = "remove-highlight" then removeHighlightById querySelector msg.id page
  else others msg page

/-! ### The sync step -/

/-- An element matched by `querySelectorAll('.saved-highlight')`, as far as
`saveAllData` reads it; an absent attribute reads as the empty string. -/
structure LiveMarker where
  hid : Option String
  dataColor : String
  styleBackgroundColor : String
  innerText : String
  textContent : String

/-- What `saveAllData` collects from a live marker. -/
structure DomHighlight where
  id : Option String
  color : String
  selectedText : String

/-- The operator `a || b` on strings. -/
def orElse (a b : String) : String :=
  if a = "" then b else a

/-- The mapping applied to each live marker by `saveAllData`. -/
def domHighlightOf (h : LiveMarker) : DomHighlight :=
  { id := h.hid
    color := orElse h.dataColor (orElse h.styleBackgroundColor "yellow")
    selectedText := orElse h.innerText (orElse h.textContent "") }

/-- The function `saveAllData`: the collection it writes, given the notes it
collected, the live markers and the stored value. -/
def saveAllData (notes : List NoteRecord) (markers : List LiveMarker)
    (store : Option SiteData) : SiteData :=
  let domHighlights := markers.map domHighlightOf
  let siteData := loadSiteData store
  { notes := notes
    highlights := siteData.highlights.map (fun h =>
      match domHighlights.find? (fun d => d.id == some h.id) with
      | some dom => { h with color := dom.color, selectedText := dom.selectedText }
      | none => h) }

/-! ### Ranges and the highlight materializer

The `Range` methods belong to the browser.  They are modelled after the DOM
standard, on boundary points that lie in the document, an element, a text
node or a comment; offsets into character data count UTF-16 code units. -/

/-- A boundary point: a container and an offset into it. -/
structure BoundaryPoint where
  node : Ref
  offset : Nat
  deriving DecidableEq, Repr

/-- A live range. -/
structure Range where
  startPoint : BoundaryPoint
  endPoint : BoundaryPoint
  deriving DecidableEq, Repr

/-- The length of a node: number of children, or of code units. -/
def Node.length : Node → Nat
  | Node.element _ _ cs => cs.length
  | Node.text d => d.length
  | Node.comment d => d.length

/-- The length of the node (or document) a reference denotes. -/
def lengthAt (doc : Document) (ref : Ref) : Option Nat :=
  match ref with
  | [] => some doc.childNodes.length
  | _ => (nodeAt doc ref).map Node.length

/-- Lexicographic order on index lists, a proper initial part coming first. -/
def lexLe : List Nat → List Nat → Bool
  | [], _ => true
  | _ :: _, [] => false
  | x :: xs, y :: ys => x < y || (x == y && lexLe xs ys)

/-- Tree order of boundary points (`a` is before or equal to `b`). -/
def BoundaryPoint.le (a b : BoundaryPoint) : Bool :=
  lexLe (a.node ++ [a.offset]) (b.node ++ [b.offset])

/-- The range `document.createRange()` returns. -/
def createRange : Range :=
  { startPoint := { node := [], offset := 0 }, endPoint := { node := [], offset := 0 } }

/-- Conversion of a stored offset to the `unsigned long` the `Range` methods
take: a non-negative integer is reduced modulo 2^32. -/
def toUnsignedLong (offset : Nat) : Nat :=
  offset % 4294967296

/-- The method `range.setStart(node, offset)`; `none` stands for the
`IndexSizeError` thrown when the offset exceeds the node's length. -/
def setStart (doc : Document) (range : Range) (node : Ref) (offset : Nat) : Option Range :=
  match lengthAt doc node with
  | some len =>
    if toUnsignedLong offset > len then none
    else
      let bp : BoundaryPoint := { node := node, offset := toUnsignedLong offset }
      if bp.le range.endPoint then some { range with startPoint := bp }
      else some { startPoint := bp, endPoint := bp }
  | none => none

/-- The method `range.setEnd(node, offset)`. -/
def setEnd (doc : Document) (range : Range) (node : Ref) (offset : Nat) : Option Range :=
  match lengthAt doc node with
  | some len =>
    if toUnsignedLong offset > len then none
    else
      let bp : BoundaryPoint := { node := node, offset := toUnsignedLong offset }
      if range.startPoint.le bp then some { range with endPoint := bp }
      else some { startPoint := bp, endPoint := bp }
  | none => none

/-- Code units `a` to `b` of character data. -/
def substringData (d : List Nat) (a b : Nat) : List Nat :=
  (d.drop a).take (b - a)

/-- Character data without its code units `a` to `b`. -/
def deleteData (d : List Nat) (a b : Nat) : List Nat :=
  d.take a ++ d.drop b

/-- Extraction from a boundary point inside a partially contained node to the
end of that node: what stays in the tree and the clone that goes to the
fragment. -/
def extractTail : Node → Ref → Nat → Node × Node
  | Node.text d, _, off =>
    (Node.text (d.take off), Node.text (d.drop off))
  | Node.comment d, _, off =>
    (Node.comment (d.take off), Node.comment (d.drop off))
  | Node.element name hid cs, [], off =>
    (Node.element name hid (cs.take off), Node.element name hid (cs.drop off))
  | Node.element name hid cs, i :: rest, off =>
    match cs[i]? with
    | some c =>
      let x := extractTail c rest off
      (Node.element name hid (cs.take i ++ [x.1]), Node.element name hid (x.2 :: cs.drop (i + 1)))
    | none => (Node.element name hid cs, Node.element name hid [])

/-- Extraction from the beginning of a partially contained node to a boundary
point inside it. -/
def extractHead : Node → Ref → Nat → Node × Node
  | Node.text d, _, off =>
    (Node.text (d.drop off), Node.text (d.take off))
  | Node.comment d, _, off =>
    (Node.comment (d.drop off), Node.comment (d.take off))
  | Node.element name hid cs, [], off =>
    (Node.element name hid (cs.drop off), Node.element name hid (cs.take off))
  | Node.element name hid cs, j :: rest, off =>
    match cs[j]? with
    | some c =>
      let x := extractHead c rest off
      (Node.element name hid (x.1 :: cs.drop (j + 1)), Node.element name hid (cs.take j ++ [x.2]))
    | none => (Node.element name hid cs, Node.element name hid [])

/-- Result of extracting a range and inserting a new element at its start. -/
inductive WrapResult where
  | inserted (ns : List Node)
  | failed (ns : List Node) (point : BoundaryPoint)

/-- Insertion of the new element between what precedes and what follows the
extracted contents.  A document cannot take a second element child: the
insertion then throws, after the extraction. -/
def finishWrap (mk : List Node → Node) (top : Bool)
    (before fragment after : List Node) : WrapResult :=
  if top && (before ++ after).any Node.isElement then
    WrapResult.failed (before ++ after) { node := [], offset := before.length }
  else WrapResult.inserted (before ++ [mk fragment] ++ after)

/-- The contents of a range whose common ancestor container is the context
node with children `ns` (both boundary points in the context itself, in two
different children, or in one and the same text child): the children that
stay before the range, the nodes of the extracted fragment, and the children
that stay after it. -/
def splitAround (ns : List Node) : Ref → Nat → Ref → Nat →
    Option (List Node × List Node × List Node)
  | [], so, [], eo => some (ns.take so, (ns.drop so).take (eo - so), ns.drop eo)
  | [], so, j :: pe, eo =>
    match ns[j]? with
    | some c =>
      some (ns.take so, (ns.drop so).take (j - so) ++ [(extractHead c pe eo).2],
        (extractHead c pe eo).1 :: ns.drop (j + 1))
    | none => none
  | i :: ps, so, [], eo =>
    match ns[i]? with
    | some c =>
      some (ns.take i ++ [(extractTail c ps so).1],
        (extractTail c ps so).2 :: (ns.drop (i + 1)).take (eo - (i + 1)), ns.drop eo)
    | none => none
  | i :: ps, so, j :: pe, eo =>
    if i = j then
      match ns[i]?, ps, pe with
      | some (Node.text d), [], [] =>
        some (ns.take i ++ [Node.text (d.take so)],
          if so = eo then [] else [Node.text (substringData d so eo)],
          Node.text (d.drop eo) :: ns.drop (i + 1))
      | _, _, _ => none
    else
      match ns[i]?, ns[j]? with
      | some c, some c' =>
        some (ns.take i ++ [(extractTail c ps so).1],
          (extractTail c ps so).2 :: (ns.drop (i + 1)).take (j - (i + 1))
            ++ [(extractHead c' pe eo).2],
          (extractHead c' pe eo).1 :: ns.drop (j + 1))
      | _, _ => none

/-- Extraction and insertion at the level of the common ancestor container. -/
def wrapHere (mk : List Node → Node) (top : Bool) (ns : List Node)
    (sp : Ref) (so : Nat) (ep : Ref) (eo : Nat) : WrapResult :=
  match splitAround ns sp so ep eo with
  | some (before, fragment, after) => finishWrap mk top before fragment after
  | none => WrapResult.failed ns { node := [], offset := 0 }

/-- The child through which both boundary points pass, if there is one. -/
def sharedChild (ns : List Node) : Ref → Ref → Option (Nat × Node)
  | i :: _, j :: _ => if i = j then (ns[i]?).map (fun c => (i, c)) else none
  | _, _ => none

/-- Net effect, on the children `ns` of a context node, of extracting the
contents of a range and inserting at its start the element `mk fragment`
that holds them.  `top` tells that the context is the document.  Inside a
comment the extraction takes place and the insertion throws. -/
def wrapIn (mk : List Node → Node) : Bool → List Node → Ref → Nat → Ref → Nat → WrapResult
  | top, ns, [], so, ep, eo => wrapHere mk top ns [] so ep eo
  | top, ns, i :: ps, so, ep, eo =>
    match sharedChild ns (i :: ps) ep with
    | some (_, Node.element name hid cs) =>
      match wrapIn mk false cs ps so ep.tail eo with
      | WrapResult.inserted ks => WrapResult.inserted (ns.set i (Node.element name hid ks))
      | WrapResult.failed ks pt =>
        WrapResult.failed (ns.set i (Node.element name hid ks))
          { node := i :: pt.node, offset := pt.offset }
    | some (_, Node.comment d) =>
      WrapResult.failed (ns.set i (Node.comment (deleteData d so eo)))
        { node := [i], offset := so }
    | _ => wrapHere mk top ns (i :: ps) so ep eo

/-- How a host call ends: it returns, or it throws; the document is as the
call left it, and so is the range after a throw. -/
inductive Outcome where
  | returned (doc : Document)
  | threw (doc : Document) (range : Range)

/-- Whether a reference begins with another one. -/
def startsWith : Ref → Ref → Bool
  | _, [] => true
  | [], _ :: _ => false
  | x :: xs, y :: ys => x == y && startsWith xs ys

/-- Whether some inclusive ancestor of `a` that is not a text node is not an
inclusive ancestor of `b`. -/
def ancestorOnlyOf (doc : Document) (a b : Ref) : Bool :=
  (List.range a.length).any (fun k =>
    !(startsWith b (a.take (k + 1))) &&
      !(match nodeAt doc (a.take (k + 1)) with
        | some n => n.isText
        | none => false))

/-- Whether the range partially contains a node that is not a text node. -/
def partiallyContainsNonText (doc : Document) (range : Range) : Bool :=
  ancestorOnlyOf doc range.startPoint.node range.endPoint.node
    || ancestorOnlyOf doc range.endPoint.node range.startPoint.node

/-- The calls `range.extractContents()`, `wrapper.appendChild(content)` and
`range.insertNode(wrapper)` in sequence. -/
def extractThenInsert (doc : Document) (range : Range) (mk : List Node → Node) : Outcome :=
  match wrapIn mk true doc.childNodes range.startPoint.node range.startPoint.offset
      range.endPoint.node range.endPoint.offset with
  | WrapResult.inserted ns => Outcome.returned { childNodes := ns }
  | WrapResult.failed ns pt =>
    Outcome.threw { childNodes := ns } { startPoint := pt, endPoint := pt }

/-- The method `range.surroundContents(newParent)`: it throws at once when a
node other than a text node is partially contained, otherwise it extracts the
contents, inserts the new parent and moves the contents into it. -/
def surroundContents (doc : Document) (range : Range) (mk : List Node → Node) : Outcome :=
  if partiallyContainsNonText doc range then Outcome.threw doc range
  else extractThenInsert doc range mk

/-- The marker element for a highlight id: a `span` of class `saved-highlight`
with `data-hid` set. -/
def markerSpan (id : String) (kids : List Node) : Node :=
  Node.element "SPAN" (some id) kids

/-- The `try { range.surroundContents(span) } catch { ... }` block shared by
`createHighlightFromSelection` and `restoreHighlight`. -/
def wrapWithFallback (doc : Document) (range : Range) (id : String) : Outcome :=
  match surroundContents doc range (markerSpan id) with
  | Outcome.returned d => Outcome.returned d
  | Outcome.threw d r => extractThenInsert d r (markerSpan id)

/-- The function `restoreHighlight`, over the host's evaluator. -/
def restoreHighlight (evaluate : String → Document → Except String (List Ref))
    (doc : Document) (h : HighlightRecord) : Outcome :=
  match getNodeByXPath evaluate doc h.startXPath, getNodeByXPath evaluate doc h.endXPath with
  | some startNode, some endNode =>
    match (setStart doc createRange startNode h.startOffset).bind
        (fun r => setEnd doc r endNode h.endOffset) with
    | some range => wrapWithFallback doc range h.id
    | none => Outcome.returned doc
  | _, _ => Outcome.returned doc

/-- The document an outcome leaves. -/
def Outcome.doc : Outcome → Document
  | Outcome.returned d => d
  | Outcome.threw d _ => d

/-- The highlights loop of `restoreAll`: every record is attempted in order
and an exception of `restoreHighlight` is caught and logged. -/
def restoreHighlights (evaluate : String → Document → Except String (List Ref))
    (doc : Document) : List HighlightRecord → Document
  | [] => doc
  | h :: rest => restoreHighlights evaluate (restoreHighlight evaluate doc h).doc rest

/-- The subtree `createNote` builds: a `div` that holds a header `div` (a
title `span` and a close `button`) and a `textarea`, whose value is not a
child node. -/
def noteElement : Node :=
  Node.element "DIV" none
    [Node.element "DIV" none
      [Node.element "SPAN" none [Node.text (utf16 "Note")],
       Node.element "BUTTON" none [Node.text (utf16 "X")]],
     Node.element "TEXTAREA" none []]

/-- Replace the first node of a sibling list that satisfies `p` by what `f`
makes of it; `none` when no node satisfies `p` or `f` gives nothing. -/
def updateFirst (p : Node → Bool) (f : Node → Option Node) : List Node → Option (List Node)
  | [] => none
  | n :: rest =>
    if p n then (f n).map (fun n' => n' :: rest)
    else (updateFirst p f rest).map (fun rest' => n :: rest')

/-- A `body` or `frameset` element of an HTML document. -/
def Node.isBody : Node → Bool
  | Node.element nodeName _ _ => decide (nodeName = "BODY") || decide (nodeName = "FRAMESET")
  | _ => false

/-- The node with one more child at the end (an element only). -/
def Node.appendChild (n : Node) : Node → Option Node
  | Node.element nodeName hid cs => some (Node.element nodeName hid (cs ++ [n]))
  | _ => none

/-- Append a child to `document.body` inside the document element: the body
is the first `body` or `frameset` child of an `html` document element. -/
def appendInBody (n : Node) : Node → Option Node
  | Node.element nodeName hid cs =>
    if nodeName = "HTML" then
      (updateFirst Node.isBody (Node.appendChild n) cs).map
        (fun cs' => Node.element nodeName hid cs')
    else none
  | _ => none

/-- The call `document.body.appendChild(n)`; `none` stands for the
`TypeError` thrown when `document.body` is `null`. -/
def appendToBody (doc : Document) (n : Node) : Option Document :=
  (updateFirst Node.isElement (appendInBody n) doc.childNodes).map
    (fun ns => { childNodes := ns })

/-- The function `createNote`, as far as the document tree is concerned. -/
def createNote (doc : Document) (_note : NoteRecord) : Option Document :=
  appendToBody doc noteElement

/-- The notes loop of `restoreAll`: `createNote` for every stored note, in
order, outside any `try`: an exception ends the loop and `restoreAll`. -/
def restoreNotes (doc : Document) : List NoteRecord → Option Document
  | [] => some doc
  | n :: rest =>
    match createNote doc n with
    | some d => restoreNotes d rest
    | none => none

/-- The function `restoreAll` on the stored collection: the notes loop, then
the highlights loop on the document the notes loop leaves.  `none` stands for
an exception that leaves `restoreAll`. -/
def restoreAll (evaluate : String → Document → Except String (List Ref))
    (doc : Document) (siteData : SiteData) : Option Document :=
  match restoreNotes doc siteData.notes with
  | some d => some (restoreHighlights evaluate d siteData.highlights)
  | none => none

mutual
/-- The `textContent` of a node: the data of its text nodes in document order,
in code units. -/
def Node.textContent : Node → List Nat
  | Node.element _ _ cs => textContentList cs
  | Node.text d => d
  | Node.comment _ => []
/-- The concatenated `textContent` of a sibling list. -/
def textContentList : List Node → List Nat
  | [] => []
  | n :: rest => n.textContent ++ textContentList rest
end

mutual
/-- Number of nodes of a subtree. -/
def Node.size : Node → Nat
  | Node.element _ _ cs => 1 + sizeList cs
  | _ => 1
/-- Number of nodes below a sibling list. -/
def sizeList : List Node → Nat
  | [] => 0
  | n :: rest => n.size + sizeList rest
end

/-- The shape every document has at its top: at most one element child and
no text child. -/
def Document.wellFormed (doc : Document) : Bool :=
  decide (doc.childNodes.countP Node.isElement ≤ 1)
    && doc.childNodes.all (fun n => !n.isText)

/-- A reference to an element or a text node inside a sibling list. -/
def pointsToContent (ns : List Node) (ref : Ref) : Bool :=
  match nodeIn ns ref with
  | some n => n.isElement || n.isText
  | none => false

/-- A range whose boundary points lie in elements or text nodes of the
document, the start not after the end. -/
def contentRange (doc : Document) (range : Range) : Bool :=
  pointsToContent doc.childNodes range.startPoint.node
    && pointsToContent doc.childNodes range.endPoint.node
    && range.startPoint.le range.endPoint

/-- Whether a record is turned into a range by `restoreHighlight`: both paths
resolve and both offsets are accepted. -/
def restorable (evaluate : String → Document → Except String (List Ref))
    (doc : Document) (h : HighlightRecord) : Bool :=
  match getNodeByXPath evaluate doc h.startXPath, getNodeByXPath evaluate doc h.endXPath with
  | some startNode, some endNode =>
    ((setStart doc createRange startNode h.startOffset).bind
      (fun r => setEnd doc r endNode h.endOffset)).isSome
  | _, _ => false

/-- Whether a record's paths, where they resolve, lead to an element or a
text node (not to the document node, a comment or a node outside the tree). -/
def contentAnchored (evaluate : String → Document → Except String (List Ref))
    (doc : Document) (h : HighlightRecord) : Bool :=
  (match getNodeByXPath evaluate doc h.startXPath with
    | some ref => pointsToContent doc.childNodes ref
    | none => true)
  && (match getNodeByXPath evaluate doc h.endXPath with
    | some ref => pointsToContent doc.childNodes ref
    | none => true)

/-- Whether every record of a list is `contentAnchored` in the document it
meets when the highlights loop comes to it. -/
def anchoredInContent (evaluate : String → Document → Except String (List Ref))
    (doc : Document) : List HighlightRecord → Bool
  | [] => true
  | h :: rest =>
    contentAnchored evaluate doc h
      && anchoredInContent evaluate (restoreHighlight evaluate doc h).doc rest

/-- Characters that stand for themselves between the quotes of an attribute
selector; an id that `genId` returns is made of them. -/
def plainIdChars : List Char :=
  "ABCDEFGHIJKLMNOPQRSTUVWXYZabcdefghijklmnopqrstuvwxyz0123456789_-".data

/-- A non-empty id made of letters, digits, `_` and `-`. -/
def isPlainId (id : String) : Bool :=
  !id.data.isEmpty && id.data.all (fun c => plainIdChars.contains c)

/-- The character list without the given beginning, if it begins so. -/
def stripHead : List Char → List Char → Option (List Char)
  | [], cs => some cs
  | _ :: _, [] => none
  | p :: ps, c :: cs => if p = c then stripHead ps cs else none

/-- The id of a selector of the form `.saved-highlight[data-hid="id"]` whose
id is plain. -/
def parseMarkerSelector (selector : String) : Option String :=
  match stripHead ".saved-highlight[data-hid=\"".data selector.data with
  | some rest =>
    let idChars := rest.takeWhile (fun c => plainIdChars.contains c)
    if idChars ≠ [] ∧ rest.dropWhile (fun c => plainIdChars.contains c) = "\"]".data then
      some (String.mk idChars)
    else none
  | none => none

/-- The host function `document.querySelector` on the selectors
`removeHighlightById` builds from a plain id: the first element, in document
order, that is a marker with this id.  The model gives no answer for any
other selector (it reports an error). -/
def documentQuerySelector (selector : String) (doc : Document) : Except String (Option Ref) :=
  match parseMarkerSelector selector with
  | some id => Except.ok (findMarker id doc)
  | none => Except.error "SyntaxError"

/-- Wrapping a range in a marker and at once unwrapping it with the DOM step
of `removeHighlightById`: the document that results, if both steps return. -/
def wrapThenUnwrap (doc : Document) (range : Range) (id : String) : Option Document :=
  match wrapWithFallback doc range id with
  | Outcome.returned wrapped =>
    match removeHighlightById documentQuerySelector id { doc := wrapped, store := none } with
    | Except.ok page => some page.doc
    | Except.error _ => none
  | Outcome.threw _ _ => none

/-- Whether both boundary points of a range lie in one and the same element:
the range selects whole children of that element. -/
def sameElementContainer (doc : Document) (range : Range) : Bool :=
  decide (range.startPoint.node = range.endPoint.node)
    && (match nodeAt doc range.startPoint.node with
      | some n => n.isElement
      | none => false)

/-- The sibling list `ns'` is the sibling list `ns` up to cuts: every node of
`ns` is in `ns'`, in order, either as it is, or, a text node, as one or more
adjacent text nodes whose data put end to end are its data, or, an element,
as one or more adjacent elements of the same name and marker attribute whose
children put end to end are its children up to cuts. -/
inductive Cut : List Node → List Node → Prop
  | nil : Cut [] []
  | keep (n : Node) {ns ns' : List Node} : Cut ns ns' → Cut (n :: ns) (n :: ns')
  | text (pieces : List (List Nat)) {ns ns' : List Node} :
      pieces ≠ [] → Cut ns ns' →
      Cut (Node.text pieces.flatten :: ns) (pieces.map Node.text ++ ns')
  | element (nodeName : String) (hid : Option String) (parts : List (List Node))
      {cs ns ns' : List Node} :
      parts ≠ [] → Cut cs parts.flatten → Cut ns ns' →
      Cut (Node.element nodeName hid cs :: ns)
        (parts.map (Node.element nodeName hid) ++ ns')

/-- The first paragraph of the sample page as a whole: a child range of
`body`. -/
def sampleWholeRange : Range :=
  { startPoint := { node := [0, 0], offset := 0 },
    endPoint := { node := [0, 0], offset := 1 } }

/-- The comment of the second paragraph of the sample page, from end to end. -/
def sampleCommentRange : Range :=
  { startPoint := { node := [0, 0, 1, 1], offset := 0 },
    endPoint := { node := [0, 0, 1, 1], offset := 1 } }

/-- The first character of the second paragraph of the sample page. -/
def sampleSecondRange : Range :=
  { startPoint := { node := [0, 0, 1, 0], offset := 0 },
    endPoint := { node := [0, 0, 1, 0], offset := 1 } }

/-- A stored record whose range is the whole document: from the start of the
document node to its end. -/
def wholeDocRecord : HighlightRecord :=
  { id := "h_d1", color := "yellow", startXPath := "/", startOffset := 0,
    endXPath := "/", endOffset := 1, selectedText := "abcdef" }

/-- The sample page after `restoreAll` has materialized `wholeDocRecord`: the
marker is the document element. -/
def rootMarkerDoc : Document :=
  { childNodes := [Node.element "SPAN" (some "h_d1") sampleDoc.childNodes] }

/-- A stored record inside the comment of the second paragraph of the sample
page. -/
def commentRecord : HighlightRecord :=
  { id := "h_c", color := "yellow", startXPath := "/html/body/p[2]/comment()",
    startOffset := 0, endXPath := "/html/body/p[2]/comment()", endOffset := 1,
    selectedText := "c" }

/-- An HTML document without `body` (a script of the page has removed it):
`html > head > title "ab"`. -/
def noBodyDoc : Document :=
  { childNodes := [Node.element "HTML" none [Node.element "HEAD" none
      [Node.element "TITLE" none [Node.text (utf16 "ab")]]]] }

/-- A stored record for the first character of the title of `noBodyDoc`. -/
def titleRecord : HighlightRecord :=
  { id := "h_t", color := "yellow", startXPath := "/html/head/title/text()[1]",
    startOffset := 0, endXPath := "/html/head/title/text()[1]", endOffset := 1,
    selectedText := "a" }

/-- A stored sticky note. -/
def sampleNote : NoteRecord :=
  { id := "n_1", text := "todo", x := 150, y := 150, color := "#fff59b" }

/-- The sample page after the notes loop has restored one note. -/
def notedDoc : Document :=
  { childNodes := [Node.element "HTML" none [Node.element "BODY" none
      [Node.element "P" none [Node.text (utf16 "ab")],
       Node.element "P" none [Node.text (utf16 "cd"), Node.comment (utf16 "c"),
         Node.text (utf16 "ef")],
       Node.element "DIV" none [],
       noteElement]]] }

/-- The first character of the first paragraph of the sample page. -/
def sampleTextRange : Range :=
  { startPoint := { node := [0, 0, 0, 0], offset := 0 },
    endPoint := { node := [0, 0, 0, 0], offset := 1 } }

/-- From inside the first paragraph of the sample page to inside the second. -/
def sampleCrossRange : Range :=
  { startPoint := { node := [0, 0, 0, 0], offset := 1 },
    endPoint := { node := [0, 0, 1, 2], offset := 1 } }

/-- A stored record whose two paths are `/`, the path of the document node. -/
def slashRecord : HighlightRecord :=
  { id := "h_doc", color := "yellow", startXPath := "/", startOffset := 0,
    endXPath := "/", endOffset := 0, selectedText := "" }

/-- A stored record whose start path matches no node of the sample page. -/
def lostRecord : HighlightRecord :=
  { id := "h_lost", color := "yellow", startXPath := "/html/body/p[7]/text()[1]",
    startOffset := 0, endXPath := "/html/body/p/text()[1]", endOffset := 1,
    selectedText := "x" }

/-- A stored record for the second character of the first paragraph of the
sample page. -/
def goodRecord : HighlightRecord :=
  { id := "h_good", color := "yellow", startXPath := "/html/body/p/text()[1]",
    startOffset := 1, endXPath := "/html/body/p/text()[1]", endOffset := 2,
    selectedText := "b" }

/-- Whether `document.body` is an element: the document element is `html`
and has a `body` or `frameset` child (names as `nodeName` reports them in an
HTML document). -/
def hasBody (doc : Document) : Bool :=
  (appendToBody doc noteElement).isSome

/-! ### Navigation lemmas -/

theorem nodeIn_cons (ns : List Node) (i : Nat) (rest : Ref) (h : rest ≠ []) :
    nodeIn ns (i :: rest) = (ns[i]?).bind (fun n => nodeIn n.kids rest) := by
  cases rest with
  | nil => exact absurd rfl h
  | cons j r =>
    simp only [nodeIn]
    cases ns[i]? <;> rfl

theorem nodeIn_snoc (ns : List Node) (pre : Ref) (i : Nat) :
    nodeIn ns (pre ++ [i]) = (kidsIn ns pre).bind (fun cs => cs[i]?) := by
  induction pre generalizing ns with
  | nil => simp [nodeIn, kidsIn]
  | cons j pre ih =>
    have h1 : nodeIn ns (j :: (pre ++ [i])) = (ns[j]?).bind (fun n => nodeIn n.kids (pre ++ [i])) :=
      nodeIn_cons ns j (pre ++ [i]) (by simp)
    rw [List.cons_append, h1]
    cases pre with
    | nil =>
      cases hj : ns[j]? with
      | none => simp [kidsIn, nodeIn, hj]
      | some n => simp [kidsIn, nodeIn, hj]
    | cons k pre2 =>
      cases hj : ns[j]? with
      | none => simp [kidsIn, nodeIn, hj]
      | some n =>
        have := ih n.kids
        simp only [Option.some_bind] at this ⊢
        rw [this]
        simp [kidsIn, nodeIn, hj]

theorem kids_getElem_isElement (n : Node) (i : Nat) (m : Node) (h : n.kids[i]? = some m) :
    n.isElement = true := by
  cases n with
  | element a b c => rfl
  | text d => simp [Node.kids] at h
  | comment d => simp [Node.kids] at h

theorem kidsIn_cons (ns : List Node) (j : Nat) (pre : Ref) :
    kidsIn ns (j :: pre) = (ns[j]?).bind (fun n => kidsIn n.kids pre) := by
  cases pre with
  | nil => cases h : ns[j]? <;> simp [kidsIn, nodeIn, h]
  | cons k r =>
    cases h : ns[j]? <;> simp [kidsIn, nodeIn, h]

theorem childNodesAt_eq (doc : Document) (ref : Ref) :
    childNodesAt doc ref = kidsIn doc.childNodes ref := by
  cases ref <;> rfl

theorem kidsIn_getElem_isElement (n : Node) (pre : Ref) (sibs : List Node) (i : Nat) (m : Node)
    (h1 : kidsIn n.kids pre = some sibs) (h2 : sibs[i]? = some m) : n.isElement = true := by
  cases n with
  | element a b c => rfl
  | text d =>
    cases pre with
    | nil => simp [kidsIn, Node.kids] at h1; subst h1; simp at h2
    | cons k r => rw [kidsIn_cons] at h1; simp [Node.kids] at h1
  | comment d =>
    cases pre with
    | nil => simp [kidsIn, Node.kids] at h1; subst h1; simp at h2
    | cons k r => rw [kidsIn_cons] at h1; simp [Node.kids] at h1

/-! ### The loops of `getXPath` in closed form -/

theorem sameTagLoop_eq (sibs : List Node) (name : String) (j index : Nat) :
    sameTagLoop sibs name j index = index + (sibs.take j).countP (Node.hasName name) := by
  induction j generalizing index with
  | zero => simp [sameTagLoop]
  | succ j ih =>
    rw [sameTagLoop, List.take_succ, List.countP_append]
    cases h : sibs[j]? with
    | none => simp [ih]
    | some n =>
      cases n with
      | element a b c =>
        by_cases hn : a = name
        · simp [ih, hn, Node.hasName]; omega
        · simp [ih, hn, Node.hasName]
      | text d => simp [ih, Node.hasName]
      | comment d => simp [ih, Node.hasName]

theorem segmentOf_eq (sibs : List Node) (i : Nat) (name : String) :
    segmentOf sibs i name = specSegment sibs i name := by
  unfold segmentOf specSegment
  simp only [sameTagLoop_eq]
  by_cases h : (sibs.take i).countP (Node.hasName name) = 0
  · simp [h]
  · have h1 : 1 + (sibs.take i).countP (Node.hasName name) > 1 := by omega
    have h2 : ¬ (1 + (sibs.take i).countP (Node.hasName name) = 1) := by omega
    simp [h1, h2]

theorem textIndexLoop_eq (target : Nat) (ns : List Node) (i idx : Nat) (d : List Nat)
    (hi : i ≤ target) (h : ns[target - i]? = some (Node.text d)) :
    textIndexLoop target ns i idx
      = some (idx + (ns.take (target - i)).countP Node.isText + 1) := by
  induction ns generalizing i idx with
  | nil => simp at h
  | cons n rest ih =>
    by_cases hit : i = target
    · subst hit
      simp at h
      subst h
      simp [textIndexLoop]
    · have hlt : i < target := by omega
      obtain ⟨k, hk⟩ : ∃ k, target - i = k + 1 := ⟨target - i - 1, by omega⟩
      have hk2 : target - (i + 1) = k := by omega
      rw [hk] at h
      simp only [List.getElem?_cons_succ] at h
      have ih1 := fun idx2 => ih (i + 1) idx2 (by omega) (by rw [hk2]; exact h)
      rw [hk, List.take_succ_cons, List.countP_cons]
      cases n with
      | element a b c => simp [textIndexLoop, ih1, hk2, Node.isText]
      | text e => simp [textIndexLoop, hit, ih1, hk2, Node.isText]; omega
      | comment e => simp [textIndexLoop, ih1, hk2, Node.isText]

theorem specSegments_snoc (ns : List Node) (pre : Ref) (i : Nat) (sibs : List Node)
    (name : String) (hid : Option String) (cs : List Node)
    (h1 : kidsIn ns pre = some sibs) (h2 : sibs[i]? = some (Node.element name hid cs)) :
    specSegments ns (pre ++ [i]) = specSegments ns pre ++ [specSegment sibs i name] := by
  induction pre generalizing ns with
  | nil =>
    simp [kidsIn] at h1
    subst h1
    simp [specSegments, h2]
  | cons j pre ih =>
    rw [kidsIn_cons] at h1
    cases hj : ns[j]? with
    | none => simp [hj] at h1
    | some n =>
      simp [hj] at h1
      have hel := kidsIn_getElem_isElement n pre sibs i _ h1 h2
      cases n with
      | element a b c =>
        have e := ih c h1
        simp only [List.cons_append, specSegments, hj]
        exact congrArg _ e
      | text d => simp [Node.isElement] at hel
      | comment d => simp [Node.isElement] at hel

theorem segmentsLoop_eq (doc : Document) (ref : Ref) (acc : List String)
    (name : String) (hid : Option String) (cs : List Node)
    (h : nodeAt doc ref = some (Node.element name hid cs)) :
    segmentsLoop doc ref.reverse acc = specSegments doc.childNodes ref ++ acc := by
  induction ref using List.reverseRecOn generalizing acc name hid cs with
  | nil => simp [nodeAt, nodeIn] at h
  | append_singleton pre i ih =>
    have hn := h
    unfold nodeAt at hn
    rw [nodeIn_snoc] at hn
    cases hk : kidsIn doc.childNodes pre with
    | none => simp [hk] at hn
    | some sibs =>
      simp [hk] at hn
      have hs : segmentsLoop doc (i :: pre.reverse) acc
          = segmentsLoop doc pre.reverse (segmentOf sibs i name :: acc) := by
        have e1 : (i :: pre.reverse).reverse = pre ++ [i] := by simp
        have e2 : pre.reverse.reverse = pre := by simp
        rw [segmentsLoop, e1, e2, h, childNodesAt_eq, hk]
      rw [List.reverse_append, List.reverse_singleton, List.singleton_append, hs,
        specSegments_snoc doc.childNodes pre i sibs name hid cs hk hn, segmentOf_eq]
      cases pre with
      | nil => simp [segmentsLoop, specSegments]
      | cons j r =>
        have hp : ∃ m, nodeIn doc.childNodes (j :: r) = some m ∧ m.kids = sibs := by
          simp [kidsIn] at hk
          exact hk
        obtain ⟨m, hm, hmk⟩ := hp
        have hmel : m.isElement = true :=
          kids_getElem_isElement m i _ (by rw [hmk]; exact hn)
        cases m with
        | element a b c =>
          rw [ih _ a b c hm]
          simp
        | text d => simp [Node.isElement] at hmel
        | comment d => simp [Node.isElement] at hmel

theorem nodeIn_nil (ref : Ref) : nodeIn [] ref = none := by
  cases ref with
  | nil => rfl
  | cons j r => cases r <;> simp [nodeIn]

theorem specSegments_length (ns : List Node) (ref : Ref) (n : Node)
    (h : nodeIn ns ref = some n) (hel : n.isElement = true) :
    (specSegments ns ref).length = ref.length := by
  induction ref generalizing ns with
  | nil => rfl
  | cons i rest ih =>
    cases rest with
    | nil =>
      simp [nodeIn] at h
      cases n with
      | element a b c => simp [specSegments, h]
      | text d => simp [Node.isElement] at hel
      | comment d => simp [Node.isElement] at hel
    | cons j r =>
      rw [nodeIn_cons _ _ _ (by simp)] at h
      cases hi : ns[i]? with
      | none => simp [hi] at h
      | some m =>
        simp [hi] at h
        cases m with
        | element a b c =>
          have e := ih c h
          rw [specSegments, hi]
          simp only [List.length_cons]
          rw [e]
          rfl
        | text d => simp [Node.kids, nodeIn_nil] at h
        | comment d => simp [Node.kids, nodeIn_nil] at h

/-- The element branch of `getXPath` in closed form. -/
theorem getXPath_element (doc : Document) (ref : Ref)
    (name : String) (hid : Option String) (cs : List Node)
    (h : nodeAt doc ref = some (Node.element name hid cs)) :
    getXPath doc ref = some ("/" ++ "/".intercalate (specSegments doc.childNodes ref)) := by
  rcases List.eq_nil_or_concat ref with hnil | ⟨pre, i, hc⟩
  · subst hnil
    simp [nodeAt, nodeIn] at h
  · have hc2 : ref = pre ++ [i] := by simpa using hc
    have hs := segmentsLoop_eq doc ref [] name hid cs h
    subst hc2
    have e1 : (pre ++ [i]).reverse = i :: pre.reverse := by simp
    have e2 : (i :: pre.reverse).reverse = pre ++ [i] := by simp
    rw [e1] at hs
    unfold getXPath
    rw [e1, getXPathUp, e2, h]
    simp [Node.isText, hs]

/-- The text branch of `getXPath` in closed form. -/
theorem getXPath_text (doc : Document) (pre : Ref) (i : Nat) (sibs : List Node) (d : List Nat)
    (h1 : childNodesAt doc pre = some sibs) (h2 : sibs[i]? = some (Node.text d)) :
    getXPath doc (pre ++ [i]) = (getXPath doc pre).map
      (fun p => p ++ "/text()[" ++ toString ((sibs.take i).countP Node.isText + 1) ++ "]") := by
  have hn : nodeAt doc (pre ++ [i]) = some (Node.text d) := by
    unfold nodeAt
    rw [nodeIn_snoc, ← childNodesAt_eq, h1]
    simpa using h2
  have e1 : (pre ++ [i]).reverse = i :: pre.reverse := by simp
  have e2 : (i :: pre.reverse).reverse = pre ++ [i] := by simp
  have e3 : pre.reverse.reverse = pre := by simp
  have ht := textIndexLoop_eq i sibs 0 0 d (Nat.zero_le _) (by simpa using h2)
  unfold getXPath
  rw [e1, getXPathUp, e2, hn]
  simp only [Node.isText, if_true, e3, h1, ht]
  simp

/-- A document whose second-level parent has the children `p`, `p`, `div`. -/
theorem sampleDoc_children :
    childNodesAt sampleDoc [0, 0] = some
      [Node.element "P" none [Node.text (utf16 "ab")],
       Node.element "P" none [Node.text (utf16 "cd"), Node.comment (utf16 "c"),
         Node.text (utf16 "ef")],
       Node.element "DIV" none []] := by
  rfl

/-- C2: for an element node, `getXPath` is `/` followed by the segments of the
ancestor chain joined by `/`, one segment per level, root first; the segment
of a level is the lowercased tag alone when no preceding sibling element has
the same tag name and `tag[k]` otherwise, `k` being one more than the number
of such siblings.  On the sample parent with children `p`, `p`, `div` the
first `p` gets segment `p` and the second `p[2]`. -/
theorem getXPath_element_encoding (doc : Document) (ref : Ref)
    (name : String) (hid : Option String) (cs : List Node)
    (h : nodeAt doc ref = some (Node.element name hid cs)) :
    getXPath doc ref = some ("/" ++ "/".intercalate (specSegments doc.childNodes ref))
    ∧ (specSegments doc.childNodes ref).length = ref.length
    ∧ (∀ pre i, ref = pre ++ [i] → ∃ sibs, childNodesAt doc pre = some sibs ∧
        specSegments doc.childNodes ref
          = specSegments doc.childNodes pre ++ [specSegment sibs i name])
    ∧ getXPath sampleDoc [0, 0, 0] = some "/html/body/p"
    ∧ getXPath sampleDoc [0, 0, 1] = some "/html/body/p[2]" := by
  refine ⟨getXPath_element doc ref name hid cs h,
    specSegments_length doc.childNodes ref _ h rfl, ?_, by decide, by decide⟩
  intro pre i hr
  subst hr
  have hn := h
  unfold nodeAt at hn
  rw [nodeIn_snoc] at hn
  cases hk : kidsIn doc.childNodes pre with
  | none => simp [hk] at hn
  | some sibs =>
    simp [hk] at hn
    exact ⟨sibs, by rw [childNodesAt_eq]; exact hk,
      specSegments_snoc doc.childNodes pre i sibs name hid cs hk hn⟩

theorem getXPath_element_encoding_witness :
    nodeAt sampleDoc [0, 0, 1] = some (Node.element "P" none
        [Node.text (utf16 "cd"), Node.comment (utf16 "c"), Node.text (utf16 "ef")])
    ∧ getXPath sampleDoc [0, 0, 1]
        = some ("/" ++ "/".intercalate (specSegments sampleDoc.childNodes [0, 0, 1])) :=
  ⟨rfl, (getXPath_element_encoding sampleDoc [0, 0, 1] "P" none
      [Node.text (utf16 "cd"), Node.comment (utf16 "c"), Node.text (utf16 "ef")] rfl).1⟩

/-- C3: for a text node whose parent is an element, `getXPath` is the path of
the parent element followed by `/text()[k]`, where `k` is one more than the
number of text nodes among the children that precede it; preceding children
of any other kind do not count. -/
theorem getXPath_text_encoding (doc : Document) (pre : Ref) (i : Nat)
    (name : String) (hid : Option String) (sibs : List Node) (d : List Nat)
    (hp : nodeAt doc pre = some (Node.element name hid sibs))
    (ht : sibs[i]? = some (Node.text d)) :
    nodeAt doc (pre ++ [i]) = some (Node.text d)
    ∧ getXPath doc pre = some ("/" ++ "/".intercalate (specSegments doc.childNodes pre))
    ∧ getXPath doc (pre ++ [i])
        = some ("/" ++ "/".intercalate (specSegments doc.childNodes pre)
            ++ "/text()[" ++ toString ((sibs.take i).countP Node.isText + 1) ++ "]")
    ∧ (sibs.take i).countP Node.isText + 1
        = ((sibs.take i).filter Node.isText).length + 1 := by
  have hc : childNodesAt doc pre = some sibs := by
    cases pre with
    | nil => simp [nodeAt, nodeIn] at hp
    | cons j r => simp [childNodesAt, hp, Node.kids]
  have hpar := getXPath_element doc pre name hid sibs hp
  refine ⟨?_, hpar, ?_, by rw [List.countP_eq_length_filter]⟩
  · unfold nodeAt
    rw [nodeIn_snoc, ← childNodesAt_eq, hc]
    simpa using ht
  · rw [getXPath_text doc pre i sibs d hc ht, hpar]
    rfl

theorem getXPath_text_encoding_witness :
    getXPath sampleDoc [0, 0, 1, 2] = some "/html/body/p[2]/text()[2]" := by
  have h := (getXPath_text_encoding sampleDoc [0, 0, 1] 2 "P" none
    [Node.text (utf16 "cd"), Node.comment (utf16 "c"), Node.text (utf16 "ef")] (utf16 "ef")
    rfl rfl).2.2.1
  simpa using h

/-! ### Decimal numerals -/

theorem toDigitsCore_append (fuel n : Nat) (ds : List Char) :
    Nat.toDigitsCore 10 fuel n ds = Nat.toDigitsCore 10 fuel n [] ++ ds := by
  induction fuel generalizing n ds with
  | zero => simp [Nat.toDigitsCore]
  | succ fuel ih =>
    simp only [Nat.toDigitsCore]
    split
    · simp
    · rw [ih (n / 10) (Nat.digitChar (n % 10) :: ds), ih (n / 10) [Nat.digitChar (n % 10)]]
      simp

theorem digitChar_ok : ∀ m, m < 10 →
    (Nat.digitChar m).isDigit = true ∧ digitValue (Nat.digitChar m) = m := by
  decide

theorem toDigitsCore_ok (fuel n : Nat) (h : n < fuel) :
    Nat.toDigitsCore 10 fuel n [] ≠ []
    ∧ (∀ c ∈ Nat.toDigitsCore 10 fuel n [], c.isDigit = true)
    ∧ (Nat.toDigitsCore 10 fuel n []).foldl (fun acc c => acc * 10 + digitValue c) 0 = n := by
  induction fuel generalizing n with
  | zero => omega
  | succ fuel ih =>
    simp only [Nat.toDigitsCore]
    have hd := digitChar_ok (n % 10) (Nat.mod_lt _ (by decide))
    by_cases h0 : n / 10 = 0
    · rw [if_pos h0]
      have hn : n % 10 = n := Nat.mod_eq_of_lt (by omega)
      refine ⟨by simp, ?_, ?_⟩
      · intro c hc
        simp at hc
        rw [hc]
        exact hd.1
      · have h2 := hd.2
        rw [hn] at h2
        simp [hn, h2]
    · rw [if_neg h0, toDigitsCore_append]
      have hlt : n / 10 < fuel := by omega
      obtain ⟨_, h2, h3⟩ := ih (n / 10) hlt
      refine ⟨by simp, ?_, ?_⟩
      · intro c hc
        simp at hc
        rcases hc with hc | hc
        · exact h2 c hc
        · rw [hc]; exact hd.1
      · rw [List.foldl_append, h3]
        simp [hd.2]
        omega

theorem toString_data (k : Nat) : (toString k).data = Nat.toDigits 10 k := rfl

theorem parseDigits_toDigits (k : Nat) : parseDigits (Nat.toDigits 10 k) = some k := by
  obtain ⟨h1, h2, h3⟩ := toDigitsCore_ok (k + 1) k (Nat.lt_succ_self k)
  unfold parseDigits Nat.toDigits
  rw [if_pos ⟨h1, by simpa using h2⟩, h3]

theorem isDigit_ne_slash (c : Char) (h : c.isDigit = true) : c ≠ '/' := by
  rintro rfl
  exact absurd h (by decide)

theorem toDigits_no_slash (k : Nat) : ∀ c ∈ Nat.toDigits 10 k, c ≠ '/' := by
  intro c hc
  exact isDigit_ne_slash c ((toDigitsCore_ok (k + 1) k (Nat.lt_succ_self k)).2.1 c hc)

/-! ### Joining and cutting at `/` -/

theorem intercalate_go_data (acc sep : String) (l : List String) :
    (String.intercalate.go acc sep l).data
      = acc.data ++ l.flatMap (fun x => sep.data ++ x.data) := by
  induction l generalizing acc with
  | nil => simp [String.intercalate.go]
  | cons a as ih =>
    rw [String.intercalate.go, ih]
    simp [String.data_append]

theorem intercalate_data (sep a : String) (as : List String) :
    (sep.intercalate (a :: as)).data = a.data ++ as.flatMap (fun x => sep.data ++ x.data) := by
  rw [String.intercalate, intercalate_go_data]

theorem splitSlash_single (a : List Char) (ha : ∀ c ∈ a, c ≠ '/') : splitSlash a = [a] := by
  induction a with
  | nil => rfl
  | cons c a ih =>
    have hc : c ≠ '/' := ha c (by simp)
    rw [splitSlash, if_neg hc, ih (fun d hd => ha d (by simp [hd]))]

theorem splitSlash_cons (a rest : List Char) (ha : ∀ c ∈ a, c ≠ '/') :
    splitSlash (a ++ '/' :: rest) = a :: splitSlash rest := by
  induction a with
  | nil => simp [splitSlash]
  | cons c a ih =>
    have hc : c ≠ '/' := ha c (by simp)
    rw [List.cons_append, splitSlash, if_neg hc, ih (fun d hd => ha d (by simp [hd]))]

theorem splitSlash_join (a : List Char) (as : List (List Char))
    (ha : ∀ c ∈ a, c ≠ '/') (has : ∀ x ∈ as, ∀ c ∈ x, c ≠ '/') :
    splitSlash (a ++ as.flatMap (fun x => '/' :: x)) = a :: as := by
  induction as generalizing a with
  | nil => simpa using splitSlash_single a ha
  | cons x xs ih =>
    have e : a ++ (x :: xs).flatMap (fun y => '/' :: y)
        = a ++ '/' :: (x ++ xs.flatMap (fun y => '/' :: y)) := by
      simp [List.flatMap_cons]
    rw [e, splitSlash_cons a _ ha,
      ih x (has x (by simp)) (fun y hy => has y (by simp [hy]))]

/-! ### Names and steps -/

theorem nameChars_plain : ∀ c ∈ nameChars, c ≠ '[' ∧ c ≠ '/' ∧ c ≠ '(' := by decide

theorem nameStartChars_sub : ∀ c ∈ nameStartChars, c ∈ nameChars := by decide

theorem upperStartChars_sub : ∀ c ∈ upperStartChars, c ∈ upperChars := by decide

theorem upperChars_lower : ∀ c ∈ upperChars, c.toLower ∈ nameChars := by decide

theorem upperStartChars_lower : ∀ c ∈ upperStartChars, c.toLower ∈ nameStartChars := by decide

theorem upperChars_lower_inj :
    ∀ a ∈ upperChars, ∀ b ∈ upperChars, a.toLower = b.toLower → a = b := by decide

theorem upperChars_lower_idem : ∀ c ∈ upperChars, c.toLower.toLower = c.toLower := by decide

theorem isNCName_mem (n : List Char) (h : isNCName n = true) : ∀ c ∈ n, c ∈ nameChars := by
  cases n with
  | nil => simp [isNCName] at h
  | cons c rest =>
    simp only [isNCName, Bool.and_eq_true, List.all_eq_true] at h
    intro d hd
    simp only [List.mem_cons] at hd
    rcases hd with hd | hd
    · rw [hd]; exact nameStartChars_sub c (by simpa using h.1)
    · simpa using h.2 d hd

theorem isHtmlName_mem (n : List Char) (h : isHtmlName n = true) : ∀ c ∈ n, c ∈ upperChars := by
  cases n with
  | nil => simp [isHtmlName] at h
  | cons c rest =>
    simp only [isHtmlName, Bool.and_eq_true, List.all_eq_true] at h
    intro d hd
    simp only [List.mem_cons] at hd
    rcases hd with hd | hd
    · rw [hd]; exact upperStartChars_sub c (by simpa using h.1)
    · simpa using h.2 d hd

theorem isHtmlName_lower (n : List Char) (h : isHtmlName n = true) :
    isNCName (n.map Char.toLower) = true := by
  cases n with
  | nil => simp [isHtmlName] at h
  | cons c rest =>
    simp only [isHtmlName, Bool.and_eq_true, List.all_eq_true] at h
    simp only [List.map_cons, isNCName, Bool.and_eq_true, List.all_eq_true]
    refine ⟨?_, ?_⟩
    · simpa using upperStartChars_lower c (by simpa using h.1)
    · intro d hd
      simp only [List.mem_map] at hd
      obtain ⟨e, he, hed⟩ := hd
      rw [← hed]
      simpa using upperChars_lower e (by simpa using h.2 e he)

theorem map_lower_inj (a b : List Char) (ha : ∀ c ∈ a, c ∈ upperChars)
    (hb : ∀ c ∈ b, c ∈ upperChars) (h : a.map Char.toLower = b.map Char.toLower) : a = b := by
  induction a generalizing b with
  | nil =>
    cases b with
    | nil => rfl
    | cons d b => simp at h
  | cons c a ih =>
    cases b with
    | nil => simp at h
    | cons d b =>
      simp only [List.map_cons, List.cons.injEq] at h
      have hcd := upperChars_lower_inj c (ha c (by simp)) d (hb d (by simp)) h.1
      rw [hcd, ih b (fun x hx => ha x (by simp [hx])) (fun x hx => hb x (by simp [hx])) h.2]

theorem map_lower_idem (a : List Char) (ha : ∀ c ∈ a, c ∈ upperChars) :
    (a.map Char.toLower).map Char.toLower = a.map Char.toLower := by
  induction a with
  | nil => rfl
  | cons c a ih =>
    simp only [List.map_cons]
    rw [upperChars_lower_idem c (ha c (by simp)),
      ih (fun x hx => ha x (by simp [hx]))]

/-- Among HTML element names, the name test built from one name selects
exactly the elements carrying that name. -/
theorem selects_name_iff (name other : String)
    (h1 : isHtmlName name.data = true) (h2 : isHtmlName other.data = true) :
    (toLowerCase other = toLowerCase (toLowerCase name)) ↔ other = name := by
  have hn := isHtmlName_mem _ h1
  have ho := isHtmlName_mem _ h2
  constructor
  · intro h
    have h3 : (toLowerCase other).data = (toLowerCase (toLowerCase name)).data := by rw [h]
    simp only [toLowerCase] at h3
    rw [map_lower_idem _ hn] at h3
    have := map_lower_inj _ _ ho hn h3
    exact String.ext this
  · intro h
    subst h
    simp only [toLowerCase]
    rw [map_lower_idem _ ho]

theorem takeWhile_bracket (t rest : List Char) (ht : ∀ c ∈ t, c ≠ '[') :
    (t ++ '[' :: rest).takeWhile (fun c => c != '[') = t := by
  induction t with
  | nil => simp
  | cons c t ih =>
    have hc : (c != '[') = true := by simpa using ht c (by simp)
    rw [List.cons_append, List.takeWhile_cons, if_pos hc, ih (fun d hd => ht d (by simp [hd]))]

theorem dropWhile_bracket (t rest : List Char) (ht : ∀ c ∈ t, c ≠ '[') :
    (t ++ '[' :: rest).dropWhile (fun c => c != '[') = '[' :: rest := by
  induction t with
  | nil => simp
  | cons c t ih =>
    have hc : (c != '[') = true := by simpa using ht c (by simp)
    rw [List.cons_append, List.dropWhile_cons, if_pos hc, ih (fun d hd => ht d (by simp [hd]))]

theorem takeWhile_plain (t : List Char) (ht : ∀ c ∈ t, c ≠ '[') :
    t.takeWhile (fun c => c != '[') = t := by
  induction t with
  | nil => rfl
  | cons c t ih =>
    have hc : (c != '[') = true := by simpa using ht c (by simp)
    rw [List.takeWhile_cons, if_pos hc, ih (fun d hd => ht d (by simp [hd]))]

theorem dropWhile_plain (t : List Char) (ht : ∀ c ∈ t, c ≠ '[') :
    t.dropWhile (fun c => c != '[') = [] := by
  induction t with
  | nil => rfl
  | cons c t ih =>
    have hc : (c != '[') = true := by simpa using ht c (by simp)
    rw [List.dropWhile_cons, if_pos hc, ih (fun d hd => ht d (by simp [hd]))]

theorem parseTest_name (n : List Char) (h : isNCName n = true) :
    parseTest n = some (NodeTest.name (String.mk n)) := by
  have hne : n ≠ "text()".data := by
    intro e
    have := (nameChars_plain '(' (isNCName_mem n h '(' (by rw [e]; decide))).2.2
    exact this rfl
  have hnc : n ≠ "comment()".data := by
    intro e
    have := (nameChars_plain '(' (isNCName_mem n h '(' (by rw [e]; decide))).2.2
    exact this rfl
  unfold parseTest
  rw [if_neg hne, if_neg hnc, if_pos h]

theorem parsePredicate_index (k : Nat) :
    parsePredicate ('[' :: (Nat.toDigits 10 k ++ [']'])) = some (some k) := by
  simp only [parsePredicate]
  rw [if_pos ⟨trivial, List.getLast?_concat _⟩, List.dropLast_concat, parseDigits_toDigits]
  rfl

theorem parseStep_name (n : List Char) (h : isNCName n = true) :
    parseStep n = some { test := NodeTest.name (String.mk n), position := none } := by
  have hb : ∀ c ∈ n, c ≠ '[' := fun c hc => (nameChars_plain c (isNCName_mem n h c hc)).1
  unfold parseStep
  rw [takeWhile_plain n hb, dropWhile_plain n hb, parseTest_name n h]
  rfl

theorem parseStep_name_index (n : List Char) (k : Nat) (h : isNCName n = true) :
    parseStep (n ++ '[' :: (Nat.toDigits 10 k ++ [']']))
      = some { test := NodeTest.name (String.mk n), position := some k } := by
  have hb : ∀ c ∈ n, c ≠ '[' := fun c hc => (nameChars_plain c (isNCName_mem n h c hc)).1
  unfold parseStep
  rw [takeWhile_bracket n _ hb, dropWhile_bracket n _ hb, parseTest_name n h,
    parsePredicate_index]

theorem parseStep_text_index (k : Nat) :
    parseStep ("text()".data ++ '[' :: (Nat.toDigits 10 k ++ [']']))
      = some { test := NodeTest.text, position := some k } := by
  have hb : ∀ c ∈ "text()".data, c ≠ '[' := by decide
  unfold parseStep
  rw [takeWhile_bracket _ _ hb, dropWhile_bracket _ _ hb, parsePredicate_index]
  rfl

/-! ### Parsing the paths `getXPath` emits -/

theorem htmlNamesList_getElem (ns : List Node) (i : Nat) (n : Node)
    (h : htmlNamesList ns = true) (hi : ns[i]? = some n) : n.htmlNames = true := by
  induction ns generalizing i with
  | nil => simp at hi
  | cons m rest ih =>
    simp only [htmlNamesList, Bool.and_eq_true] at h
    cases i with
    | zero =>
      simp at hi
      rw [← hi]
      exact h.1
    | succ k =>
      simp at hi
      exact ih k h.2 hi

theorem htmlNames_element (name : String) (hid : Option String) (cs : List Node)
    (h : (Node.element name hid cs).htmlNames = true) :
    isHtmlName name.data = true ∧ htmlNamesList cs = true := by
  simpa [Node.htmlNames] using h

theorem specSegment_data (sibs : List Node) (i : Nat) (name : String) :
    (specSegment sibs i name).data
      = if 1 + (sibs.take i).countP (Node.hasName name) = 1 then name.data.map Char.toLower
        else name.data.map Char.toLower
          ++ '[' :: (Nat.toDigits 10 (1 + (sibs.take i).countP (Node.hasName name)) ++ [']']) := by
  unfold specSegment
  simp only
  split
  · rfl
  · simp [String.data_append, toLowerCase, toString_data]

theorem parseStep_specSegment (sibs : List Node) (i : Nat) (name : String)
    (hname : isHtmlName name.data = true) :
    parseStep (specSegment sibs i name).data
        = some { test := NodeTest.name (toLowerCase name)
                 position := if 1 + (sibs.take i).countP (Node.hasName name) = 1 then none
                   else some (1 + (sibs.take i).countP (Node.hasName name)) }
    ∧ ∀ c ∈ (specSegment sibs i name).data, c ≠ '/' := by
  have hnc := isHtmlName_lower _ hname
  have hsl : ∀ c ∈ name.data.map Char.toLower, c ≠ '/' :=
    fun c hc => (nameChars_plain c (isNCName_mem _ hnc c hc)).2.1
  rw [specSegment_data]
  split
  · exact ⟨parseStep_name _ hnc, hsl⟩
  · refine ⟨parseStep_name_index _ _ hnc, ?_⟩
    intro c hc
    simp only [List.mem_append, List.mem_cons, List.mem_singleton, List.not_mem_nil,
      or_false] at hc
    rcases hc with hc | hc | hc | hc
    · exact hsl c hc
    · rw [hc]; decide
    · exact toDigits_no_slash _ c hc
    · rw [hc]; decide

theorem parseSteps_specSegments (ns : List Node) (ref : Ref)
    (name : String) (hid : Option String) (cs : List Node)
    (hn : htmlNamesList ns = true) (h : nodeIn ns ref = some (Node.element name hid cs)) :
    parseSteps ((specSegments ns ref).map String.data) = some (specSteps ns ref)
    ∧ (∀ s ∈ specSegments ns ref, ∀ c ∈ s.data, c ≠ '/')
    ∧ htmlNamesList cs = true := by
  induction ref generalizing ns with
  | nil => simp [nodeIn] at h
  | cons i rest ih =>
    cases rest with
    | nil =>
      simp only [nodeIn] at h
      obtain ⟨hname, hcs⟩ := htmlNames_element _ _ _ (htmlNamesList_getElem ns i _ hn h)
      obtain ⟨hp, hsl⟩ := parseStep_specSegment ns i name hname
      refine ⟨?_, ?_, hcs⟩
      · simp only [specSegments, h, List.map_cons, List.map_nil, parseSteps, hp, specSteps]
      · intro s hs
        simp only [specSegments, h, List.mem_singleton] at hs
        rw [hs]
        exact hsl
    | cons j r =>
      rw [nodeIn_cons _ _ _ (by simp)] at h
      cases hi : ns[i]? with
      | none => simp [hi] at h
      | some m =>
        simp only [hi, Option.some_bind] at h
        cases m with
        | element a b c =>
          obtain ⟨hname, hcs⟩ := htmlNames_element _ _ _ (htmlNamesList_getElem ns i _ hn hi)
          obtain ⟨hp, hsl⟩ := parseStep_specSegment ns i a hname
          obtain ⟨ih1, ih2, ih3⟩ := ih c hcs h
          have e1 : specSegments ns (i :: j :: r)
              = specSegment ns i a :: specSegments c (j :: r) := by
            simp only [specSegments, hi]
          have e2 : specSteps ns (i :: j :: r)
              = { test := NodeTest.name (toLowerCase a)
                  position := if 1 + (ns.take i).countP (Node.hasName a) = 1 then none
                    else some (1 + (ns.take i).countP (Node.hasName a)) }
                :: specSteps c (j :: r) := by
            simp only [specSteps, hi]
          refine ⟨?_, ?_, ih3⟩
          · rw [e1, e2, List.map_cons, parseSteps, hp, ih1]
          · intro s hs
            rw [e1] at hs
            simp only [List.mem_cons] at hs
            rcases hs with hs | hs
            · rw [hs]; exact hsl
            · exact ih2 s hs
        | text d => simp [Node.kids, nodeIn_nil] at h
        | comment d => simp [Node.kids, nodeIn_nil] at h

theorem specSteps_snoc_text (ns : List Node) (pre : Ref) (i : Nat) (sibs : List Node)
    (d : List Nat) (h1 : kidsIn ns pre = some sibs) (h2 : sibs[i]? = some (Node.text d)) :
    specSteps ns (pre ++ [i]) = specSteps ns pre
      ++ [{ test := NodeTest.text, position := some ((sibs.take i).countP Node.isText + 1) }] := by
  induction pre generalizing ns with
  | nil =>
    simp [kidsIn] at h1
    subst h1
    simp [specSteps, h2]
  | cons j pre ih =>
    rw [kidsIn_cons] at h1
    cases hj : ns[j]? with
    | none => simp [hj] at h1
    | some n =>
      simp [hj] at h1
      have hel := kidsIn_getElem_isElement n pre sibs i _ h1 h2
      cases n with
      | element a b c =>
        have e := ih c h1
        simp only [List.cons_append, specSteps, hj]
        exact congrArg _ e
      | text d => simp [Node.isElement] at hel
      | comment d => simp [Node.isElement] at hel

theorem parseSteps_snoc (l : List (List Char)) (x : List Char) (sts : List Step) (st : Step)
    (h1 : parseSteps l = some sts) (h2 : parseStep x = some st) :
    parseSteps (l ++ [x]) = some (sts ++ [st]) := by
  induction l generalizing sts with
  | nil =>
    simp only [parseSteps, Option.some.injEq] at h1
    subst h1
    simp [parseSteps, h2]
  | cons y l ih =>
    simp only [parseSteps] at h1
    cases hy : parseStep y with
    | none => simp [hy] at h1
    | some sy =>
      cases hl : parseSteps l with
      | none => simp [hy, hl] at h1
      | some sl =>
        simp only [hy, hl, Option.some.injEq] at h1
        subst h1
        rw [List.cons_append, parseSteps, hy, ih sl hl]
        rfl

theorem slash_intercalate_data (a : String) (as : List String) :
    ("/" ++ "/".intercalate (a :: as)).data
      = '/' :: (a.data ++ (as.map String.data).flatMap (fun x => '/' :: x)) := by
  rw [String.data_append, intercalate_data]
  have e0 : (fun x : String => "/".data ++ x.data) = (fun x : String => '/' :: x.data) := rfl
  have e : as.flatMap (fun x : String => '/' :: x.data)
      = (as.map String.data).flatMap (fun x => '/' :: x) := by
    induction as with
    | nil => rfl
    | cons b bs ih => simp [List.flatMap_cons, ih]
  rw [e0, e]
  rfl

theorem parseStep_nil : parseStep [] = none := by decide

theorem parseXPath_of_data (p : String) (a : List Char) (as : List (List Char))
    (steps : List Step)
    (hp : p.data = '/' :: (a ++ as.flatMap (fun x => '/' :: x)))
    (ha : ∀ c ∈ a, c ≠ '/') (has : ∀ x ∈ as, ∀ c ∈ x, c ≠ '/')
    (hs : parseSteps (a :: as) = some steps) :
    parseXPath p = some steps := by
  have hne : a ≠ [] := by
    intro e
    subst e
    simp [parseSteps, parseStep_nil] at hs
  have hrest : a ++ as.flatMap (fun x => '/' :: x) ≠ [] := by
    intro e
    exact hne (List.append_eq_nil.mp e).1
  unfold parseXPath
  rw [hp]
  simp only
  rw [if_neg hrest, splitSlash_join a as ha has, hs]

theorem textSegment_no_slash (k : Nat) :
    ∀ c ∈ "text()".data ++ '[' :: (Nat.toDigits 10 k ++ [']']), c ≠ '/' := by
  intro c hc
  rcases List.mem_append.mp hc with hc | hc
  · have : ∀ d ∈ "text()".data, d ≠ '/' := by decide
    exact this c hc
  · simp only [List.mem_append, List.mem_cons, List.mem_singleton, List.not_mem_nil,
      or_false] at hc
    rcases hc with hc | hc | hc
    · rw [hc]; decide
    · exact toDigits_no_slash _ c hc
    · rw [hc]; decide

theorem parseXPath_getXPath_element (doc : Document) (ref : Ref)
    (name : String) (hid : Option String) (cs : List Node)
    (hn : htmlNamesList doc.childNodes = true)
    (h : nodeAt doc ref = some (Node.element name hid cs)) :
    ∃ (a : String) (as : List String),
      specSegments doc.childNodes ref = a :: as
      ∧ getXPath doc ref = some ("/" ++ "/".intercalate (a :: as))
      ∧ parseSteps (a.data :: as.map String.data) = some (specSteps doc.childNodes ref)
      ∧ (∀ c ∈ a.data, c ≠ '/') ∧ (∀ x ∈ as.map String.data, ∀ c ∈ x, c ≠ '/')
      ∧ htmlNamesList cs = true := by
  have hx := getXPath_element doc ref name hid cs h
  have hlen := specSegments_length doc.childNodes ref _ h rfl
  obtain ⟨hp, hsl, hcs⟩ := parseSteps_specSegments doc.childNodes ref name hid cs hn h
  cases hseg : specSegments doc.childNodes ref with
  | nil =>
    rw [hseg] at hlen
    have : ref = [] := List.length_eq_zero.mp hlen.symm
    subst this
    simp [nodeAt, nodeIn] at h
  | cons a as =>
    rw [hseg] at hx hp hsl
    refine ⟨a, as, rfl, hx, by simpa using hp, hsl a (by simp), ?_, hcs⟩
    intro x hx2 c hc
    simp only [List.mem_map] at hx2
    obtain ⟨y, hy, hyx⟩ := hx2
    rw [← hyx] at hc
    exact hsl y (by simp [hy]) c hc

/-- In a document with HTML element names, the path `getXPath` gives to an
element, or to a text node under an element, parses to the steps that lead to
the node. -/
theorem parseXPath_getXPath (doc : Document) (ref : Ref)
    (hn : htmlNamesList doc.childNodes = true) (ha : anchorable doc ref = true) :
    ∃ p, getXPath doc ref = some p ∧ p ≠ ""
      ∧ parseXPath p = some (specSteps doc.childNodes ref) := by
  unfold anchorable at ha
  cases hnode : nodeAt doc ref with
  | none => simp [hnode] at ha
  | some node =>
    cases node with
    | comment d => simp [hnode] at ha
    | element name hid cs =>
      obtain ⟨a, as, _, hx, hp, h1, h2, _⟩ :=
        parseXPath_getXPath_element doc ref name hid cs hn hnode
      have hd := slash_intercalate_data a as
      refine ⟨_, hx, ?_, parseXPath_of_data _ a.data (as.map String.data) _ hd h1 h2 hp⟩
      intro e
      rw [e] at hd
      simp at hd
    | text d =>
      simp only [hnode, decide_eq_true_eq] at ha
      rcases List.eq_nil_or_concat ref with hnil | ⟨pre, i, hc⟩
      · subst hnil; simp at ha
      · have hc2 : ref = pre ++ [i] := by simpa using hc
        subst hc2
        have hpre : pre ≠ [] := by
          intro e
          subst e
          simp at ha
        have hn2 := hnode
        unfold nodeAt at hn2
        rw [nodeIn_snoc] at hn2
        cases hk : kidsIn doc.childNodes pre with
        | none => simp [hk] at hn2
        | some sibs =>
          simp only [hk, Option.some_bind] at hn2
          have hpar : ∃ m, nodeIn doc.childNodes pre = some m ∧ m.kids = sibs := by
            cases pre with
            | nil => exact absurd rfl hpre
            | cons j r => simpa [kidsIn] using hk
          obtain ⟨m, hm, hmk⟩ := hpar
          have hmel := kids_getElem_isElement m i _ (by rw [hmk]; exact hn2)
          cases m with
          | text e => simp [Node.isElement] at hmel
          | comment e => simp [Node.isElement] at hmel
          | element pname phid pcs =>
            simp only [Node.kids] at hmk
            subst hmk
            obtain ⟨a, as, _, hx, hp, h1, h2, _⟩ :=
              parseXPath_getXPath_element doc pre pname phid pcs hn hm
            have hd := slash_intercalate_data a as
            have hc3 : childNodesAt doc pre = some pcs := by rw [childNodesAt_eq]; exact hk
            have htx := getXPath_text doc pre i pcs d hc3 hn2
            rw [hx] at htx
            simp only [Option.map_some'] at htx
            have hdata : ("/" ++ "/".intercalate (a :: as) ++ "/text()["
                ++ toString ((pcs.take i).countP Node.isText + 1) ++ "]").data
                = '/' :: (a.data ++ (as.map String.data
                    ++ ["text()".data ++ '[' ::
                      (Nat.toDigits 10 ((pcs.take i).countP Node.isText + 1) ++ [']'])]).flatMap
                    (fun x => '/' :: x)) := by
              rw [String.data_append, String.data_append, String.data_append, hd, toString_data]
              simp [List.flatMap_append]
            refine ⟨_, htx, ?_, parseXPath_of_data _ a.data _ _ hdata h1 ?_ ?_⟩
            · intro e
              rw [e] at hdata
              simp at hdata
            · intro x hx2
              simp only [List.mem_append, List.mem_singleton] at hx2
              rcases hx2 with hx2 | hx2
              · exact h2 x hx2
              · rw [hx2]; exact textSegment_no_slash _
            · rw [specSteps_snoc_text doc.childNodes pre i pcs d hk hn2]
              have := parseSteps_snoc (a.data :: as.map String.data) _ _ _ hp
                (parseStep_text_index ((pcs.take i).countP Node.isText + 1))
              simpa using this

/-! ### Evaluating the steps that lead to a node -/

theorem matchingIndices_congr (p q : Node → Bool) (l : List Node) (j : Nat)
    (h : ∀ n ∈ l, p n = q n) : matchingIndices p l j = matchingIndices q l j := by
  induction l generalizing j with
  | nil => rfl
  | cons n rest ih =>
    simp only [matchingIndices]
    rw [h n (by simp), ih (j + 1) (fun m hm => h m (by simp [hm]))]

theorem matchingIndices_getElem (p : Node → Bool) (l : List Node) (i j : Nat) (n : Node)
    (hi : l[i]? = some n) (hp : p n = true) :
    (matchingIndices p l j)[(l.take i).countP p]? = some (j + i) := by
  induction l generalizing i j with
  | nil => simp at hi
  | cons m rest ih =>
    cases i with
    | zero =>
      simp at hi
      subst hi
      simp [matchingIndices, hp]
    | succ k =>
      simp only [List.getElem?_cons_succ] at hi
      have ih1 := ih k (j + 1) hi
      rw [List.take_succ_cons, List.countP_cons, matchingIndices]
      by_cases hm : p m = true
      · simp only [hm, if_true, List.getElem?_cons_succ]
        rw [ih1]
        congr 1
        omega
      · simp only [hm, if_false, Bool.false_eq_true, Nat.add_zero]
        rw [ih1]
        congr 1
        omega

theorem htmlNamesList_mem (ns : List Node) (h : htmlNamesList ns = true) :
    ∀ n ∈ ns, n.htmlNames = true := by
  intro n hn
  obtain ⟨i, hi⟩ := List.getElem?_of_mem hn
  exact htmlNamesList_getElem ns i n h hi

theorem selects_eq_hasName (ns : List Node) (name : String)
    (hn : htmlNamesList ns = true) (hname : isHtmlName name.data = true) :
    ∀ n ∈ ns, (NodeTest.name (toLowerCase name)).selects n = n.hasName name := by
  intro n hmem
  have hh := htmlNamesList_mem ns hn n hmem
  cases n with
  | element a b c =>
    have ha := (htmlNames_element _ _ _ hh).1
    have := selects_name_iff name a hname ha
    simp only [NodeTest.selects, Node.hasName]
    exact decide_eq_decide.mpr this
  | text d => rfl
  | comment d => rfl

theorem selects_text_eq : ∀ n : Node, NodeTest.text.selects n = n.isText := by
  intro n
  cases n <;> rfl

theorem selectStep_name (ns : List Node) (i : Nat) (a : String) (b : Option String)
    (c : List Node) (hn : htmlNamesList ns = true)
    (hi : ns[i]? = some (Node.element a b c)) :
    ∃ tl, selectStep
      { test := NodeTest.name (toLowerCase a)
        position := if 1 + (ns.take i).countP (Node.hasName a) = 1 then none
          else some (1 + (ns.take i).countP (Node.hasName a)) } ns = i :: tl := by
  have hname := (htmlNames_element _ _ _ (htmlNamesList_getElem ns i _ hn hi)).1
  have hc := matchingIndices_congr _ _ ns 0 (selects_eq_hasName ns a hn hname)
  have hg := matchingIndices_getElem (Node.hasName a) ns i 0 _ hi (by simp [Node.hasName])
  rw [Nat.zero_add] at hg
  unfold selectStep
  simp only [hc]
  by_cases h0 : (ns.take i).countP (Node.hasName a) = 0
  · rw [h0] at hg
    simp only [h0, Nat.add_zero, if_true]
    cases hm : matchingIndices (Node.hasName a) ns 0 with
    | nil => rw [hm] at hg; simp at hg
    | cons x tl =>
      rw [hm] at hg
      simp at hg
      exact ⟨tl, by rw [hg]⟩
  · have h1 : ¬ (1 + (ns.take i).countP (Node.hasName a) = 1) := by omega
    have h2 : ¬ (1 + (ns.take i).countP (Node.hasName a) = 0) := by omega
    have h3 : 1 + (ns.take i).countP (Node.hasName a) - 1
        = (ns.take i).countP (Node.hasName a) := by omega
    simp only [h1, if_false, h2, h3, hg]
    exact ⟨[], rfl⟩

theorem selectStep_text (ns : List Node) (i : Nat) (d : List Nat)
    (hi : ns[i]? = some (Node.text d)) :
    selectStep { test := NodeTest.text
                 position := some ((ns.take i).countP Node.isText + 1) } ns = [i] := by
  have hc := matchingIndices_congr NodeTest.text.selects Node.isText ns 0
    (fun n _ => selects_text_eq n)
  have hg := matchingIndices_getElem Node.isText ns i 0 _ hi rfl
  rw [Nat.zero_add] at hg
  unfold selectStep
  simp only [hc]
  have h2 : ¬ ((ns.take i).countP Node.isText + 1 = 0) := by omega
  have h3 : (ns.take i).countP Node.isText + 1 - 1 = (ns.take i).countP Node.isText := by omega
  simp only [h2, if_false, h3, hg]
  rfl

/-- In a document with HTML element names, the first node, in document
order, selected by the steps that lead to a node is that node. -/
theorem evalIn_specSteps (ns : List Node) (ref : Ref) (target : Node)
    (hn : htmlNamesList ns = true) (h : nodeIn ns ref = some target)
    (ht : target.isElement = true ∨ target.isText = true) :
    (evalIn (specSteps ns ref) ns).head? = some ref := by
  induction ref generalizing ns with
  | nil => simp [nodeIn] at h
  | cons i rest ih =>
    have hm : ∃ m, ns[i]? = some m
        ∧ ((rest = [] ∧ m = target) ∨ (rest ≠ [] ∧ nodeIn m.kids rest = some target)) := by
      cases rest with
      | nil => exact ⟨target, by simpa [nodeIn] using h, Or.inl ⟨rfl, rfl⟩⟩
      | cons j r =>
        rw [nodeIn_cons _ _ _ (by simp)] at h
        cases hi : ns[i]? with
        | none => simp [hi] at h
        | some m => exact ⟨m, rfl, Or.inr ⟨by simp, by simpa [hi] using h⟩⟩
    obtain ⟨m, hi, hrest⟩ := hm
    cases m with
    | element a b c =>
      obtain ⟨tl, hsel⟩ := selectStep_name ns i a b c hn hi
      have hcs := (htmlNames_element _ _ _ (htmlNamesList_getElem ns i _ hn hi)).2
      have hsub : (evalIn (specSteps c rest) c).head? = some rest := by
        rcases hrest with ⟨hr, _⟩ | ⟨_, hr⟩
        · subst hr
          rfl
        · exact ih c hcs hr
      have e : specSteps ns (i :: rest)
          = { test := NodeTest.name (toLowerCase a)
              position := if 1 + (ns.take i).countP (Node.hasName a) = 1 then none
                else some (1 + (ns.take i).countP (Node.hasName a)) }
            :: specSteps c rest := by
        simp only [specSteps, hi]
      rw [e, evalIn, hsel, List.flatMap_cons, List.head?_append, hi]
      simp only [Node.kids, List.head?_map, hsub, Option.map_some']
      rfl
    | text d =>
      rcases hrest with ⟨hr, _⟩ | ⟨_, hr⟩
      · subst hr
        have e : specSteps ns [i]
            = [{ test := NodeTest.text
                 position := some ((ns.take i).countP Node.isText + 1) }] := by
          simp only [specSteps, hi]
        rw [e, evalIn, selectStep_text ns i d hi]
        simp [hi, evalIn]
      · simp [Node.kids, nodeIn_nil] at hr
    | comment d =>
      rcases hrest with ⟨_, hr⟩ | ⟨_, hr⟩
      · subst hr
        simp [Node.isElement, Node.isText] at ht
      · simp [Node.kids, nodeIn_nil] at hr

/-! ### Round trip and injectivity -/

theorem anchorable_node (doc : Document) (ref : Ref) (ha : anchorable doc ref = true) :
    ∃ target, nodeAt doc ref = some target
      ∧ (target.isElement = true ∨ target.isText = true) := by
  unfold anchorable at ha
  cases hnode : nodeAt doc ref with
  | none => simp [hnode] at ha
  | some node =>
    cases node with
    | element a b c => exact ⟨_, rfl, Or.inl rfl⟩
    | text d => exact ⟨_, rfl, Or.inr rfl⟩
    | comment d => simp [hnode] at ha

/-- In a document with HTML element names, resolving the path of an element,
or of a text node under an element, gives the node back. -/
theorem getXPath_resolves (doc : Document) (ref : Ref)
    (hn : htmlNamesList doc.childNodes = true) (ha : anchorable doc ref = true) :
    ∃ p, getXPath doc ref = some p ∧ getNodeByXPath xpathEvaluate doc p = some ref := by
  obtain ⟨p, hp, hne, hparse⟩ := parseXPath_getXPath doc ref hn ha
  obtain ⟨target, ht, hkind⟩ := anchorable_node doc ref ha
  refine ⟨p, hp, ?_⟩
  unfold getNodeByXPath xpathEvaluate
  rw [if_neg hne, hparse]
  exact evalIn_specSteps doc.childNodes ref target hn ht hkind

/-- C1 (as stated, refuted): on a page holding an element whose tag name is
`p[2]` after two `p` siblings, that element is encoded as `/html/body/p[2]`,
and the resolver returns the second `p` for this path, a different node. -/
theorem roundTrip_fails_on_bracket_name :
    anchorable bracketDoc [0, 0, 2] = true
    ∧ getXPath bracketDoc [0, 0, 2] = some "/html/body/p[2]"
    ∧ getNodeByXPath xpathEvaluate bracketDoc "/html/body/p[2]" = some [0, 0, 1]
    ∧ ([0, 0, 1] : Ref) ≠ [0, 0, 2] := by
  decide

/-- C1 (amended): in a document whose element names are HTML element names
(an uppercase ASCII letter followed by uppercase letters, digits, `-`, `_` or
`.`, as `nodeName` reports them), for every element node and every text node
under an element, `getNodeByXPath(getXPath(node))` returns that same node. -/
theorem getNodeByXPath_getXPath (doc : Document) (ref : Ref)
    (hn : htmlNamesList doc.childNodes = true) (ha : anchorable doc ref = true) :
    ∃ p, getXPath doc ref = some p ∧ getNodeByXPath xpathEvaluate doc p = some ref
      ∧ (getNodeByXPath xpathEvaluate doc p).bind (nodeAt doc) = nodeAt doc ref := by
  obtain ⟨p, hp, hr⟩ := getXPath_resolves doc ref hn ha
  exact ⟨p, hp, hr, by rw [hr]; rfl⟩

theorem getNodeByXPath_getXPath_witness :
    ∃ p, getXPath sampleDoc [0, 0, 1, 2] = some p
      ∧ getNodeByXPath xpathEvaluate sampleDoc p = some [0, 0, 1, 2]
      ∧ (getNodeByXPath xpathEvaluate sampleDoc p).bind (nodeAt sampleDoc)
          = nodeAt sampleDoc [0, 0, 1, 2] :=
  getNodeByXPath_getXPath sampleDoc [0, 0, 1, 2] (by decide) (by decide)

/-- C10 (as stated, refuted): an element named `p[2]` shares its path with the
second `p` sibling before it, and two sibling elements whose names differ only
in letter case share theirs. -/
theorem getXPath_not_injective :
    (anchorable bracketDoc [0, 0, 1] = true ∧ anchorable bracketDoc [0, 0, 2] = true
      ∧ ([0, 0, 1] : Ref) ≠ [0, 0, 2]
      ∧ getXPath bracketDoc [0, 0, 1] = getXPath bracketDoc [0, 0, 2])
    ∧ (anchorable caseDoc [0, 0] = true ∧ anchorable caseDoc [0, 1] = true
      ∧ ([0, 0] : Ref) ≠ [0, 1]
      ∧ getXPath caseDoc [0, 0] = getXPath caseDoc [0, 1]) := by
  decide

/-- C10 (amended): in a document whose element names are HTML element names,
`getXPath` gives distinct path strings to distinct nodes, for all element
nodes and all text nodes under an element. -/
theorem getXPath_injective (doc : Document) (r1 r2 : Ref)
    (hn : htmlNamesList doc.childNodes = true)
    (h1 : anchorable doc r1 = true) (h2 : anchorable doc r2 = true) (hne : r1 ≠ r2) :
    getXPath doc r1 ≠ getXPath doc r2 := by
  intro he
  obtain ⟨p1, hp1, hr1⟩ := getXPath_resolves doc r1 hn h1
  obtain ⟨p2, hp2, hr2⟩ := getXPath_resolves doc r2 hn h2
  rw [hp1, hp2] at he
  have hp : p1 = p2 := Option.some.inj he
  rw [hp, hr2] at hr1
  exact hne (Option.some.inj hr1).symm

theorem getXPath_injective_witness :
    getXPath sampleDoc [0, 0, 0] ≠ getXPath sampleDoc [0, 0, 1, 0] :=
  getXPath_injective sampleDoc [0, 0, 0] [0, 0, 1, 0] (by decide) (by decide) (by decide)
    (by decide)

/-! ### Markers and text content of the pieces of an extraction -/

theorem split_at_getElem (cs : List Node) (i : Nat) (c : Node) (h : cs[i]? = some c) :
    cs = cs.take i ++ c :: cs.drop (i + 1) := by
  induction cs generalizing i with
  | nil => simp at h
  | cons a rest ih =>
    cases i with
    | zero =>
      simp at h
      subst h
      simp
    | succ k =>
      simp only [List.getElem?_cons_succ] at h
      have := ih k h
      simp only [List.take_succ_cons, List.drop_succ_cons, List.cons_append]
      exact congrArg _ this

theorem findMarkerList_isSome (id : String) (l : List Node) (j : Nat) :
    (findMarkerList id l j).isSome = l.any (fun n => (n.findMarker id).isSome) := by
  induction l generalizing j with
  | nil => simp [findMarkerList]
  | cons n rest ih =>
    rw [findMarkerList, List.any_cons]
    cases hn : n.findMarker id with
    | none => simp [ih]
    | some r => simp

theorem findMarker_element_isSome (id name : String) (hid : Option String) (cs : List Node) :
    ((Node.element name hid cs).findMarker id).isSome
      = (decide (hid = some id) || cs.any (fun n => (n.findMarker id).isSome)) := by
  rw [Node.findMarker]
  by_cases h : hid = some id
  · simp [h]
  · simp [h, findMarkerList_isSome]

theorem any_split (p : Node → Bool) (cs : List Node) (k : Nat) :
    cs.any p = ((cs.take k).any p || (cs.drop k).any p) := by
  rw [← List.any_append, List.take_append_drop]

theorem any_split_at (p : Node → Bool) (cs : List Node) (i : Nat) (c : Node)
    (h : cs[i]? = some c) :
    cs.any p = ((cs.take i).any p || (p c || (cs.drop (i + 1)).any p)) := by
  have e := split_at_getElem cs i c h
  have : cs.any p = (cs.take i ++ c :: cs.drop (i + 1)).any p := by rw [← e]
  rw [this, List.any_append, List.any_cons]

theorem extractTail_marker (id : String) (path : Ref) (c : Node) (off : Nat) :
    (((extractTail c path off).1.findMarker id).isSome
        || ((extractTail c path off).2.findMarker id).isSome)
      = (c.findMarker id).isSome := by
  induction path generalizing c with
  | nil =>
    cases c with
    | text d => rfl
    | comment d => rfl
    | element name hid cs =>
      simp only [extractTail, findMarker_element_isSome]
      rw [any_split _ cs off]
      cases decide (hid = some id) <;> simp
  | cons i rest ih =>
    cases c with
    | text d => rfl
    | comment d => rfl
    | element name hid cs =>
      cases hi : cs[i]? with
      | none =>
        simp only [extractTail, hi, findMarker_element_isSome]
        cases decide (hid = some id) <;> cases cs.any _ <;> simp
      | some c' =>
        simp only [extractTail, hi, findMarker_element_isSome, List.any_append, List.any_cons,
          List.any_nil, Bool.or_false]
        rw [any_split_at _ cs i c' hi, ← ih c']
        cases decide (hid = some id) <;> cases (cs.take i).any _ <;>
          cases ((extractTail c' rest off).1.findMarker id).isSome <;>
          cases ((extractTail c' rest off).2.findMarker id).isSome <;> simp

theorem extractHead_marker (id : String) (path : Ref) (c : Node) (off : Nat) :
    (((extractHead c path off).1.findMarker id).isSome
        || ((extractHead c path off).2.findMarker id).isSome)
      = (c.findMarker id).isSome := by
  induction path generalizing c with
  | nil =>
    cases c with
    | text d => rfl
    | comment d => rfl
    | element name hid cs =>
      simp only [extractHead, findMarker_element_isSome]
      rw [any_split _ cs off]
      cases decide (hid = some id) <;> cases (cs.take off).any _ <;> simp
  | cons i rest ih =>
    cases c with
    | text d => rfl
    | comment d => rfl
    | element name hid cs =>
      cases hi : cs[i]? with
      | none =>
        simp only [extractHead, hi, findMarker_element_isSome]
        cases decide (hid = some id) <;> cases cs.any _ <;> simp
      | some c' =>
        simp only [extractHead, hi, findMarker_element_isSome, List.any_append, List.any_cons,
          List.any_nil, Bool.or_false]
        rw [any_split_at _ cs i c' hi, ← ih c']
        cases decide (hid = some id) <;> cases (cs.take i).any _ <;>
          cases ((extractHead c' rest off).1.findMarker id).isSome <;>
          cases ((extractHead c' rest off).2.findMarker id).isSome <;> simp

theorem textContentList_append (a b : List Node) :
    textContentList (a ++ b) = textContentList a ++ textContentList b := by
  induction a with
  | nil => simp [textContentList]
  | cons n rest ih => simp [textContentList, ih]

theorem textContentList_split_at (cs : List Node) (i : Nat) (c : Node) (h : cs[i]? = some c) :
    textContentList cs = textContentList (cs.take i) ++ c.textContent
      ++ textContentList (cs.drop (i + 1)) := by
  have e := split_at_getElem cs i c h
  have : textContentList cs = textContentList (cs.take i ++ c :: cs.drop (i + 1)) := by rw [← e]
  rw [this, textContentList_append, textContentList]
  simp

theorem extractTail_textContent (path : Ref) (c : Node) (off : Nat) :
    (extractTail c path off).1.textContent ++ (extractTail c path off).2.textContent
      = c.textContent := by
  induction path generalizing c with
  | nil =>
    cases c with
    | text d => simp [extractTail, Node.textContent]
    | comment d => simp [extractTail, Node.textContent]
    | element name hid cs =>
      simp only [extractTail, Node.textContent]
      rw [← textContentList_append, List.take_append_drop]
  | cons i rest ih =>
    cases c with
    | text d => simp [extractTail, Node.textContent]
    | comment d => simp [extractTail, Node.textContent]
    | element name hid cs =>
      cases hi : cs[i]? with
      | none => simp [extractTail, hi, Node.textContent, textContentList]
      | some c' =>
        simp only [extractTail, hi, Node.textContent, textContentList_append, textContentList]
        rw [textContentList_split_at cs i c' hi, ← ih c']
        simp

theorem extractHead_textContent (path : Ref) (c : Node) (off : Nat) :
    (extractHead c path off).2.textContent ++ (extractHead c path off).1.textContent
      = c.textContent := by
  induction path generalizing c with
  | nil =>
    cases c with
    | text d => simp [extractHead, Node.textContent]
    | comment d => simp [extractHead, Node.textContent]
    | element name hid cs =>
      simp only [extractHead, Node.textContent]
      rw [← textContentList_append, List.take_append_drop]
  | cons i rest ih =>
    cases c with
    | text d => simp [extractHead, Node.textContent]
    | comment d => simp [extractHead, Node.textContent]
    | element name hid cs =>
      cases hi : cs[i]? with
      | none => simp [extractHead, hi, Node.textContent, textContentList]
      | some c' =>
        simp only [extractHead, hi, Node.textContent, textContentList_append, textContentList]
        rw [textContentList_split_at cs i c' hi, ← ih c']
        simp

/-! ### The contents of a range -/

theorem drop_split (l : List Node) (a b : Nat) (h : a ≤ b) :
    l.drop a = (l.drop a).take (b - a) ++ l.drop b := by
  have e : l.drop b = (l.drop a).drop (b - a) := by
    rw [List.drop_drop]
    congr 1
    omega
  rw [e, List.take_append_drop]

theorem drop_at_getElem (cs : List Node) (i : Nat) (c : Node) (h : cs[i]? = some c) :
    cs.drop i = c :: cs.drop (i + 1) := by
  induction cs generalizing i with
  | nil => simp at h
  | cons a rest ih =>
    cases i with
    | zero =>
      simp at h
      subst h
      simp
    | succ k =>
      simp only [List.getElem?_cons_succ] at h
      simpa using ih k h

theorem lexLe_single (a b : Nat) (h : lexLe [a] [b] = true) : a ≤ b := by
  simp [lexLe] at h
  omega

theorem lexLe_single_cons (a j : Nat) (rest : List Nat) (h : lexLe [a] (j :: rest) = true) :
    a ≤ j := by
  simp [lexLe] at h
  omega

theorem lexLe_cons_single (i b : Nat) (ps : List Nat) (so : Nat)
    (h : lexLe (i :: (ps ++ [so])) [b] = true) : i < b := by
  cases ps with
  | nil => simp [lexLe] at h; exact h
  | cons q qs => simp [lexLe] at h; exact h

theorem lexLe_cons_cons (i j : Nat) (xs ys : List Nat) (h : lexLe (i :: xs) (j :: ys) = true) :
    i < j ∨ (i = j ∧ lexLe xs ys = true) := by
  simp [lexLe] at h
  exact h

theorem textContentList_cons (n : Node) (rest : List Node) :
    textContentList (n :: rest) = n.textContent ++ textContentList rest := by
  rw [textContentList]

theorem textContentList_nil : textContentList [] = [] := by
  rw [textContentList]

theorem textContentList_take_drop (l : List Node) (a : Nat) :
    textContentList l = textContentList (l.take a) ++ textContentList (l.drop a) := by
  rw [← textContentList_append, List.take_append_drop]

theorem textContentList_drop_split (l : List Node) (a b : Nat) (h : a ≤ b) :
    textContentList (l.drop a)
      = textContentList ((l.drop a).take (b - a)) ++ textContentList (l.drop b) := by
  rw [← textContentList_append, ← drop_split l a b h]

theorem textContentList_drop_at (cs : List Node) (i : Nat) (c : Node) (h : cs[i]? = some c) :
    textContentList (cs.drop i) = c.textContent ++ textContentList (cs.drop (i + 1)) := by
  rw [drop_at_getElem cs i c h, textContentList_cons]

/-- The nodes around and inside a range, put side by side, are the children
of the common ancestor up to the cuts made in partially contained nodes:
their text content is unchanged. -/
theorem splitAround_textContent (ns : List Node) (sp : Ref) (so : Nat) (ep : Ref) (eo : Nat)
    (before fragment after : List Node)
    (h : splitAround ns sp so ep eo = some (before, fragment, after))
    (hle : lexLe (sp ++ [so]) (ep ++ [eo]) = true) :
    textContentList (before ++ fragment ++ after) = textContentList ns := by
  cases sp with
  | nil =>
    cases ep with
    | nil =>
      simp only [splitAround, Option.some.injEq, Prod.mk.injEq] at h
      obtain ⟨h1, h2, h3⟩ := h
      have hso : so ≤ eo := lexLe_single so eo (by simpa using hle)
      rw [← h1, ← h2, ← h3, List.append_assoc, ← drop_split ns so eo hso,
        List.take_append_drop]
    | cons j pe =>
      have hso : so ≤ j := lexLe_single_cons so j _ (by simpa using hle)
      simp only [splitAround] at h
      cases hj : ns[j]? with
      | none => simp [hj] at h
      | some c =>
        simp only [hj, Option.some.injEq, Prod.mk.injEq] at h
        obtain ⟨h1, h2, h3⟩ := h
        rw [← h1, ← h2, ← h3, textContentList_take_drop ns so,
          textContentList_drop_split ns so j hso, textContentList_drop_at ns j c hj,
          ← extractHead_textContent pe c eo]
        simp only [textContentList_append, textContentList_cons, textContentList_nil,
          List.append_nil, List.append_assoc]
  | cons i ps =>
    cases ep with
    | nil =>
      have hi2 : i < eo := lexLe_cons_single i eo ps so (by simpa using hle)
      simp only [splitAround] at h
      cases hi : ns[i]? with
      | none => simp [hi] at h
      | some c =>
        simp only [hi, Option.some.injEq, Prod.mk.injEq] at h
        obtain ⟨h1, h2, h3⟩ := h
        rw [← h1, ← h2, ← h3, textContentList_split_at ns i c hi,
          textContentList_drop_split ns (i + 1) eo (by omega),
          ← extractTail_textContent ps c so]
        simp only [textContentList_append, textContentList_cons, textContentList_nil,
          List.append_nil, List.append_assoc]
    | cons j pe =>
      rcases lexLe_cons_cons i j _ _ (by simpa using hle) with hlt | ⟨heq, hrest⟩
      · have hne : ¬ i = j := by omega
        simp only [splitAround, hne, if_false] at h
        cases hi : ns[i]? with
        | none => simp [hi] at h
        | some c =>
          cases hj : ns[j]? with
          | none => simp [hi, hj] at h
          | some c' =>
            simp only [hi, hj, Option.some.injEq, Prod.mk.injEq] at h
            obtain ⟨h1, h2, h3⟩ := h
            rw [← h1, ← h2, ← h3, textContentList_split_at ns i c hi,
              textContentList_drop_split ns (i + 1) j (by omega),
              textContentList_drop_at ns j c' hj,
              ← extractTail_textContent ps c so, ← extractHead_textContent pe c' eo]
            simp only [textContentList_append, textContentList_cons, textContentList_nil,
              List.append_nil, List.nil_append, List.append_assoc, List.cons_append]
      · subst heq
        simp only [splitAround, if_true] at h
        cases hi : ns[i]? with
        | none => simp [hi] at h
        | some c =>
          cases c with
          | element a b cs => simp [hi] at h
          | comment d => simp [hi] at h
          | text d =>
            cases ps with
            | cons q qs => simp [hi] at h
            | nil =>
              cases pe with
              | cons q qs => simp [hi] at h
              | nil =>
                have hso : so ≤ eo := lexLe_single so eo (by simpa using hrest)
                simp only [hi, Option.some.injEq, Prod.mk.injEq] at h
                obtain ⟨h1, h2, h3⟩ := h
                have hmid : textContentList
                    (if so = eo then [] else [Node.text (substringData d so eo)])
                    = (d.drop so).take (eo - so) := by
                  by_cases hse : so = eo
                  · simp [hse, textContentList_nil]
                  · simp [hse, textContentList_cons, textContentList_nil, Node.textContent,
                      substringData]
                have hd : d
                    = d.take so ++ ((d.drop so).take (eo - so) ++ d.drop eo) := by
                  have e : d.drop eo = (d.drop so).drop (eo - so) := by
                    rw [List.drop_drop]
                    congr 1
                    omega
                  rw [e, List.take_append_drop, List.take_append_drop]
                have hc : (Node.text d).textContent
                    = d.take so ++ ((d.drop so).take (eo - so) ++ d.drop eo) := by
                  rw [Node.textContent]
                  exact hd
                rw [← h1, ← h2, ← h3, textContentList_split_at ns i _ hi, hc]
                simp only [textContentList_append, textContentList_cons, textContentList_nil,
                  hmid, Node.textContent, List.append_nil, List.append_assoc]

theorem any_drop_split (p : Node → Bool) (l : List Node) (a b : Nat) (h : a ≤ b) :
    (l.drop a).any p = (((l.drop a).take (b - a)).any p || (l.drop b).any p) := by
  rw [← List.any_append, ← drop_split l a b h]

theorem any_drop_at (p : Node → Bool) (cs : List Node) (i : Nat) (c : Node)
    (h : cs[i]? = some c) :
    (cs.drop i).any p = (p c || (cs.drop (i + 1)).any p) := by
  rw [drop_at_getElem cs i c h, List.any_cons]

theorem findMarker_text (id : String) (d : List Nat) :
    ((Node.text d).findMarker id).isSome = false := by
  simp [Node.findMarker]

theorem findMarker_comment (id : String) (d : List Nat) :
    ((Node.comment d).findMarker id).isSome = false := by
  simp [Node.findMarker]

/-- The nodes around and inside a range hold a marker with a given id exactly
when the children of the common ancestor did. -/
theorem splitAround_marker (id : String) (ns : List Node) (sp : Ref) (so : Nat) (ep : Ref)
    (eo : Nat) (before fragment after : List Node)
    (h : splitAround ns sp so ep eo = some (before, fragment, after))
    (hle : lexLe (sp ++ [so]) (ep ++ [eo]) = true) :
    (before ++ fragment ++ after).any (fun n => (n.findMarker id).isSome)
      = ns.any (fun n => (n.findMarker id).isSome) := by
  cases sp with
  | nil =>
    cases ep with
    | nil =>
      simp only [splitAround, Option.some.injEq, Prod.mk.injEq] at h
      obtain ⟨h1, h2, h3⟩ := h
      have hso : so ≤ eo := lexLe_single so eo (by simpa using hle)
      rw [← h1, ← h2, ← h3, List.append_assoc, ← drop_split ns so eo hso,
        List.take_append_drop]
    | cons j pe =>
      have hso : so ≤ j := lexLe_single_cons so j _ (by simpa using hle)
      simp only [splitAround] at h
      cases hj : ns[j]? with
      | none => simp [hj] at h
      | some c =>
        simp only [hj, Option.some.injEq, Prod.mk.injEq] at h
        obtain ⟨h1, h2, h3⟩ := h
        rw [← h1, ← h2, ← h3, any_split _ ns so, any_drop_split _ ns so j hso,
          any_drop_at _ ns j c hj, ← extractHead_marker id pe c eo]
        simp only [List.any_append, List.any_cons, List.any_nil, Bool.or_false, Bool.false_or,
          Bool.or_assoc, Bool.or_comm, Bool.or_left_comm]
  | cons i ps =>
    cases ep with
    | nil =>
      have hi2 : i < eo := lexLe_cons_single i eo ps so (by simpa using hle)
      simp only [splitAround] at h
      cases hi : ns[i]? with
      | none => simp [hi] at h
      | some c =>
        simp only [hi, Option.some.injEq, Prod.mk.injEq] at h
        obtain ⟨h1, h2, h3⟩ := h
        rw [← h1, ← h2, ← h3, any_split_at _ ns i c hi,
          any_drop_split _ ns (i + 1) eo (by omega), ← extractTail_marker id ps c so]
        simp only [List.any_append, List.any_cons, List.any_nil, Bool.or_false, Bool.false_or,
          Bool.or_assoc, Bool.or_comm, Bool.or_left_comm]
    | cons j pe =>
      rcases lexLe_cons_cons i j _ _ (by simpa using hle) with hlt | ⟨heq, hrest⟩
      · have hne : ¬ i = j := by omega
        simp only [splitAround, hne, if_false] at h
        cases hi : ns[i]? with
        | none => simp [hi] at h
        | some c =>
          cases hj : ns[j]? with
          | none => simp [hi, hj] at h
          | some c' =>
            simp only [hi, hj, Option.some.injEq, Prod.mk.injEq] at h
            obtain ⟨h1, h2, h3⟩ := h
            rw [← h1, ← h2, ← h3, any_split_at _ ns i c hi,
              any_drop_split _ ns (i + 1) j (by omega), any_drop_at _ ns j c' hj,
              ← extractTail_marker id ps c so, ← extractHead_marker id pe c' eo]
            simp only [List.any_append, List.any_cons, List.any_nil, Bool.or_false,
              Bool.false_or, List.cons_append, Bool.or_assoc, Bool.or_comm, Bool.or_left_comm]
      · subst heq
        simp only [splitAround, if_true] at h
        cases hi : ns[i]? with
        | none => simp [hi] at h
        | some c =>
          cases c with
          | element a b cs => simp [hi] at h
          | comment d => simp [hi] at h
          | text d =>
            cases ps with
            | cons q qs => simp [hi] at h
            | nil =>
              cases pe with
              | cons q qs => simp [hi] at h
              | nil =>
                simp only [hi, Option.some.injEq, Prod.mk.injEq] at h
                obtain ⟨h1, h2, h3⟩ := h
                have hmid : (if so = eo then [] else [Node.text (substringData d so eo)]).any
                    (fun n => (n.findMarker id).isSome) = false := by
                  by_cases hse : so = eo
                  · simp [hse]
                  · simp [hse, findMarker_text]
                rw [← h1, ← h2, ← h3, any_split_at _ ns i _ hi]
                simp only [List.any_append, List.any_cons, List.any_nil, Bool.or_false,
                  Bool.false_or, hmid, findMarker_text]

/-! ### Wrapping a range -/

theorem wrapIn_nil (mk : List Node → Node) (top : Bool) (ns : List Node)
    (so : Nat) (ep : Ref) (eo : Nat) :
    wrapIn mk top ns [] so ep eo = wrapHere mk top ns [] so ep eo := by
  rw [wrapIn]

theorem wrapIn_shared (mk : List Node → Node) (top : Bool) (ns : List Node)
    (i : Nat) (ps : Ref) (so : Nat) (pe : Ref) (eo : Nat)
    (name : String) (hid : Option String) (cs : List Node)
    (hi : ns[i]? = some (Node.element name hid cs)) :
    wrapIn mk top ns (i :: ps) so (i :: pe) eo
      = match wrapIn mk false cs ps so pe eo with
        | WrapResult.inserted ks => WrapResult.inserted (ns.set i (Node.element name hid ks))
        | WrapResult.failed ks pt =>
          WrapResult.failed (ns.set i (Node.element name hid ks))
            { node := i :: pt.node, offset := pt.offset } := by
  rw [wrapIn]
  simp [sharedChild, hi]

theorem wrapIn_here (mk : List Node → Node) (top : Bool) (ns : List Node)
    (i : Nat) (ps : Ref) (so : Nat) (ep : Ref) (eo : Nat)
    (h : sharedChild ns (i :: ps) ep = none
      ∨ ∃ k d, sharedChild ns (i :: ps) ep = some (k, Node.text d)) :
    wrapIn mk top ns (i :: ps) so ep eo = wrapHere mk top ns (i :: ps) so ep eo := by
  rw [wrapIn]
  rcases h with h | ⟨k, d, h⟩ <;> rw [h]

theorem wrapHere_inserted (mk : List Node → Node) (top : Bool) (ns : List Node)
    (sp : Ref) (so : Nat) (ep : Ref) (eo : Nat) (ns' : List Node)
    (h : wrapHere mk top ns sp so ep eo = WrapResult.inserted ns') :
    ∃ before fragment after, splitAround ns sp so ep eo = some (before, fragment, after)
      ∧ ns' = before ++ [mk fragment] ++ after := by
  unfold wrapHere at h
  cases hs : splitAround ns sp so ep eo with
  | none => rw [hs] at h; cases h
  | some t =>
    obtain ⟨B, F, A⟩ := t
    rw [hs] at h
    simp only [finishWrap] at h
    split at h
    · cases h
    · cases h
      exact ⟨B, F, A, rfl, rfl⟩

theorem set_eq_split (ns : List Node) (i : Nat) (c n : Node) (h : ns[i]? = some c) :
    ns.set i n = ns.take i ++ n :: ns.drop (i + 1) := by
  induction ns generalizing i with
  | nil => simp at h
  | cons a rest ih =>
    cases i with
    | zero => simp
    | succ k =>
      simp only [List.getElem?_cons_succ] at h
      simp [ih k h]

theorem findMarkerList_skip (id : String) (B : List Node) (rest : List Node) (j : Nat)
    (hB : B.any (fun n => (n.findMarker id).isSome) = false) :
    findMarkerList id (B ++ rest) j = findMarkerList id rest (j + B.length) := by
  induction B generalizing j with
  | nil => simp
  | cons n B ih =>
    simp only [List.any_cons, Bool.or_eq_false_iff] at hB
    have hn : n.findMarker id = none := by
      cases hx : n.findMarker id with
      | none => rfl
      | some r => rw [hx] at hB; simp at hB
    rw [List.cons_append, findMarkerList, hn, ih (j + 1) hB.2]
    simp only [List.length_cons]
    congr 1
    omega

theorem markerSpan_findMarker (id : String) (F : List Node) :
    (markerSpan id F).findMarker id = some [] := by
  simp [markerSpan, Node.findMarker]

theorem unwrapIn_at (B A : List Node) (el : Node) :
    unwrapIn (B ++ el :: A) [B.length] = B ++ el.kids ++ A := by
  have h : (B ++ el :: A)[B.length]? = some el := by
    rw [List.getElem?_append_right (Nat.le_refl _)]
    simp
  rw [unwrapIn, h]
  simp

theorem sharedChild_some (ns : List Node) (i : Nat) (ps ep : Ref) (k : Nat) (c : Node)
    (h : sharedChild ns (i :: ps) ep = some (k, c)) :
    ∃ pe, ep = i :: pe ∧ k = i ∧ ns[i]? = some c := by
  cases ep with
  | nil => simp [sharedChild] at h
  | cons j pe =>
    simp only [sharedChild] at h
    by_cases hij : i = j
    · subst hij
      simp only [if_true] at h
      cases hi : ns[i]? with
      | none => simp [hi] at h
      | some c' =>
        simp only [hi, Option.map_some', Option.some.injEq, Prod.mk.injEq] at h
        exact ⟨pe, rfl, h.1.symm, by rw [h.2]⟩
    · simp [hij] at h

theorem wrapHere_marker (id id' : String) (top : Bool) (ns : List Node)
    (sp : Ref) (so : Nat) (ep : Ref) (eo : Nat) (ns' : List Node)
    (h : wrapHere (markerSpan id) top ns sp so ep eo = WrapResult.inserted ns')
    (hle : lexLe (sp ++ [so]) (ep ++ [eo]) = true) :
    ns'.any (fun n => (n.findMarker id').isSome)
      = (decide (id = id') || ns.any (fun n => (n.findMarker id').isSome)) := by
  obtain ⟨B, F, A, hs, hn⟩ := wrapHere_inserted _ top ns sp so ep eo ns' h
  have hm := splitAround_marker id' ns sp so ep eo B F A hs hle
  rw [hn, ← hm]
  simp only [List.any_append, List.any_cons, List.any_nil, Bool.or_false, Bool.false_or,
    markerSpan, findMarker_element_isSome, Option.some.injEq, Bool.or_assoc, Bool.or_comm,
    Bool.or_left_comm]

/-- After a range has been wrapped in a marker, the tree holds a marker with
an id exactly when the id is the new one or the tree held such a marker. -/
theorem wrapIn_marker (id id' : String) (sp : Ref) :
    ∀ (top : Bool) (ns : List Node) (so : Nat) (ep : Ref) (eo : Nat) (ns' : List Node),
      wrapIn (markerSpan id) top ns sp so ep eo = WrapResult.inserted ns' →
      lexLe (sp ++ [so]) (ep ++ [eo]) = true →
      ns'.any (fun n => (n.findMarker id').isSome)
        = (decide (id = id') || ns.any (fun n => (n.findMarker id').isSome)) := by
  induction sp with
  | nil =>
    intro top ns so ep eo ns' h hle
    rw [wrapIn_nil] at h
    exact wrapHere_marker id id' top ns [] so ep eo ns' h hle
  | cons i ps ih =>
    intro top ns so ep eo ns' h hle
    cases hsc : sharedChild ns (i :: ps) ep with
    | none =>
      rw [wrapIn_here _ top ns i ps so ep eo (Or.inl hsc)] at h
      exact wrapHere_marker id id' top ns (i :: ps) so ep eo ns' h hle
    | some t =>
      obtain ⟨k, c⟩ := t
      obtain ⟨pe, hep, hk, hi⟩ := sharedChild_some ns i ps ep k c hsc
      subst hep
      cases c with
      | text d =>
        rw [wrapIn_here _ top ns i ps so (i :: pe) eo (Or.inr ⟨k, d, hsc⟩)] at h
        exact wrapHere_marker id id' top ns (i :: ps) so (i :: pe) eo ns' h hle
      | comment d =>
        rw [wrapIn, hsc] at h
        cases h
      | element name hid cs =>
        rw [wrapIn_shared _ top ns i ps so pe eo name hid cs hi] at h
        have hle2 : lexLe (ps ++ [so]) (pe ++ [eo]) = true := by
          rcases lexLe_cons_cons i i _ _ (by simpa using hle) with hlt | ⟨_, hr⟩
          · omega
          · exact hr
        cases hw : wrapIn (markerSpan id) false cs ps so pe eo with
        | failed ks pt => rw [hw] at h; cases h
        | inserted ks =>
          rw [hw] at h
          cases h
          have hks := ih false cs so pe eo ks hw hle2
          rw [set_eq_split ns i _ _ hi, any_split_at _ ns i _ hi]
          simp only [List.any_append, List.any_cons, findMarker_element_isSome, hks,
            Bool.or_false, Bool.false_or, Bool.or_assoc, Bool.or_comm, Bool.or_left_comm]

theorem lt_of_getElem (ns : List Node) (i : Nat) (c : Node) (h : ns[i]? = some c) :
    i < ns.length := by
  by_contra hlt
  have : ns[i]? = none := List.getElem?_eq_none (by omega)
  rw [this] at h
  cases h

theorem findMarker_none_of_isSome (id : String) (n : Node)
    (h : (n.findMarker id).isSome = false) : n.findMarker id = none := by
  cases hx : n.findMarker id with
  | none => rfl
  | some r => rw [hx] at h; simp at h

theorem pointsToContent_cons (ns : List Node) (i : Nat) (ps : Ref)
    (h : pointsToContent ns (i :: ps) = true) :
    ∃ c, ns[i]? = some c
      ∧ ((ps = [] ∧ (c.isElement = true ∨ c.isText = true))
        ∨ (ps ≠ [] ∧ pointsToContent c.kids ps = true ∧ c.isElement = true)) := by
  unfold pointsToContent at h
  cases ps with
  | nil =>
    simp only [nodeIn] at h
    cases hi : ns[i]? with
    | none => simp [hi] at h
    | some c =>
      rw [hi] at h
      exact ⟨c, rfl, Or.inl ⟨rfl, by simpa using h⟩⟩
  | cons j r =>
    rw [nodeIn_cons _ _ _ (by simp)] at h
    cases hi : ns[i]? with
    | none => simp [hi] at h
    | some c =>
      rw [hi] at h
      simp only [Option.some_bind] at h
      refine ⟨c, rfl, Or.inr ⟨by simp, ?_, ?_⟩⟩
      · unfold pointsToContent
        exact h
      · cases c with
        | element a b cs => rfl
        | text d => simp [Node.kids, nodeIn_nil] at h
        | comment d => simp [Node.kids, nodeIn_nil] at h

theorem wrapHere_of_split (mk : List Node → Node) (ns : List Node)
    (sp : Ref) (so : Nat) (ep : Ref) (eo : Nat)
    (h : (splitAround ns sp so ep eo).isSome = true) :
    ∃ ns', wrapHere mk false ns sp so ep eo = WrapResult.inserted ns' := by
  cases hs : splitAround ns sp so ep eo with
  | none => rw [hs] at h; simp at h
  | some t =>
    obtain ⟨B, F, A⟩ := t
    unfold wrapHere
    rw [hs]
    exact ⟨B ++ [mk F] ++ A, by simp [finishWrap]⟩

/-- Below the document, wrapping a range whose boundary points lie in
elements or text nodes always succeeds. -/
theorem wrapIn_inserted_inner (mk : List Node → Node) (sp : Ref) :
    ∀ (ns : List Node) (so : Nat) (ep : Ref) (eo : Nat),
      (sp = [] ∨ pointsToContent ns sp = true) →
      (ep = [] ∨ pointsToContent ns ep = true) →
      ∃ ns', wrapIn mk false ns sp so ep eo = WrapResult.inserted ns' := by
  induction sp with
  | nil =>
    intro ns so ep eo _ he
    rw [wrapIn_nil]
    cases ep with
    | nil => exact wrapHere_of_split mk ns [] so [] eo rfl
    | cons j pe =>
      rcases he with he | he
      · cases he
      · obtain ⟨c, hj, _⟩ := pointsToContent_cons ns j pe he
        exact wrapHere_of_split mk ns [] so (j :: pe) eo (by simp [splitAround, hj])
  | cons i ps ih =>
    intro ns so ep eo hs he
    rcases hs with hs | hs
    · cases hs
    obtain ⟨c, hi, hc⟩ := pointsToContent_cons ns i ps hs
    cases ep with
    | nil =>
      rw [wrapIn_here mk false ns i ps so [] eo (Or.inl (by simp [sharedChild]))]
      exact wrapHere_of_split mk ns (i :: ps) so [] eo (by simp [splitAround, hi])
    | cons j pe =>
      rcases he with he | he
      · cases he
      obtain ⟨c', hj, hc'⟩ := pointsToContent_cons ns j pe he
      by_cases hij : i = j
      · subst hij
        rw [hi] at hj
        cases hj
        cases c with
        | element name hid cs =>
          rw [wrapIn_shared mk false ns i ps so pe eo name hid cs hi]
          have h1 : ps = [] ∨ pointsToContent cs ps = true := by
            rcases hc with ⟨h, _⟩ | ⟨_, h, _⟩
            · exact Or.inl h
            · exact Or.inr h
          have h2 : pe = [] ∨ pointsToContent cs pe = true := by
            rcases hc' with ⟨h, _⟩ | ⟨_, h, _⟩
            · exact Or.inl h
            · exact Or.inr h
          obtain ⟨ks, hks⟩ := ih cs so pe eo h1 h2
          rw [hks]
          exact ⟨_, rfl⟩
        | text d =>
          have hps : ps = [] := by
            rcases hc with ⟨h, _⟩ | ⟨_, _, h⟩
            · exact h
            · simp [Node.isElement] at h
          have hpe : pe = [] := by
            rcases hc' with ⟨h, _⟩ | ⟨_, _, h⟩
            · exact h
            · simp [Node.isElement] at h
          subst hps
          subst hpe
          rw [wrapIn_here mk false ns i [] so [i] eo
            (Or.inr ⟨i, d, by simp [sharedChild, hi]⟩)]
          exact wrapHere_of_split mk ns [i] so [i] eo (by simp [splitAround, hi])
        | comment d =>
          rcases hc with ⟨_, h⟩ | ⟨_, _, h⟩
          · simp [Node.isElement, Node.isText] at h
          · simp [Node.isElement] at h
      · rw [wrapIn_here mk false ns i ps so (j :: pe) eo
          (Or.inl (by simp [sharedChild, hij]))]
        exact wrapHere_of_split mk ns (i :: ps) so (j :: pe) eo
          (by simp [splitAround, hij, hi, hj])

theorem countP_pos_of_getElem (ns : List Node) (j : Nat) (b : Node)
    (hj : ns[j]? = some b) (hb : b.isElement = true) : 1 ≤ ns.countP Node.isElement := by
  have hmem : b ∈ ns := List.getElem?_mem hj
  exact List.countP_pos_iff.mpr ⟨b, hmem, hb⟩

theorem unique_element (ns : List Node) (i j : Nat) (a b : Node)
    (h : ns.countP Node.isElement ≤ 1)
    (hi : ns[i]? = some a) (ha : a.isElement = true)
    (hj : ns[j]? = some b) (hb : b.isElement = true) : i = j := by
  induction ns generalizing i j with
  | nil => simp at hi
  | cons x rest ih =>
    rw [List.countP_cons] at h
    cases i with
    | zero =>
      cases j with
      | zero => rfl
      | succ j' =>
        simp only [List.getElem?_cons_zero, Option.some.injEq] at hi
        simp only [List.getElem?_cons_succ] at hj
        have := countP_pos_of_getElem rest j' b hj hb
        rw [if_pos (show x.isElement = true by rw [hi]; exact ha)] at h
        omega
    | succ i' =>
      cases j with
      | zero =>
        simp only [List.getElem?_cons_zero, Option.some.injEq] at hj
        simp only [List.getElem?_cons_succ] at hi
        have := countP_pos_of_getElem rest i' a hi ha
        rw [if_pos (show x.isElement = true by rw [hj]; exact hb)] at h
        omega
      | succ j' =>
        simp only [List.getElem?_cons_succ] at hi hj
        have := ih i' j' (by omega) hi hj
        omega

theorem top_content_element (doc : Document) (i : Nat) (ps : Ref)
    (hwf : doc.wellFormed = true) (h : pointsToContent doc.childNodes (i :: ps) = true) :
    ∃ name hid cs, doc.childNodes[i]? = some (Node.element name hid cs)
      ∧ (ps = [] ∨ pointsToContent cs ps = true) := by
  obtain ⟨c, hi, hc⟩ := pointsToContent_cons doc.childNodes i ps h
  simp only [Document.wellFormed, Bool.and_eq_true, List.all_eq_true] at hwf
  have hnt : c.isText = false := by
    have := hwf.2 c (List.getElem?_mem hi)
    simpa using this
  cases c with
  | text d => simp [Node.isText] at hnt
  | comment d =>
    rcases hc with ⟨_, h1⟩ | ⟨_, _, h1⟩
    · simp [Node.isElement, Node.isText] at h1
    · simp [Node.isElement] at h1
  | element name hid cs =>
    refine ⟨name, hid, cs, hi, ?_⟩
    rcases hc with ⟨h1, _⟩ | ⟨_, h1, _⟩
    · exact Or.inl h1
    · exact Or.inr h1

/-- In a well-formed document, wrapping a range whose boundary points lie in
elements or text nodes succeeds, inside the document element. -/
theorem wrapIn_top (mk : List Node → Node) (doc : Document) (range : Range)
    (hwf : doc.wellFormed = true) (hr : contentRange doc range = true) :
    ∃ i ps pe name hid cs ks,
      range.startPoint.node = i :: ps ∧ range.endPoint.node = i :: pe
      ∧ doc.childNodes[i]? = some (Node.element name hid cs)
      ∧ wrapIn mk false cs ps range.startPoint.offset pe range.endPoint.offset
          = WrapResult.inserted ks
      ∧ wrapIn mk true doc.childNodes range.startPoint.node range.startPoint.offset
          range.endPoint.node range.endPoint.offset
          = WrapResult.inserted (doc.childNodes.set i (Node.element name hid ks)) := by
  simp only [contentRange, Bool.and_eq_true] at hr
  obtain ⟨⟨hs, he⟩, _⟩ := hr
  cases hsp : range.startPoint.node with
  | nil => rw [hsp] at hs; simp [pointsToContent, nodeIn] at hs
  | cons i ps =>
    cases hep : range.endPoint.node with
    | nil => rw [hep] at he; simp [pointsToContent, nodeIn] at he
    | cons j pe =>
      rw [hsp] at hs
      rw [hep] at he
      obtain ⟨name, hid, cs, hi, h1⟩ := top_content_element doc i ps hwf hs
      obtain ⟨name', hid', cs', hj, h2⟩ := top_content_element doc j pe hwf he
      have hcount : doc.childNodes.countP Node.isElement ≤ 1 := by
        simp only [Document.wellFormed, Bool.and_eq_true, decide_eq_true_eq] at hwf
        exact hwf.1
      have hij := unique_element doc.childNodes i j _ _ hcount hi rfl hj rfl
      subst hij
      rw [hi] at hj
      cases hj
      obtain ⟨ks, hks⟩ := wrapIn_inserted_inner mk ps cs range.startPoint.offset pe
        range.endPoint.offset h1 h2
      refine ⟨i, ps, pe, name, hid, cs, ks, rfl, rfl, hi, hks, ?_⟩
      rw [wrapIn_shared mk true doc.childNodes i ps _ pe _ name hid cs hi, hks]

theorem wrapWithFallback_of_inserted (doc : Document) (range : Range) (id : String)
    (ns' : List Node)
    (h : wrapIn (markerSpan id) true doc.childNodes range.startPoint.node
      range.startPoint.offset range.endPoint.node range.endPoint.offset
        = WrapResult.inserted ns') :
    wrapWithFallback doc range id = Outcome.returned { childNodes := ns' } := by
  have he : extractThenInsert doc range (markerSpan id)
      = Outcome.returned { childNodes := ns' } := by
    unfold extractThenInsert
    rw [h]
  unfold wrapWithFallback surroundContents
  by_cases hp : partiallyContainsNonText doc range = true
  · rw [if_pos hp]
    exact he
  · rw [if_neg hp, he]

theorem findMarker_isSome (id : String) (doc : Document) :
    (findMarker id doc).isSome = doc.childNodes.any (fun n => (n.findMarker id).isSome) := by
  unfold findMarker
  exact findMarkerList_isSome id doc.childNodes 0

theorem lexLe_top (i : Nat) (xs ys : List Nat) (h : lexLe (i :: xs) (i :: ys) = true) :
    lexLe xs ys = true := by
  rcases lexLe_cons_cons i i xs ys h with hlt | ⟨_, hr⟩
  · omega
  · exact hr

theorem findMarker_none_of_isSome_doc (id : String) (doc : Document)
    (h : (findMarker id doc).isSome = false) : findMarker id doc = none := by
  cases hx : findMarker id doc with
  | none => rfl
  | some r => rw [hx] at h; simp at h

/-! ### The marker selector -/

theorem stripHead_append (p rest : List Char) : stripHead p (p ++ rest) = some rest := by
  induction p with
  | nil => cases rest <;> rfl
  | cons c p ih =>
    rw [List.cons_append, stripHead, if_pos rfl, ih]

theorem takeWhile_until (p : Char → Bool) (t : List Char) (x : Char) (rest : List Char)
    (ht : ∀ c ∈ t, p c = true) (hx : p x = false) :
    (t ++ x :: rest).takeWhile p = t ∧ (t ++ x :: rest).dropWhile p = x :: rest := by
  induction t with
  | nil => simp [List.takeWhile_cons, List.dropWhile_cons, hx]
  | cons c t ih =>
    have hc : p c = true := ht c (by simp)
    have := ih (fun d hd => ht d (by simp [hd]))
    rw [List.cons_append, List.takeWhile_cons, List.dropWhile_cons, if_pos hc, if_pos hc,
      this.1, this.2]
    exact ⟨rfl, rfl⟩

theorem isPlainId_ne (id : String) (h : isPlainId id = true) : id ≠ "" := by
  intro e
  subst e
  simp [isPlainId] at h

/-- The selector built from a plain id is answered with the first marker that
carries the id. -/
theorem documentQuerySelector_marker (id : String) (doc : Document)
    (h : isPlainId id = true) :
    documentQuerySelector (markerSelector id) doc = Except.ok (findMarker id doc) := by
  simp only [isPlainId, Bool.and_eq_true, Bool.not_eq_true', List.all_eq_true] at h
  obtain ⟨hne, hall⟩ := h
  have hdata : (markerSelector id).data
      = ".saved-highlight[data-hid=\"".data ++ (id.data ++ '"' :: [']']) := by
    unfold markerSelector
    rw [String.data_append, String.data_append]
    simp
  have hq : (fun c => plainIdChars.contains c) '"' = false := by decide
  obtain ⟨ht, hd⟩ := takeWhile_until (fun c => plainIdChars.contains c) id.data '"' [']']
    hall hq
  have hne2 : id.data ≠ [] := by
    intro e
    rw [e] at hne
    simp at hne
  unfold documentQuerySelector parseMarkerSelector
  rw [hdata, stripHead_append]
  simp only [ht, hd]
  rw [if_pos ⟨hne2, trivial⟩]

/-! ### Cuts -/

theorem Cut_refl (ns : List Node) : Cut ns ns := by
  induction ns with
  | nil => exact Cut.nil
  | cons n rest ih => exact Cut.keep n ih

theorem Cut_append {a a' b b' : List Node} (h1 : Cut a a') (h2 : Cut b b') :
    Cut (a ++ b) (a' ++ b') := by
  induction h1 with
  | nil => exact h2
  | keep n _ ih => exact Cut.keep n ih
  | text pieces hne _ ih =>
    rw [List.cons_append, List.append_assoc]
    exact Cut.text pieces hne ih
  | element name hid parts hne hcs _ _ ih =>
    rw [List.cons_append, List.append_assoc]
    exact Cut.element name hid parts hne hcs ih

theorem Cut_of_eq {a a' b : List Node} (e : a = a') (h : Cut a' b) : Cut a b := by
  subst e
  exact h

theorem Cut_text2 (d : List Nat) (k : Nat) :
    Cut [Node.text d] [Node.text (d.take k), Node.text (d.drop k)] := by
  have h := Cut.text [d.take k, d.drop k] (by simp) Cut.nil
  simpa using h

theorem Cut_text3 (d : List Nat) (a b : Nat) (hab : a ≤ b) :
    Cut [Node.text d] [Node.text (d.take a), Node.text ((d.drop a).take (b - a)),
      Node.text (d.drop b)] := by
  have h := Cut.text [d.take a, (d.drop a).take (b - a), d.drop b] (by simp) Cut.nil
  have e : d.drop b = (d.drop a).drop (b - a) := by
    rw [List.drop_drop]
    congr 1
    omega
  have hd : d.take a ++ ((d.drop a).take (b - a) ++ d.drop b) = d := by
    rw [e, List.take_append_drop, List.take_append_drop]
  simp only [List.flatten_cons, List.flatten_nil, List.append_nil, List.map_cons, List.map_nil,
    hd] at h
  exact h

theorem Cut_element2 (name : String) (hid : Option String) (cs c1 c2 : List Node)
    (h : Cut cs (c1 ++ c2)) :
    Cut [Node.element name hid cs] [Node.element name hid c1, Node.element name hid c2] := by
  have h2 := Cut.element name hid [c1, c2] (by simp) (by simpa using h) Cut.nil
  simpa using h2

theorem Cut_inside (name : String) (hid : Option String) (cs cs' : List Node)
    (h : Cut cs cs') :
    Cut [Node.element name hid cs] [Node.element name hid cs'] := by
  have h2 := Cut.element name hid [cs'] (by simp) (by simpa using h) Cut.nil
  simpa using h2

theorem textContentList_texts (pieces : List (List Nat)) :
    textContentList (pieces.map Node.text) = pieces.flatten := by
  induction pieces with
  | nil => simp [textContentList_nil]
  | cons p rest ih => simp [textContentList_cons, Node.textContent, ih]

theorem textContentList_parts (name : String) (hid : Option String) (parts : List (List Node)) :
    textContentList (parts.map (Node.element name hid)) = textContentList parts.flatten := by
  induction parts with
  | nil => simp
  | cons p rest ih =>
    simp [textContentList_cons, textContentList_append, Node.textContent, ih]

/-- Cuts keep the text content. -/
theorem Cut_textContent {a b : List Node} (h : Cut a b) :
    textContentList a = textContentList b := by
  induction h with
  | nil => rfl
  | keep n _ ih => rw [textContentList_cons, textContentList_cons, ih]
  | text pieces _ _ ih =>
    rw [textContentList_cons, textContentList_append, textContentList_texts, ih,
      Node.textContent]
  | element name hid parts _ _ _ ihc ih =>
    rw [textContentList_cons, textContentList_append, textContentList_parts, ih,
      Node.textContent, ihc]


/-! ### Cuts made by an extraction -/

theorem content_child (cs : List Node) (i : Nat) (rest : Ref)
    (h : pointsToContent cs (i :: rest) = true) :
    ∃ c, cs[i]? = some c ∧ c.isComment = false
      ∧ (rest = [] ∨ pointsToContent c.kids rest = true) := by
  obtain ⟨c, hi, hc⟩ := pointsToContent_cons cs i rest h
  refine ⟨c, hi, ?_, ?_⟩
  · rcases hc with ⟨_, h1⟩ | ⟨_, _, h1⟩
    · cases c <;> simp [Node.isElement, Node.isText, Node.isComment] at h1 ⊢
    · cases c <;> simp [Node.isElement, Node.isComment] at h1 ⊢
  · rcases hc with ⟨h1, _⟩ | ⟨_, h1, _⟩
    · exact Or.inl h1
    · exact Or.inr h1

theorem extractTail_cut (path : Ref) :
    ∀ (c : Node) (off : Nat), c.isComment = false →
      (path = [] ∨ pointsToContent c.kids path = true) →
      Cut [c] [(extractTail c path off).1, (extractTail c path off).2] := by
  induction path with
  | nil =>
    intro c off hc _
    cases c with
    | text d => exact Cut_text2 d off
    | comment d => simp [Node.isComment] at hc
    | element name hid cs =>
      exact Cut_element2 name hid cs _ _ (by rw [List.take_append_drop]; exact Cut_refl cs)
  | cons i rest ih =>
    intro c off hc hp
    cases c with
    | text d => exact Cut_text2 d off
    | comment d => simp [Node.isComment] at hc
    | element name hid cs =>
      rcases hp with hp | hp
      · cases hp
      obtain ⟨c', hi, hc', hr⟩ := content_child cs i rest hp
      simp only [extractTail, hi]
      apply Cut_element2
      have e := split_at_getElem cs i c' hi
      refine Cut_of_eq e ?_
      have h1 := Cut_append (Cut_refl (cs.take i))
        (Cut_append (ih c' off hc' hr) (Cut_refl (cs.drop (i + 1))))
      simpa using h1

theorem extractHead_cut (path : Ref) :
    ∀ (c : Node) (off : Nat), c.isComment = false →
      (path = [] ∨ pointsToContent c.kids path = true) →
      Cut [c] [(extractHead c path off).2, (extractHead c path off).1] := by
  induction path with
  | nil =>
    intro c off hc _
    cases c with
    | text d => exact Cut_text2 d off
    | comment d => simp [Node.isComment] at hc
    | element name hid cs =>
      exact Cut_element2 name hid cs _ _ (by rw [List.take_append_drop]; exact Cut_refl cs)
  | cons i rest ih =>
    intro c off hc hp
    cases c with
    | text d => exact Cut_text2 d off
    | comment d => simp [Node.isComment] at hc
    | element name hid cs =>
      rcases hp with hp | hp
      · cases hp
      obtain ⟨c', hi, hc', hr⟩ := content_child cs i rest hp
      simp only [extractHead, hi]
      apply Cut_element2
      have e := split_at_getElem cs i c' hi
      refine Cut_of_eq e ?_
      have h1 := Cut_append (Cut_refl (cs.take i))
        (Cut_append (ih c' off hc' hr) (Cut_refl (cs.drop (i + 1))))
      simpa using h1

theorem split3 (ns : List Node) (a b : Nat) (h : a ≤ b) :
    ns = ns.take a ++ ((ns.drop a).take (b - a) ++ ns.drop b) := by
  rw [← drop_split ns a b h, List.take_append_drop]

/-- The nodes around and inside a range whose boundary points lie in elements
or text nodes, put side by side, are the children of the common ancestor up
to cuts. -/
theorem splitAround_cut (ns : List Node) (sp : Ref) (so : Nat) (ep : Ref) (eo : Nat)
    (before fragment after : List Node)
    (h : splitAround ns sp so ep eo = some (before, fragment, after))
    (hle : lexLe (sp ++ [so]) (ep ++ [eo]) = true)
    (hs : sp = [] ∨ pointsToContent ns sp = true)
    (he : ep = [] ∨ pointsToContent ns ep = true) :
    Cut ns (before ++ fragment ++ after)
      ∧ (sp = [] → ep = [] → before ++ fragment ++ after = ns) := by
  cases sp with
  | nil =>
    cases ep with
    | nil =>
      simp only [splitAround, Option.some.injEq, Prod.mk.injEq] at h
      obtain ⟨h1, h2, h3⟩ := h
      have hso : so ≤ eo := lexLe_single so eo (by simpa using hle)
      have e : before ++ fragment ++ after = ns := by
        rw [← h1, ← h2, ← h3, List.append_assoc]
        exact (split3 ns so eo hso).symm
      exact ⟨by rw [e]; exact Cut_refl ns, fun _ _ => e⟩
    | cons j pe =>
      refine ⟨?_, fun _ hh => by cases hh⟩
      have hso : so ≤ j := lexLe_single_cons so j _ (by simpa using hle)
      rcases he with he | he
      · cases he
      obtain ⟨c, hj, hc, hr⟩ := content_child ns j pe he
      simp only [splitAround, hj, Option.some.injEq, Prod.mk.injEq] at h
      obtain ⟨h1, h2, h3⟩ := h
      have e : ns = ns.take so ++ ((ns.drop so).take (j - so) ++ ([c] ++ ns.drop (j + 1))) := by
        have e1 := split3 ns so j hso
        rw [drop_at_getElem ns j c hj] at e1
        exact e1
      refine Cut_of_eq e ?_
      rw [← h1, ← h2, ← h3]
      have k := Cut_append (Cut_refl (ns.take so))
        (Cut_append (Cut_refl ((ns.drop so).take (j - so)))
          (Cut_append (extractHead_cut pe c eo hc hr) (Cut_refl (ns.drop (j + 1)))))
      simpa using k
  | cons i ps =>
    rcases hs with hs | hs
    · cases hs
    obtain ⟨c, hi, hc, hr⟩ := content_child ns i ps hs
    refine ⟨?_, fun hh _ => by cases hh⟩
    cases ep with
    | nil =>
      have hi2 : i < eo := lexLe_cons_single i eo ps so (by simpa using hle)
      simp only [splitAround, hi, Option.some.injEq, Prod.mk.injEq] at h
      obtain ⟨h1, h2, h3⟩ := h
      have e : ns
          = ns.take i ++ ([c] ++ ((ns.drop (i + 1)).take (eo - (i + 1)) ++ ns.drop eo)) := by
        have e1 := split_at_getElem ns i c hi
        rw [drop_split ns (i + 1) eo (by omega)] at e1
        exact e1
      refine Cut_of_eq e ?_
      rw [← h1, ← h2, ← h3]
      have k := Cut_append (Cut_refl (ns.take i))
        (Cut_append (extractTail_cut ps c so hc hr)
          (Cut_refl ((ns.drop (i + 1)).take (eo - (i + 1)) ++ ns.drop eo)))
      simpa using k
    | cons j pe =>
      rcases he with he | he
      · cases he
      obtain ⟨c', hj, hc', hr'⟩ := content_child ns j pe he
      rcases lexLe_cons_cons i j _ _ (by simpa using hle) with hlt | ⟨heq, hrest⟩
      · have hne : ¬ i = j := by omega
        simp only [splitAround, hne, if_false, hi, hj, Option.some.injEq, Prod.mk.injEq] at h
        obtain ⟨h1, h2, h3⟩ := h
        have e : ns = ns.take i ++ ([c] ++ ((ns.drop (i + 1)).take (j - (i + 1))
            ++ ([c'] ++ ns.drop (j + 1)))) := by
          have e1 := split_at_getElem ns i c hi
          rw [drop_split ns (i + 1) j (by omega), drop_at_getElem ns j c' hj] at e1
          exact e1
        refine Cut_of_eq e ?_
        rw [← h1, ← h2, ← h3]
        have k := Cut_append (Cut_refl (ns.take i))
          (Cut_append (extractTail_cut ps c so hc hr)
            (Cut_append (Cut_refl ((ns.drop (i + 1)).take (j - (i + 1))))
              (Cut_append (extractHead_cut pe c' eo hc' hr') (Cut_refl (ns.drop (j + 1))))))
        simpa using k
      · subst heq
        rw [hi] at hj
        cases hj
        simp only [splitAround, if_true] at h
        cases c with
        | element a b cs => simp [hi] at h
        | comment d => simp [hi] at h
        | text d =>
          cases ps with
          | cons q qs => simp [hi] at h
          | nil =>
            cases pe with
            | cons q qs => simp [hi] at h
            | nil =>
              have hso : so ≤ eo := lexLe_single so eo (by simpa using hrest)
              simp only [hi, Option.some.injEq, Prod.mk.injEq] at h
              obtain ⟨h1, h2, h3⟩ := h
              have e := split_at_getElem ns i _ hi
              refine Cut_of_eq e ?_
              rw [← h1, ← h2, ← h3]
              by_cases hse : so = eo
              · subst hse
                have k := Cut_append (Cut_refl (ns.take i))
                  (Cut_append (Cut_text2 d so) (Cut_refl (ns.drop (i + 1))))
                simpa using k
              · have k := Cut_append (Cut_refl (ns.take i))
                  (Cut_append (Cut_text3 d so eo hso) (Cut_refl (ns.drop (i + 1))))
                simpa [hse, substringData] using k

/-! ### Wrapping, then unwrapping -/

theorem wrapHere_unwrap (id : String) (top : Bool) (ns : List Node)
    (sp : Ref) (so : Nat) (ep : Ref) (eo : Nat) (ns' : List Node)
    (h : wrapHere (markerSpan id) top ns sp so ep eo = WrapResult.inserted ns')
    (hle : lexLe (sp ++ [so]) (ep ++ [eo]) = true)
    (habs : ns.any (fun n => (n.findMarker id).isSome) = false)
    (hs : sp = [] ∨ pointsToContent ns sp = true)
    (he : ep = [] ∨ pointsToContent ns ep = true) :
    ∃ k rest, findMarkerList id ns' 0 = some (k :: rest)
      ∧ textContentList (unwrapIn ns' (k :: rest)) = textContentList ns
      ∧ (unwrapIn ns' (k :: rest)).any (fun n => (n.findMarker id).isSome) = false
      ∧ Cut ns (unwrapIn ns' (k :: rest))
      ∧ (sp = [] → ep = [] → unwrapIn ns' (k :: rest) = ns) := by
  obtain ⟨B, F, A, hsplit, hn⟩ := wrapHere_inserted _ top ns sp so ep eo ns' h
  have hm := splitAround_marker id ns sp so ep eo B F A hsplit hle
  have ht := splitAround_textContent ns sp so ep eo B F A hsplit hle
  have hc := splitAround_cut ns sp so ep eo B F A hsplit hle hs he
  rw [habs] at hm
  have hB : B.any (fun n => (n.findMarker id).isSome) = false := by
    simp only [List.any_append, Bool.or_eq_false_iff] at hm
    exact hm.1.1
  have hn2 : ns' = B ++ markerSpan id F :: A := by
    rw [hn]
    simp
  have hu : unwrapIn ns' [B.length] = B ++ F ++ A := by
    rw [hn2, unwrapIn_at]
    rfl
  refine ⟨B.length, [], ?_, ?_, ?_, ?_, ?_⟩
  · rw [hn2, findMarkerList_skip id B _ 0 hB, findMarkerList, markerSpan_findMarker]
    simp
  · rw [hu, ht]
  · rw [hu, hm]
  · rw [hu]
    exact hc.1
  · intro h1 h2
    rw [hu]
    exact hc.2 h1 h2

/-- One level up: the marker found below a child is found through the child,
and unwrapping it changes that child only. -/
theorem unwrap_through (id : String) (ns : List Node) (i : Nat) (name : String)
    (hid : Option String) (cs ks : List Node) (k : Nat) (rest : Ref)
    (hi : ns[i]? = some (Node.element name hid cs))
    (habs : ns.any (fun n => (n.findMarker id).isSome) = false)
    (hf : findMarkerList id ks 0 = some (k :: rest)) :
    findMarkerList id (ns.set i (Node.element name hid ks)) 0 = some (i :: k :: rest)
      ∧ unwrapIn (ns.set i (Node.element name hid ks)) (i :: k :: rest)
          = ns.take i ++ Node.element name hid (unwrapIn ks (k :: rest)) :: ns.drop (i + 1)
      ∧ (ns.take i).any (fun n => (n.findMarker id).isSome) = false
      ∧ (ns.drop (i + 1)).any (fun n => (n.findMarker id).isSome) = false
      ∧ hid ≠ some id
      ∧ cs.any (fun n => (n.findMarker id).isSome) = false := by
  have habs2 := habs
  rw [any_split_at _ ns i _ hi, findMarker_element_isSome] at habs2
  simp only [Bool.or_eq_false_iff, decide_eq_false_iff_not] at habs2
  obtain ⟨hT, ⟨hhid, hcs⟩, hD⟩ := habs2
  have hlt := lt_of_getElem ns i _ hi
  have hset : (ns.set i (Node.element name hid ks))[i]? = some (Node.element name hid ks) := by
    simp [hlt]
  refine ⟨?_, ?_, hT, hD, hhid, hcs⟩
  · rw [set_eq_split ns i _ _ hi, findMarkerList_skip id _ _ 0 hT, findMarkerList,
      Node.findMarker, if_neg hhid, hf]
    simp [hlt, Nat.le_of_lt]
  · rw [unwrapIn, hset]
    simp only [List.set_set]
    exact set_eq_split ns i _ _ hi

/-- What unwrapping below a child leaves, given what it leaves of the child's
children. -/
theorem unwrap_through_facts (id : String) (ns : List Node) (i : Nat) (name : String)
    (hid : Option String) (cs U : List Node)
    (hi : ns[i]? = some (Node.element name hid cs))
    (hT : (ns.take i).any (fun n => (n.findMarker id).isSome) = false)
    (hD : (ns.drop (i + 1)).any (fun n => (n.findMarker id).isSome) = false)
    (hhid : hid ≠ some id)
    (htc : textContentList U = textContentList cs)
    (hany : U.any (fun n => (n.findMarker id).isSome) = false)
    (hcut : Cut cs U) :
    textContentList (ns.take i ++ Node.element name hid U :: ns.drop (i + 1))
        = textContentList ns
      ∧ (ns.take i ++ Node.element name hid U :: ns.drop (i + 1)).any
          (fun n => (n.findMarker id).isSome) = false
      ∧ Cut ns (ns.take i ++ Node.element name hid U :: ns.drop (i + 1))
      ∧ (U = cs → ns.take i ++ Node.element name hid U :: ns.drop (i + 1) = ns) := by
  refine ⟨?_, ?_, ?_, ?_⟩
  · rw [textContentList_append, textContentList_cons, Node.textContent, htc,
      textContentList_split_at ns i _ hi, Node.textContent]
    simp
  · simp only [List.any_append, List.any_cons, findMarker_element_isSome, hT, hany, hD,
      Bool.or_false, Bool.false_or, decide_eq_false_iff_not]
    exact hhid
  · refine Cut_of_eq (split_at_getElem ns i _ hi) ?_
    have k := Cut_append (Cut_refl (ns.take i))
      (Cut_append (Cut_inside name hid cs U hcut) (Cut_refl (ns.drop (i + 1))))
    simpa using k
  · intro e
    rw [e]
    exact (split_at_getElem ns i _ hi).symm

/-- Wrapping a range of a tree that holds no marker with the new id and then
unwrapping the marker `querySelector` finds leaves the tree as it was up to
cuts, with the same text content and no marker with that id; it leaves the
very same tree when both boundary points lie in one element. -/
theorem wrapIn_unwrap (id : String) (sp : Ref) :
    ∀ (top : Bool) (ns : List Node) (so : Nat) (ep : Ref) (eo : Nat) (ns' : List Node),
      wrapIn (markerSpan id) top ns sp so ep eo = WrapResult.inserted ns' →
      lexLe (sp ++ [so]) (ep ++ [eo]) = true →
      ns.any (fun n => (n.findMarker id).isSome) = false →
      (sp = [] ∨ pointsToContent ns sp = true) →
      (ep = [] ∨ pointsToContent ns ep = true) →
      ∃ k rest, findMarkerList id ns' 0 = some (k :: rest)
        ∧ textContentList (unwrapIn ns' (k :: rest)) = textContentList ns
        ∧ (unwrapIn ns' (k :: rest)).any (fun n => (n.findMarker id).isSome) = false
        ∧ Cut ns (unwrapIn ns' (k :: rest))
        ∧ (sp = ep →
            (sp = [] ∨ ∃ name hid cs, nodeIn ns sp = some (Node.element name hid cs)) →
            unwrapIn ns' (k :: rest) = ns) := by
  induction sp with
  | nil =>
    intro top ns so ep eo ns' h hle habs hs he
    rw [wrapIn_nil] at h
    obtain ⟨k, rest, h1, h2, h3, h4, h5⟩ :=
      wrapHere_unwrap id top ns [] so ep eo ns' h hle habs hs he
    exact ⟨k, rest, h1, h2, h3, h4, fun e _ => h5 rfl e.symm⟩
  | cons i ps ih =>
    intro top ns so ep eo ns' h hle habs hs he
    have hs' := hs
    rcases hs' with hs' | hs'
    · cases hs'
    obtain ⟨c, hi, _, hr⟩ := content_child ns i ps hs'
    cases hsc : sharedChild ns (i :: ps) ep with
    | none =>
      rw [wrapIn_here _ top ns i ps so ep eo (Or.inl hsc)] at h
      obtain ⟨k, rest, h1, h2, h3, h4, _⟩ :=
        wrapHere_unwrap id top ns (i :: ps) so ep eo ns' h hle habs hs he
      refine ⟨k, rest, h1, h2, h3, h4, ?_⟩
      intro e _
      rw [← e] at hsc
      simp [sharedChild, hi] at hsc
    | some t =>
      obtain ⟨k, c2⟩ := t
      obtain ⟨pe, hep, hk, hi2⟩ := sharedChild_some ns i ps ep k c2 hsc
      subst hep
      rw [hi] at hi2
      cases hi2
      cases c with
      | text d =>
        rw [wrapIn_here _ top ns i ps so (i :: pe) eo (Or.inr ⟨k, d, hsc⟩)] at h
        obtain ⟨k', rest, h1, h2, h3, h4, _⟩ :=
          wrapHere_unwrap id top ns (i :: ps) so (i :: pe) eo ns' h hle habs hs he
        refine ⟨k', rest, h1, h2, h3, h4, ?_⟩
        intro _ hel
        rcases hel with hel | ⟨name, hid, cs, hel⟩
        · cases hel
        · cases ps with
          | nil => simp [nodeIn, hi] at hel
          | cons q qs =>
            rw [nodeIn_cons _ _ _ (by simp), hi] at hel
            simp [Node.kids, nodeIn_nil] at hel
      | comment d =>
        rw [wrapIn, hsc] at h
        cases h
      | element name hid cs =>
        rw [wrapIn_shared _ top ns i ps so pe eo name hid cs hi] at h
        have hle2 : lexLe (ps ++ [so]) (pe ++ [eo]) = true := lexLe_top i _ _ (by simpa using hle)
        have he2 : pe = [] ∨ pointsToContent cs pe = true := by
          rcases he with he | he
          · cases he
          · obtain ⟨c', hj, _, hr'⟩ := content_child ns i pe he
            rw [hi] at hj
            cases hj
            exact hr'
        cases hw : wrapIn (markerSpan id) false cs ps so pe eo with
        | failed ks pt => rw [hw] at h; cases h
        | inserted ks =>
          rw [hw] at h
          cases h
          have hcs : cs.any (fun n => (n.findMarker id).isSome) = false := by
            have habs2 := habs
            rw [any_split_at _ ns i _ hi, findMarker_element_isSome] at habs2
            simp only [Bool.or_eq_false_iff, decide_eq_false_iff_not] at habs2
            exact habs2.2.1.2
          obtain ⟨k2, rest, hf, htc, hany, hcut, hex⟩ :=
            ih false cs so pe eo ks hw hle2 hcs hr he2
          obtain ⟨g1, g2, hT, hD, hhid, _⟩ :=
            unwrap_through id ns i name hid cs ks k2 rest hi habs hf
          obtain ⟨f1, f2, f3, f4⟩ := unwrap_through_facts id ns i name hid cs
            (unwrapIn ks (k2 :: rest)) hi hT hD hhid htc hany hcut
          refine ⟨i, k2 :: rest, g1, ?_, ?_, ?_, ?_⟩
          · rw [g2]; exact f1
          · rw [g2]; exact f2
          · rw [g2]; exact f3
          · intro e hel
            rw [g2]
            apply f4
            have e2 : ps = pe := by
              simp only [List.cons.injEq, true_and] at e
              exact e
            apply hex e2
            rcases hel with hel | ⟨name', hid', cs', hel⟩
            · cases hel
            · cases ps with
              | nil => exact Or.inl rfl
              | cons q qs =>
                rw [nodeIn_cons _ _ _ (by simp), hi] at hel
                exact Or.inr ⟨name', hid', cs', hel⟩

/-- A cut leaves an element in first place where there was one, with its name
and marker attribute: it never turns an element into its text. -/
theorem Cut_head_element {a b : List Node} (h : Cut a b) :
    ∀ (name : String) (hid : Option String) (cs rest : List Node),
      a = Node.element name hid cs :: rest →
      ∃ cs' rest', b = Node.element name hid cs' :: rest' := by
  cases h with
  | nil => intro name hid cs rest e; cases e
  | keep n _ =>
    intro name hid cs rest e
    cases e
    exact ⟨_, _, rfl⟩
  | text pieces _ _ => intro name hid cs rest e; cases e
  | element nodeName hid' parts hne _ _ =>
    intro name hid cs rest e
    cases e
    cases parts with
    | nil => exact absurd rfl hne
    | cons p ps => exact ⟨p, _, rfl⟩

/-! ### Unwrap fidelity -/

/-- C6 (as stated, refuted): wrapping the first character of the paragraph
`ab` and unwrapping it leaves three text nodes (an empty one, `a`, `b`) where
there was one; wrapping across two paragraphs (the fallback path) and
unwrapping leaves four paragraphs where there were two.  Besides, a range
inside a comment cannot be wrapped (both attempts throw); with an id that
holds a quote the selector of `removeHighlightById` is rejected and the
marker stays; and when the page already holds a marker with the same id, it
is that older marker which is unwrapped and the new one stays. -/
theorem wrapThenUnwrap_changes_structure :
    (∃ d, wrapThenUnwrap sampleDoc sampleTextRange "h1" = some d
      ∧ childNodesAt d [0, 0, 0]
          = some [Node.text [], Node.text (utf16 "a"), Node.text (utf16 "b")]
      ∧ childNodesAt sampleDoc [0, 0, 0] = some [Node.text (utf16 "ab")]
      ∧ sizeList d.childNodes ≠ sizeList sampleDoc.childNodes)
    ∧ (∃ d, wrapThenUnwrap sampleDoc sampleCrossRange "h1" = some d
      ∧ (childNodesAt d [0, 0]).map List.length = some 5
      ∧ (childNodesAt sampleDoc [0, 0]).map List.length = some 3
      ∧ sizeList d.childNodes ≠ sizeList sampleDoc.childNodes)
    ∧ (contentRange sampleDoc sampleCommentRange = false
      ∧ (wrapThenUnwrap sampleDoc sampleCommentRange "h1").isNone = true)
    ∧ (isPlainId "a\"b" = false
      ∧ (findMarker "a\"b"
          (wrapWithFallback sampleDoc sampleWholeRange "a\"b").doc).isSome = true
      ∧ (wrapThenUnwrap sampleDoc sampleWholeRange "a\"b").isNone = true)
    ∧ ((findMarker "h_good" (restoreHighlights xpathEvaluate sampleDoc [goodRecord])).isSome
        = true
      ∧ (wrapThenUnwrap (restoreHighlights xpathEvaluate sampleDoc [goodRecord])
          sampleSecondRange "h_good").map (fun d => (findMarker "h_good" d).isSome)
        = some true) :=
  ⟨⟨_, rfl, rfl, rfl, by decide⟩, ⟨_, rfl, rfl, rfl, by decide⟩, by decide, by decide,
    by decide⟩

/-- C6 (amended): in a well-formed document holding no marker with the new
id, a plain one, for every range whose boundary points lie in elements or
text nodes, wrapping the range in a marker (by `surroundContents` or by the
fallback) and at once unwrapping it with the DOM step of
`removeHighlightById` returns a document that is the original up to cuts
(every node is there, in order, as it was, except that a text node holding a
boundary point is left as adjacent text nodes whose data put end to end are
its data, and a partially selected element as adjacent elements of its name
whose children put end to end are its children up to cuts), hence with the
same text content, and that holds no marker with that id; the marker was
present in between.  When both boundary points lie in one and the same
element the document is restored node for node. -/
theorem wrapThenUnwrap_up_to_cuts (doc : Document) (range : Range) (id : String)
    (hid : isPlainId id = true) (hwf : doc.wellFormed = true)
    (hr : contentRange doc range = true) (hfresh : findMarker id doc = none) :
    ∃ wrapped d, wrapWithFallback doc range id = Outcome.returned wrapped
      ∧ (findMarker id wrapped).isSome = true
      ∧ wrapThenUnwrap doc range id = some d
      ∧ Cut doc.childNodes d.childNodes
      ∧ textContentList d.childNodes = textContentList doc.childNodes
      ∧ findMarker id d = none
      ∧ (sameElementContainer doc range = true → d.childNodes = doc.childNodes) := by
  obtain ⟨i, ps, pe, name, hel, cs, ks, hsp, hep, hi, hinner, htop⟩ :=
    wrapIn_top (markerSpan id) doc range hwf hr
  have hw := wrapWithFallback_of_inserted doc range id _ htop
  have hr2 := hr
  simp only [contentRange, Bool.and_eq_true] at hr2
  obtain ⟨⟨hcs, hce⟩, hle⟩ := hr2
  have hle1 : lexLe ((i :: ps) ++ [range.startPoint.offset])
      ((i :: pe) ++ [range.endPoint.offset]) = true := by
    have := hle
    unfold BoundaryPoint.le at this
    rw [hsp, hep] at this
    exact this
  have hle2 : lexLe (ps ++ [range.startPoint.offset]) (pe ++ [range.endPoint.offset]) = true :=
    lexLe_top i _ _ (by simpa using hle1)
  rw [hsp] at hcs
  rw [hep] at hce
  obtain ⟨c1, hi1, _, hps⟩ := content_child doc.childNodes i ps hcs
  obtain ⟨c2, hi2, _, hpe⟩ := content_child doc.childNodes i pe hce
  rw [hi] at hi1 hi2
  cases hi1
  cases hi2
  have habs : doc.childNodes.any (fun n => (n.findMarker id).isSome) = false := by
    rw [← findMarker_isSome, hfresh]
    rfl
  have habs2 := habs
  rw [any_split_at _ doc.childNodes i _ hi, findMarker_element_isSome] at habs2
  simp only [Bool.or_eq_false_iff, decide_eq_false_iff_not] at habs2
  obtain ⟨k2, rest, hf, htc, hany, hcut, hex⟩ := wrapIn_unwrap id ps false cs
    range.startPoint.offset pe range.endPoint.offset ks hinner hle2 habs2.2.1.2 hps hpe
  obtain ⟨g1, g2, hT, hD, hhid, _⟩ :=
    unwrap_through id doc.childNodes i name hel cs ks k2 rest hi habs hf
  obtain ⟨f1, f2, f3, f4⟩ := unwrap_through_facts id doc.childNodes i name hel cs
    (unwrapIn ks (k2 :: rest)) hi hT hD hhid htc hany hcut
  have hfm : findMarker id { childNodes := doc.childNodes.set i (Node.element name hel ks) }
      = some (i :: k2 :: rest) := g1
  refine ⟨_, Document.mk (unwrapIn (doc.childNodes.set i (Node.element name hel ks))
      (i :: k2 :: rest)), hw, ?_, ?_, ?_, ?_, ?_, ?_⟩
  · rw [hfm]
    rfl
  · unfold wrapThenUnwrap
    rw [hw]
    simp only [removeHighlightById, if_neg (isPlainId_ne id hid),
      documentQuerySelector_marker id _ hid, hfm, unwrapAt]
  · rw [g2]
    exact f3
  · rw [g2]
    exact f1
  · have h2 : (findMarker id (Document.mk (unwrapIn
        (doc.childNodes.set i (Node.element name hel ks)) (i :: k2 :: rest)))).isSome
        = false := by
      rw [findMarker_isSome, g2]
      exact f2
    exact findMarker_none_of_isSome_doc id _ h2
  · intro hsame
    simp only [sameElementContainer, Bool.and_eq_true, decide_eq_true_eq] at hsame
    obtain ⟨hse, hn⟩ := hsame
    rw [g2]
    apply f4
    have e2 : ps = pe := by
      rw [hsp, hep] at hse
      simp only [List.cons.injEq, true_and] at hse
      exact hse
    apply hex e2
    cases hps2 : ps with
    | nil => exact Or.inl rfl
    | cons q qs =>
      right
      rw [hsp, hps2] at hn
      unfold nodeAt at hn
      rw [nodeIn_cons _ _ _ (by simp), hi] at hn
      simp only [Option.some_bind, Node.kids] at hn
      cases hx : nodeIn cs (q :: qs) with
      | none => rw [hx] at hn; simp at hn
      | some n =>
        rw [hx] at hn
        cases n with
        | element a b c => exact ⟨a, b, c, rfl⟩
        | text d => simp [Node.isElement] at hn
        | comment d => simp [Node.isElement] at hn

theorem wrapThenUnwrap_up_to_cuts_witness :
    (∃ wrapped d, wrapWithFallback sampleDoc sampleCrossRange "h1" = Outcome.returned wrapped
      ∧ (findMarker "h1" wrapped).isSome = true
      ∧ wrapThenUnwrap sampleDoc sampleCrossRange "h1" = some d
      ∧ Cut sampleDoc.childNodes d.childNodes
      ∧ textContentList d.childNodes = textContentList sampleDoc.childNodes
      ∧ findMarker "h1" d = none
      ∧ (sameElementContainer sampleDoc sampleCrossRange = true →
          d.childNodes = sampleDoc.childNodes))
    ∧ (∃ d, wrapThenUnwrap sampleDoc sampleWholeRange "h1" = some d
      ∧ d.childNodes = sampleDoc.childNodes) :=
  ⟨wrapThenUnwrap_up_to_cuts sampleDoc sampleCrossRange "h1" (by decide) (by decide)
    (by decide) (by decide),
   by
    obtain ⟨_, d, _, _, h3, _, _, _, h7⟩ := wrapThenUnwrap_up_to_cuts sampleDoc
      sampleWholeRange "h1" (by decide) (by decide) (by decide) (by decide)
    exact ⟨d, h3, h7 (by decide)⟩⟩

/-! ### Restoration -/

theorem lexLe_refl (l : List Nat) : lexLe l l = true := by
  induction l with
  | nil => rfl
  | cons x xs ih => simp [lexLe, ih]

theorem setStart_setEnd (doc : Document) (s : Ref) (so : Nat) (e : Ref) (eo : Nat)
    (range : Range)
    (h : (setStart doc createRange s so).bind (fun r => setEnd doc r e eo) = some range) :
    range.startPoint.le range.endPoint = true
    ∧ (range.startPoint.node = s ∨ range.startPoint.node = e)
    ∧ range.endPoint.node = e := by
  cases h1 : setStart doc createRange s so with
  | none => rw [h1] at h; cases h
  | some r1 =>
    rw [h1] at h
    simp only [Option.some_bind] at h
    have hr1 : r1.startPoint.node = s := by
      unfold setStart at h1
      cases hl : lengthAt doc s with
      | none => rw [hl] at h1; cases h1
      | some len =>
        rw [hl] at h1
        simp only at h1
        split at h1
        · cases h1
        · split at h1 <;> cases h1 <;> rfl
    unfold setEnd at h
    cases hl : lengthAt doc e with
    | none => rw [hl] at h; cases h
    | some len =>
      rw [hl] at h
      simp only at h
      split at h
      · cases h
      · split at h
        · rename_i hle
          cases h
          exact ⟨hle, Or.inl hr1, rfl⟩
        · cases h
          exact ⟨lexLe_refl _, Or.inr rfl, rfl⟩

theorem wellFormed_set (doc : Document) (i : Nat) (name : String) (hid : Option String)
    (cs ks : List Node) (hwf : doc.wellFormed = true)
    (hi : doc.childNodes[i]? = some (Node.element name hid cs)) :
    (Document.mk (doc.childNodes.set i (Node.element name hid ks))).wellFormed = true := by
  simp only [Document.wellFormed, Bool.and_eq_true, decide_eq_true_eq] at hwf ⊢
  have e1 := set_eq_split doc.childNodes i _ (Node.element name hid ks) hi
  have e2 := split_at_getElem doc.childNodes i _ hi
  obtain ⟨hc, ha⟩ := hwf
  rw [e2] at hc ha
  rw [e1]
  simp only [List.countP_append, List.countP_cons, List.all_append, List.all_cons,
    Node.isElement, Node.isText, Bool.and_eq_true] at hc ha ⊢
  exact ⟨hc, ha⟩

/-! ### The notes loop -/

theorem updateFirst_spec (p : Node → Bool) (f : Node → Option Node) (ns : List Node) :
    ∀ ns', updateFirst p f ns = some ns' →
      ∃ B n n' A, ns = B ++ n :: A ∧ ns' = B ++ n' :: A ∧ p n = true ∧ f n = some n'
        ∧ B.all (fun x => !p x) = true := by
  induction ns with
  | nil => intro ns' h; simp [updateFirst] at h
  | cons a rest ih =>
    intro ns' h
    rw [updateFirst] at h
    by_cases hp : p a = true
    · rw [if_pos hp] at h
      cases hf : f a with
      | none => rw [hf] at h; simp at h
      | some a' =>
        rw [hf] at h
        simp only [Option.map_some', Option.some.injEq] at h
        exact ⟨[], a, a', rest, rfl, by rw [← h]; rfl, hp, hf, rfl⟩
    · rw [if_neg hp] at h
      cases hu : updateFirst p f rest with
      | none => rw [hu] at h; simp at h
      | some rest' =>
        rw [hu] at h
        simp only [Option.map_some', Option.some.injEq] at h
        obtain ⟨B, n, n', A, e1, e2, h1, h2, h3⟩ := ih rest' hu
        refine ⟨a :: B, n, n', A, by rw [e1]; rfl, by rw [← h, e2]; rfl, h1, h2, ?_⟩
        simp only [List.all_cons, h3, Bool.and_true]
        simpa using hp

theorem updateFirst_at (p : Node → Bool) (f : Node → Option Node) (B : List Node) (n : Node)
    (A : List Node) (hB : B.all (fun x => !p x) = true) (hn : p n = true) :
    updateFirst p f (B ++ n :: A) = (f n).map (fun n' => B ++ n' :: A) := by
  induction B with
  | nil =>
    rw [List.nil_append, updateFirst, if_pos hn]
    rfl
  | cons b B ih =>
    simp only [List.all_cons, Bool.and_eq_true] at hB
    have hb : ¬ p b = true := by simpa using hB.1
    rw [List.cons_append, updateFirst, if_neg hb, ih hB.2]
    cases f n <;> rfl

theorem appendToBody_spec (doc d : Document) (n : Node) (h : appendToBody doc n = some d) :
    ∃ B A hid kB kA bn bh bkids,
      doc.childNodes = B ++ Node.element "HTML" hid (kB ++ Node.element bn bh bkids :: kA) :: A
      ∧ d.childNodes
          = B ++ Node.element "HTML" hid (kB ++ Node.element bn bh (bkids ++ [n]) :: kA) :: A
      ∧ B.all (fun x => !x.isElement) = true
      ∧ kB.all (fun x => !x.isBody) = true
      ∧ (Node.element bn bh bkids).isBody = true := by
  unfold appendToBody at h
  cases hu : updateFirst Node.isElement (appendInBody n) doc.childNodes with
  | none => rw [hu] at h; simp at h
  | some ns' =>
    rw [hu] at h
    simp only [Option.map_some', Option.some.injEq] at h
    obtain ⟨B, root, root', A, e1, e2, _, h2, h3⟩ := updateFirst_spec _ _ _ ns' hu
    cases root with
    | text t => simp [appendInBody] at h2
    | comment t => simp [appendInBody] at h2
    | element name hid cs =>
      simp only [appendInBody] at h2
      by_cases hname : name = "HTML"
      · rw [if_pos hname] at h2
        cases hu2 : updateFirst Node.isBody (Node.appendChild n) cs with
        | none => rw [hu2] at h2; simp at h2
        | some cs' =>
          rw [hu2] at h2
          simp only [Option.map_some', Option.some.injEq] at h2
          obtain ⟨kB, body, body', kA, e3, e4, h5, h6, h7⟩ := updateFirst_spec _ _ _ cs' hu2
          cases body with
          | text t => simp [Node.appendChild] at h6
          | comment t => simp [Node.appendChild] at h6
          | element bn bh bkids =>
            simp only [Node.appendChild, Option.some.injEq] at h6
            refine ⟨B, A, hid, kB, kA, bn, bh, bkids, ?_, ?_, h3, h7, h5⟩
            · rw [e1, e3, hname]
            · rw [← h, e2, ← h2, e4, ← h6, hname]
      · rw [if_neg hname] at h2
        cases h2

theorem noteElement_marker (id : String) : (noteElement.findMarker id).isSome = false := by
  simp [noteElement, Node.findMarker, findMarkerList]

/-- Appending a note to the body keeps the document well formed, keeps the
markers, adds none, and keeps the body. -/
theorem appendToBody_note (doc d : Document) (h : appendToBody doc noteElement = some d) :
    (doc.wellFormed = true → d.wellFormed = true)
      ∧ (∀ id, (findMarker id d).isSome = (findMarker id doc).isSome)
      ∧ (appendToBody d noteElement).isSome = true := by
  obtain ⟨B, A, hid, kB, kA, bn, bh, bkids, e1, e2, hB, hkB, hb⟩ :=
    appendToBody_spec doc d noteElement h
  refine ⟨?_, ?_, ?_⟩
  · intro hwf
    simp only [Document.wellFormed, Bool.and_eq_true, decide_eq_true_eq] at hwf ⊢
    rw [e1] at hwf
    rw [e2]
    simp only [List.countP_append, List.countP_cons, List.all_append, List.all_cons,
      Node.isElement, Node.isText, Bool.and_eq_true] at hwf ⊢
    exact hwf
  · intro id
    rw [findMarker_isSome, findMarker_isSome, e1, e2]
    simp only [List.any_append, List.any_cons, List.any_nil, findMarker_element_isSome,
      noteElement_marker, Bool.or_false]
  · unfold appendToBody
    rw [e2, updateFirst_at Node.isElement (appendInBody noteElement) B
      (Node.element "HTML" hid (kB ++ Node.element bn bh (bkids ++ [noteElement]) :: kA)) A hB rfl]
    simp only [appendInBody, if_true]
    rw [updateFirst_at Node.isBody (Node.appendChild noteElement) kB
      (Node.element bn bh (bkids ++ [noteElement])) kA hkB (by simpa [Node.isBody] using hb)]
    rfl

theorem restoreNotes_facts (notes : List NoteRecord) :
    ∀ doc : Document,
      (∀ d, restoreNotes doc notes = some d →
        (doc.wellFormed = true → d.wellFormed = true)
          ∧ ∀ id, (findMarker id d).isSome = (findMarker id doc).isSome)
      ∧ ((appendToBody doc noteElement).isSome = true →
          (restoreNotes doc notes).isSome = true) := by
  induction notes with
  | nil =>
    intro doc
    refine ⟨?_, fun _ => rfl⟩
    intro d h
    simp only [restoreNotes, Option.some.injEq] at h
    subst h
    exact ⟨fun h => h, fun _ => rfl⟩
  | cons n rest ih =>
    intro doc
    refine ⟨?_, ?_⟩
    · intro d h
      rw [restoreNotes] at h
      cases hc : createNote doc n with
      | none => rw [hc] at h; cases h
      | some d1 =>
        rw [hc] at h
        simp only at h
        obtain ⟨a1, a2, _⟩ := appendToBody_note doc d1 hc
        obtain ⟨b1, b2⟩ := (ih d1).1 d h
        exact ⟨fun hw => b1 (a1 hw), fun id => by rw [b2, a2]⟩
    · intro hb
      rw [restoreNotes]
      cases hc : createNote doc n with
      | none =>
        unfold createNote at hc
        rw [hc] at hb
        cases hb
      | some d1 =>
        simp only
        obtain ⟨_, _, a3⟩ := appendToBody_note doc d1 hc
        exact (ih d1).2 a3

/-! ### The highlights loop -/

theorem restorable_false (evaluate : String → Document → Except String (List Ref))
    (doc : Document) (h : HighlightRecord)
    (hr : restorable evaluate doc h = false) :
    restoreHighlight evaluate doc h = Outcome.returned doc := by
  unfold restorable at hr
  unfold restoreHighlight
  cases hs : getNodeByXPath evaluate doc h.startXPath with
  | none => rfl
  | some s =>
    cases he : getNodeByXPath evaluate doc h.endXPath with
    | none => rfl
    | some e =>
      rw [hs, he] at hr
      simp only at hr ⊢
      cases hm : (setStart doc createRange s h.startOffset).bind
          (fun r => setEnd doc r e h.endOffset) with
      | none => rfl
      | some range => rw [hm] at hr; simp at hr

/-- One record whose paths lead to elements or text nodes, on a well-formed
document: when both paths resolve and the offsets are accepted,
`restoreHighlight` returns a well-formed document that holds a marker with
the record's id besides the markers held before. -/
theorem restorable_true (evaluate : String → Document → Except String (List Ref))
    (doc : Document) (h : HighlightRecord)
    (hwf : doc.wellFormed = true) (hc : contentAnchored evaluate doc h = true)
    (hr : restorable evaluate doc h = true) :
    ∃ doc', restoreHighlight evaluate doc h = Outcome.returned doc'
      ∧ doc'.wellFormed = true
      ∧ ∀ id', (findMarker id' doc').isSome
          = (decide (h.id = id') || (findMarker id' doc).isSome) := by
  unfold restorable at hr
  unfold contentAnchored at hc
  unfold restoreHighlight
  cases hsn : getNodeByXPath evaluate doc h.startXPath with
  | none => rw [hsn] at hr; simp at hr
  | some s =>
    cases hen : getNodeByXPath evaluate doc h.endXPath with
    | none => rw [hsn, hen] at hr; simp at hr
    | some e =>
      rw [hsn, hen] at hr hc
      simp only [Bool.and_eq_true] at hc
      simp only at hr ⊢
      cases hm : (setStart doc createRange s h.startOffset).bind
          (fun r => setEnd doc r e h.endOffset) with
      | none => rw [hm] at hr; simp at hr
      | some range =>
        simp only
        obtain ⟨hle, hsp, hep⟩ := setStart_setEnd doc s h.startOffset e h.endOffset range hm
        have hcr : contentRange doc range = true := by
          simp only [contentRange, Bool.and_eq_true]
          refine ⟨⟨?_, by rw [hep]; exact hc.2⟩, hle⟩
          rcases hsp with hsp | hsp
          · rw [hsp]; exact hc.1
          · rw [hsp]; exact hc.2
        obtain ⟨i, ps, pe, name, hel, cs, ks, _, _, hi, _, htop⟩ :=
          wrapIn_top (markerSpan h.id) doc range hwf hcr
        refine ⟨_, wrapWithFallback_of_inserted doc range h.id _ htop,
          wellFormed_set doc i name hel cs ks hwf hi, ?_⟩
        intro id'
        rw [findMarker_isSome, findMarker_isSome]
        exact wrapIn_marker h.id id' range.startPoint.node true doc.childNodes
          range.startPoint.offset range.endPoint.node range.endPoint.offset _ htop hle

theorem restoreHighlights_append (evaluate : String → Document → Except String (List Ref))
    (doc : Document) (a b : List HighlightRecord) :
    restoreHighlights evaluate doc (a ++ b)
      = restoreHighlights evaluate (restoreHighlights evaluate doc a) b := by
  induction a generalizing doc with
  | nil => rfl
  | cons h rest ih =>
    simp only [List.cons_append, restoreHighlights]
    exact ih _

theorem anchoredInContent_append (evaluate : String → Document → Except String (List Ref))
    (doc : Document) (a b : List HighlightRecord) :
    anchoredInContent evaluate doc (a ++ b)
      = (anchoredInContent evaluate doc a
          && anchoredInContent evaluate (restoreHighlights evaluate doc a) b) := by
  induction a generalizing doc with
  | nil => simp [anchoredInContent, restoreHighlights]
  | cons h rest ih =>
    have e : anchoredInContent evaluate doc (h :: rest ++ b)
        = (contentAnchored evaluate doc h
            && anchoredInContent evaluate (restoreHighlight evaluate doc h).doc (rest ++ b)) := by
      rw [List.cons_append, anchoredInContent]
    rw [e, ih, anchoredInContent, restoreHighlights, Bool.and_assoc]

theorem restoreHighlights_invariant (evaluate : String → Document → Except String (List Ref))
    (records : List HighlightRecord) :
    ∀ doc : Document, doc.wellFormed = true →
      anchoredInContent evaluate doc records = true →
      (restoreHighlights evaluate doc records).wellFormed = true
      ∧ (∀ id', (findMarker id' doc).isSome = true →
          (findMarker id' (restoreHighlights evaluate doc records)).isSome = true)
      ∧ (∀ id', (findMarker id' (restoreHighlights evaluate doc records)).isSome = true →
          (findMarker id' doc).isSome = true ∨ ∃ h ∈ records, h.id = id') := by
  induction records with
  | nil =>
    intro doc hwf _
    exact ⟨hwf, fun _ h => h, fun _ h => Or.inl h⟩
  | cons h rest ih =>
    intro doc hwf hp
    simp only [anchoredInContent, Bool.and_eq_true] at hp
    obtain ⟨hph, hprest⟩ := hp
    rw [restoreHighlights]
    cases hr : restorable evaluate doc h with
    | false =>
      rw [restorable_false evaluate doc h hr] at hprest ⊢
      obtain ⟨h1, h2, h3⟩ := ih doc hwf hprest
      refine ⟨h1, h2, ?_⟩
      intro id' hm
      rcases h3 id' hm with h4 | ⟨x, hx, hxid⟩
      · exact Or.inl h4
      · exact Or.inr ⟨x, by simp [hx], hxid⟩
    | true =>
      obtain ⟨doc', hd, hwf', hmk⟩ := restorable_true evaluate doc h hwf hph hr
      rw [hd] at hprest ⊢
      obtain ⟨h1, h2, h3⟩ := ih doc' hwf' hprest
      refine ⟨h1, ?_, ?_⟩
      · intro id' hm
        apply h2
        rw [hmk, hm]
        simp
      · intro id' hm
        rcases h3 id' hm with h4 | ⟨x, hx, hxid⟩
        · rw [hmk] at h4
          simp only [Outcome.doc, Bool.or_eq_true, decide_eq_true_eq] at h4
          rcases h4 with h4 | h4
          · exact Or.inr ⟨h, by simp, h4⟩
          · exact Or.inl h4
        · exact Or.inr ⟨x, by simp [hx], hxid⟩

/-- C4 (as stated, refuted).  A record whose two paths are `/` resolves (to
the document node) and its offsets are accepted, yet `restoreAll` produces no
marker for it: the document cannot take the marker as a second element child,
the insertion throws and the `catch` of `restoreAll` skips the record.  A
record whose paths resolve to a comment is accepted as well and gets no
marker: the insertion into the comment throws.  And in a document without
`body` a stored note makes `createNote` throw (`document.body` is `null`)
outside any `try`: `restoreAll` is left with the exception before any
highlight is attempted, although the record is materialized when no note is
stored. -/
theorem restoreAll_skips_resolved_records :
    (getNodeByXPath xpathEvaluate sampleDoc slashRecord.startXPath = some []
      ∧ getNodeByXPath xpathEvaluate sampleDoc slashRecord.endXPath = some []
      ∧ restorable xpathEvaluate sampleDoc slashRecord = true
      ∧ (restoreAll xpathEvaluate sampleDoc { notes := [], highlights := [slashRecord] }).map
          (fun d => (findMarker slashRecord.id d).isSome) = some false
      ∧ (restoreAll xpathEvaluate sampleDoc
            { notes := [], highlights := [goodRecord, slashRecord] }).map
          (fun d => (findMarker slashRecord.id d).isSome) = some false)
    ∧ (getNodeByXPath xpathEvaluate sampleDoc commentRecord.startXPath = some [0, 0, 1, 1]
      ∧ getNodeByXPath xpathEvaluate sampleDoc commentRecord.endXPath = some [0, 0, 1, 1]
      ∧ restorable xpathEvaluate sampleDoc commentRecord = true
      ∧ (restoreAll xpathEvaluate sampleDoc { notes := [], highlights := [commentRecord] }).map
          (fun d => (findMarker commentRecord.id d).isSome) = some false)
    ∧ (noBodyDoc.wellFormed = true
      ∧ restorable xpathEvaluate noBodyDoc titleRecord = true
      ∧ contentAnchored xpathEvaluate noBodyDoc titleRecord = true
      ∧ (restoreAll xpathEvaluate noBodyDoc { notes := [], highlights := [titleRecord] }).map
          (fun d => (findMarker titleRecord.id d).isSome) = some true
      ∧ (restoreAll xpathEvaluate noBodyDoc
            { notes := [sampleNote], highlights := [titleRecord] }).isNone = true) := by
  decide

/-- C4 (amended).  Let the document be well formed, let the notes loop of
`restoreAll` return (it does whenever the document has a body, and when no
note is stored), and let no path of a stored highlight resolve, when the
record is attempted, to a node other than an element or a text node; the
evaluator is arbitrary.  Then `restoreAll` returns, having attempted every
record in order; a record whose start or end path resolves to no node, or
whose offsets are rejected, when it is attempted, leaves the document as it
was; every other record gets a marker carrying its id, still there when
`restoreAll` returns; and every marker of the result was in the document or
carries the id of a record.  With one record whose start path resolves to no
node and one valid record, in either order, exactly the valid one is
materialized. -/
theorem restoreAll_materializes (evaluate : String → Document → Except String (List Ref))
    (doc docN : Document) (siteData : SiteData)
    (hwf : doc.wellFormed = true)
    (hn : restoreNotes doc siteData.notes = some docN)
    (hp : anchoredInContent evaluate docN siteData.highlights = true) :
    restoreAll evaluate doc siteData
        = some (restoreHighlights evaluate docN siteData.highlights)
    ∧ (∀ (k : Nat) (h : HighlightRecord), siteData.highlights[k]? = some h →
      restoreHighlights evaluate docN (siteData.highlights.take (k + 1))
          = (restoreHighlight evaluate
              (restoreHighlights evaluate docN (siteData.highlights.take k)) h).doc
      ∧ (restorable evaluate
            (restoreHighlights evaluate docN (siteData.highlights.take k)) h = false →
          restoreHighlights evaluate docN (siteData.highlights.take (k + 1))
            = restoreHighlights evaluate docN (siteData.highlights.take k))
      ∧ (restorable evaluate
            (restoreHighlights evaluate docN (siteData.highlights.take k)) h = true →
          (findMarker h.id
            (restoreHighlights evaluate docN (siteData.highlights.take (k + 1)))).isSome = true
          ∧ (findMarker h.id
              (restoreHighlights evaluate docN siteData.highlights)).isSome = true))
    ∧ (∀ id', (findMarker id'
          (restoreHighlights evaluate docN siteData.highlights)).isSome = true →
        (findMarker id' doc).isSome = true ∨ ∃ h ∈ siteData.highlights, h.id = id')
    ∧ (hasBody doc = true → ∀ notes, (restoreNotes doc notes).isSome = true)
    ∧ restoreNotes doc [] = some doc
    ∧ (restoreAll xpathEvaluate sampleDoc
          { notes := [sampleNote], highlights := [lostRecord, goodRecord] }).map
        (fun d => ((findMarker goodRecord.id d).isSome, (findMarker lostRecord.id d).isSome))
        = some (true, false)
    ∧ (restoreAll xpathEvaluate sampleDoc
          { notes := [sampleNote], highlights := [goodRecord, lostRecord] }).map
        (fun d => ((findMarker goodRecord.id d).isSome, (findMarker lostRecord.id d).isSome))
        = some (true, false) := by
  obtain ⟨hwfN, hmN⟩ := (restoreNotes_facts siteData.notes doc).1 docN hn
  have hwfN := hwfN hwf
  refine ⟨?_, ?_, ?_, fun hb notes => (restoreNotes_facts notes doc).2 hb, rfl,
    by decide, by decide⟩
  · unfold restoreAll
    rw [hn]
  · intro k h hk
    have htake : siteData.highlights.take (k + 1) = siteData.highlights.take k ++ [h] := by
      rw [List.take_succ, hk]
      rfl
    have hsplit : siteData.highlights
        = siteData.highlights.take (k + 1) ++ siteData.highlights.drop (k + 1) :=
      (List.take_append_drop _ _).symm
    have hstep : restoreHighlights evaluate docN (siteData.highlights.take (k + 1))
        = (restoreHighlight evaluate
            (restoreHighlights evaluate docN (siteData.highlights.take k)) h).doc := by
      rw [htake, restoreHighlights_append]
      rfl
    have hp2 := hp
    rw [hsplit, anchoredInContent_append, htake, anchoredInContent_append] at hp2
    simp only [Bool.and_eq_true, anchoredInContent, Bool.and_true] at hp2
    obtain ⟨⟨hpk, hph⟩, hpd⟩ := hp2
    rw [← htake] at hpd
    have hwfk := (restoreHighlights_invariant evaluate (siteData.highlights.take k) docN
      hwfN hpk).1
    refine ⟨hstep, ?_, ?_⟩
    · intro hr
      rw [hstep, restorable_false evaluate _ h hr]
      rfl
    · intro hr
      obtain ⟨doc', hd, hwf', hmk⟩ := restorable_true evaluate _ h hwfk hph hr
      have hnow : (findMarker h.id
          (restoreHighlights evaluate docN (siteData.highlights.take (k + 1)))).isSome
          = true := by
        rw [hstep, hd]
        simp only [Outcome.doc]
        rw [hmk]
        simp
      refine ⟨hnow, ?_⟩
      have hfin : restoreHighlights evaluate docN siteData.highlights
          = restoreHighlights evaluate
              (restoreHighlights evaluate docN (siteData.highlights.take (k + 1)))
              (siteData.highlights.drop (k + 1)) := by
        rw [← restoreHighlights_append, ← hsplit]
      have hwfk1 : (restoreHighlights evaluate docN
          (siteData.highlights.take (k + 1))).wellFormed = true := by
        rw [hstep, hd]
        exact hwf'
      rw [hfin]
      exact (restoreHighlights_invariant evaluate (siteData.highlights.drop (k + 1)) _ hwfk1
        hpd).2.1 h.id hnow
  · intro id' hm
    rcases (restoreHighlights_invariant evaluate siteData.highlights docN hwfN hp).2.2 id' hm
      with h1 | h1
    · left
      rw [← hmN]
      exact h1
    · exact Or.inr h1

theorem restoreAll_materializes_witness :
    restoreNotes sampleDoc [sampleNote] = some notedDoc
    ∧ restorable xpathEvaluate
        (restoreHighlights xpathEvaluate notedDoc ([lostRecord, goodRecord].take 1))
        goodRecord = true
    ∧ (findMarker goodRecord.id
        (restoreHighlights xpathEvaluate notedDoc [lostRecord, goodRecord])).isSome = true :=
  ⟨rfl, by decide,
    (((restoreAll_materializes xpathEvaluate sampleDoc notedDoc
      { notes := [sampleNote], highlights := [lostRecord, goodRecord] } (by decide) rfl
      (by decide)).2.1 1 goodRecord rfl).2.2 (by decide)).2⟩

/-! ### The resolver -/

/-- C8 (as stated, refuted): the path `/html/body/p` matches two nodes of the
sample page, and `getNodeByXPath` returns the first of them instead of
reporting the ambiguity. -/
theorem getNodeByXPath_ambiguous_returns_first :
    xpathEvaluate "/html/body/p" sampleDoc = Except.ok [[0, 0, 0], [0, 0, 1]]
    ∧ getNodeByXPath xpathEvaluate sampleDoc "/html/body/p" = some [0, 0, 0] :=
  ⟨rfl, by decide⟩

/-- C8 (amended): whatever the host's evaluator, `getNodeByXPath` returns
`null` for the empty path, for a path the evaluator rejects and for a path
matching no node; for a path matching one or more nodes it returns the first
of them in document order. -/
theorem getNodeByXPath_cases
    (evaluate : String → Document → Except String (List Ref)) (doc : Document) :
    getNodeByXPath evaluate doc "" = none
    ∧ (∀ xpath e, evaluate xpath doc = Except.error e →
        getNodeByXPath evaluate doc xpath = none)
    ∧ (∀ xpath, evaluate xpath doc = Except.ok [] →
        getNodeByXPath evaluate doc xpath = none)
    ∧ (∀ xpath n rest, xpath ≠ "" → evaluate xpath doc = Except.ok (n :: rest) →
        getNodeByXPath evaluate doc xpath = some n)
    ∧ (∀ xpath n, getNodeByXPath evaluate doc xpath = some n →
        ∃ rest, evaluate xpath doc = Except.ok (n :: rest)) := by
  refine ⟨by simp [getNodeByXPath], ?_, ?_, ?_, ?_⟩
  · intro xpath e h
    unfold getNodeByXPath
    split
    · rfl
    · rw [h]
  · intro xpath h
    unfold getNodeByXPath
    split
    · rfl
    · rw [h]; rfl
  · intro xpath n rest hne h
    unfold getNodeByXPath
    rw [if_neg hne, h]
    rfl
  · intro xpath n h
    unfold getNodeByXPath at h
    split at h
    · exact absurd h (by simp)
    · cases he : evaluate xpath doc with
      | error e => rw [he] at h; exact absurd h (by simp)
      | ok nodes =>
        rw [he] at h
        cases nodes with
        | nil => exact absurd h (by simp)
        | cons m rest =>
          simp at h
          exact ⟨rest, by rw [h]⟩

/-! ### The store -/

/-- C5 (as stated, refuted): with `[A, B]` stored, where `A` is the record of
a highlight of the whole document, `restoreAll` makes the marker of `A` the
document element; `remove-highlight` with the id of `A` then finds the
marker, `insertBefore` throws on moving its child into the document, and
`removeHighlightById` is left before its storage step: nothing is written,
the stored list stays `[A, B]`.  Besides, when `B` carries the id of `A`, what
is written is the empty list, not `[B]`. -/
theorem removeHighlightById_aborts_before_store :
    restoreAll xpathEvaluate sampleDoc { notes := [], highlights := [wholeDocRecord, goodRecord] }
        = some rootMarkerDoc
    ∧ wholeDocRecord.id = "h_d1" ∧ goodRecord.id ≠ "h_d1"
    ∧ documentQuerySelector (markerSelector "h_d1") rootMarkerDoc = Except.ok (some [0])
    ∧ removeHighlightById documentQuerySelector "h_d1"
          { doc := rootMarkerDoc
            store := some { notes := [], highlights := [wholeDocRecord, goodRecord] } }
        = Except.error "HierarchyRequestError"
    ∧ onMessage documentQuerySelector (fun _ p => Except.ok p)
          { action := "remove-highlight", id := "h_d1" }
          { doc := rootMarkerDoc
            store := some { notes := [], highlights := [wholeDocRecord, goodRecord] } }
        = Except.error "HierarchyRequestError"
    ∧ (removeHighlightById documentQuerySelector "h_good"
          { doc := sampleDoc
            store := some { notes := [], highlights :=
              [goodRecord, { goodRecord with color := "pink" }] } }).toOption.map
        (fun page => page.store) = some (some { notes := [], highlights := [] }) :=
  ⟨rfl, rfl, by decide, rfl, rfl, rfl, rfl⟩

/-- C5 (amended): for a non-empty id, whenever the DOM step of
`removeHighlightById` returns (`querySelector` returns and the unwrapping
does not throw; the unwrapping returns whenever the marker is not a child of
the document node), the function reaches its storage step, and the collection
it writes back has as highlights exactly the stored records whose id differs
from the given one, in their original order and unchanged, and the stored
notes.  The `remove-highlight` message runs the same function, so that a
stored list `[A, B]` with distinct ids becomes `[B]` whenever the DOM step
returns. -/
theorem removeHighlightById_store
    (querySelector : String → Document → Except String (Option Ref))
    (others : Message → Page → Except String Page)
    (id : String) (page : Page) (hid : id ≠ "") :
    (∀ page', removeHighlightById querySelector id page = Except.ok page' →
        page'.store = some
          { notes := (loadSiteData page.store).notes
            highlights := (loadSiteData page.store).highlights.filter (fun h => h.id != id) })
    ∧ (∀ el d, querySelector (markerSelector id) page.doc = Except.ok el →
        unwrapAt page.doc el = Except.ok d →
        ∃ page', removeHighlightById querySelector id page = Except.ok page' ∧ page'.doc = d)
    ∧ (∀ el, (∀ i, el ≠ some [i]) → ∃ d, unwrapAt page.doc el = Except.ok d)
    ∧ onMessage querySelector others { action := "remove-highlight", id := id } page
        = removeHighlightById querySelector id page
    ∧ (∀ A B notes el d, page.store = some { notes := notes, highlights := [A, B] } →
        A.id = id → B.id ≠ id →
        querySelector (markerSelector id) page.doc = Except.ok el →
        unwrapAt page.doc el = Except.ok d →
        ∃ page', onMessage querySelector others { action := "remove-highlight", id := id } page
            = Except.ok page'
          ∧ page'.store = some { notes := notes, highlights := [B] }) := by
  have hmsg : onMessage querySelector others { action := "remove-highlight", id := id } page
      = removeHighlightById querySelector id page := by
    unfold onMessage
    simp
  refine ⟨?_, ?_, ?_, hmsg, ?_⟩
  · intro page' h
    unfold removeHighlightById at h
    rw [if_neg hid] at h
    cases hq : querySelector (markerSelector id) page.doc with
    | error e => rw [hq] at h; cases h
    | ok el =>
      rw [hq] at h
      simp only at h
      cases hu : unwrapAt page.doc el with
      | error e => rw [hu] at h; cases h
      | ok d =>
        rw [hu] at h
        simp only [Except.ok.injEq] at h
        rw [← h]
  · intro el d hq hu
    unfold removeHighlightById
    rw [if_neg hid, hq]
    simp only [hu]
    exact ⟨_, rfl, rfl⟩
  · intro el hel
    cases el with
    | none => exact ⟨_, rfl⟩
    | some ref =>
      cases ref with
      | nil => exact ⟨_, rfl⟩
      | cons i rest =>
        cases rest with
        | nil => exact absurd rfl (hel i)
        | cons j rest => exact ⟨_, rfl⟩
  · intro A B notes el d hs hA hB hq hu
    rw [hmsg]
    unfold removeHighlightById
    rw [if_neg hid, hq]
    simp only [hu]
    refine ⟨_, rfl, ?_⟩
    have hB2 : (B.id != id) = true := by simpa using hB
    simp [hs, loadSiteData, List.filter, hA, hB2]

theorem removeHighlightById_store_witness :
    ∃ page', onMessage documentQuerySelector (fun _ p => Except.ok p)
        { action := "remove-highlight", id := "h_good" }
        { doc := (restoreHighlights xpathEvaluate sampleDoc [goodRecord])
          store := some { notes := [sampleNote], highlights := [goodRecord, lostRecord] } }
      = Except.ok page'
      ∧ page'.store = some { notes := [sampleNote], highlights := [lostRecord] } :=
  (removeHighlightById_store documentQuerySelector (fun _ p => Except.ok p) "h_good"
    { doc := (restoreHighlights xpathEvaluate sampleDoc [goodRecord])
      store := some { notes := [sampleNote], highlights := [goodRecord, lostRecord] } }
    (by decide)).2.2.2.2 goodRecord lostRecord [sampleNote] (some [0, 0, 0, 1]) _ rfl rfl
      (by decide) rfl rfl

/-- C9: the highlights list `saveAllData` writes back has the length and
order of the stored list; every record keeps its id, start path, start
offset, end path and end offset; a record whose id is carried by no live
marker is written back unchanged, so only `color` and `selectedText` of
records with a live marker can change. -/
theorem saveAllData_keeps_anchors (notes : List NoteRecord) (markers : List LiveMarker)
    (store : Option SiteData) :
    (saveAllData notes markers store).highlights.length
        = (loadSiteData store).highlights.length
    ∧ ∀ (i : Nat) (h : HighlightRecord), (loadSiteData store).highlights[i]? = some h →
        ∃ h' : HighlightRecord, (saveAllData notes markers store).highlights[i]? = some h'
          ∧ h'.id = h.id ∧ h'.startXPath = h.startXPath ∧ h'.startOffset = h.startOffset
          ∧ h'.endXPath = h.endXPath ∧ h'.endOffset = h.endOffset
          ∧ ((∀ m ∈ markers, m.hid ≠ some h.id) → h' = h)
          ∧ (h' ≠ h → ∃ m ∈ markers, m.hid = some h.id
              ∧ h' = { h with color := (domHighlightOf m).color,
                              selectedText := (domHighlightOf m).selectedText }) := by
  refine ⟨by simp [saveAllData], ?_⟩
  intro i h hi
  simp only [saveAllData, List.getElem?_map, hi, Option.map_some']
  cases hf : (markers.map domHighlightOf).find? (fun d => d.id == some h.id) with
  | none =>
    refine ⟨h, rfl, rfl, rfl, rfl, rfl, rfl, fun _ => rfl, fun hne => absurd rfl hne⟩
  | some dom =>
    have hmem := List.mem_of_find?_eq_some hf
    have hp := List.find?_some hf
    simp only [List.mem_map] at hmem
    obtain ⟨m, hm, hmd⟩ := hmem
    have hmid : m.hid = some h.id := by
      have : dom.id = some h.id := by simpa using hp
      rw [← hmd] at this
      exact this
    refine ⟨_, rfl, rfl, rfl, rfl, rfl, rfl, ?_, ?_⟩
    · intro hall
      exact absurd hmid (hall m hm)
    · intro _
      exact ⟨m, hm, hmid, by rw [hmd]⟩

/-! ### Identifiers -/

/-- C7 (the code at the failing input): two calls of `genId('h')` in the same
millisecond whose random draws `0.5` and `0.5 + 2^-30` differ return the same
id; more generally the id depends on the draw only through
`floor(random * 1e6)`. -/
theorem genId_collision :
    ((1 : ℚ) / 2 ≠ 1 / 2 + 1 / 2 ^ 30)
    ∧ genId "h" 1700000000000 (1 / 2) = genId "h" 1700000000000 (1 / 2 + 1 / 2 ^ 30)
    ∧ genId "h" 1700000000000 (1 / 2) = "h_loyw3v28_apsw"
    ∧ (∀ (pre : String) (now : Nat) (r1 r2 : ℚ),
        ⌊r1 * 1000000⌋ = ⌊r2 * 1000000⌋ → genId pre now r1 = genId pre now r2) := by
  have h1 : ⌊((1 : ℚ) / 2) * 1000000⌋ = 500000 := by
    rw [Int.floor_eq_iff]; norm_num
  have h2 : ⌊((1 : ℚ) / 2 + 1 / 2 ^ 30) * 1000000⌋ = 500000 := by
    rw [Int.floor_eq_iff]; norm_num
  refine ⟨by norm_num, ?_, ?_, ?_⟩
  · unfold genId
    rw [h1, h2]
  · unfold genId
    rw [h1]
    decide
  · intro pre now r1 r2 h
    unfold genId
    rw [h]

/-! ### Worked examples -/

example : getXPath sampleDoc [0, 0, 1] = some "/html/body/p[2]" := by decide
example : getXPath sampleDoc [0, 0, 0] = some "/html/body/p" := by decide
example : getXPath sampleDoc [0, 0, 1, 2] = some "/html/body/p[2]/text()[2]" := by decide

example : xpathEvaluate "/html/body/p" sampleDoc = Except.ok [[0, 0, 0], [0, 0, 1]] := by rfl
example : getNodeByXPath xpathEvaluate sampleDoc "/html/body/p[2]/text()[2]" = some [0, 0, 1, 2] := by
  decide
example : getNodeByXPath xpathEvaluate sampleDoc "/html/body/p[3]" = none := by decide
example : getNodeByXPath xpathEvaluate sampleDoc "/" = some [] := by decide

example : getXPath bracketDoc [0, 0, 2] = some "/html/body/p[2]" := by decide
example : getXPath bracketDoc [0, 0, 1] = some "/html/body/p[2]" := by decide
example : getNodeByXPath xpathEvaluate bracketDoc "/html/body/p[2]" = some [0, 0, 1] := by decide
example : getXPath caseDoc [0, 0] = getXPath caseDoc [0, 1] := by decide
example : htmlNamesList sampleDoc.childNodes = true := by decide
example : parseXPath "/html/body/p[2]/text()[2]" = some (specSteps sampleDoc.childNodes [0, 0, 1, 2]) := by
  decide

example : (wrapWithFallback sampleDoc
    { startPoint := { node := [0, 0, 0, 0], offset := 0 },
      endPoint := { node := [0, 0, 0, 0], offset := 1 } } "h1").doc.childNodes
    = [Node.element "HTML" none [Node.element "BODY" none
      [Node.element "P" none [Node.text [], Node.element "SPAN" (some "h1") [Node.text (utf16 "a")],
        Node.text (utf16 "b")],
       Node.element "P" none [Node.text (utf16 "cd"), Node.comment (utf16 "c"),
         Node.text (utf16 "ef")],
       Node.element "DIV" none []]]] := by
  rfl

example : (wrapWithFallback sampleDoc
    { startPoint := { node := [0, 0, 0, 0], offset := 1 },
      endPoint := { node := [0, 0, 1, 2], offset := 1 } } "h1").doc.childNodes
    = [Node.element "HTML" none [Node.element "BODY" none
      [Node.element "P" none [Node.text (utf16 "a")],
       Node.element "SPAN" (some "h1")
        [Node.element "P" none [Node.text (utf16 "b")],
         Node.element "P" none [Node.text (utf16 "cd"), Node.comment (utf16 "c"),
           Node.text (utf16 "e")]],
       Node.element "P" none [Node.text (utf16 "f")],
       Node.element "DIV" none []]]] := by
  rfl

example : ¬ Cut [Node.element "P" none [Node.text (utf16 "ab")]] [Node.text (utf16 "ab")] := by
  intro h
  obtain ⟨cs', rest', e⟩ := Cut_head_element h "P" none _ _ rfl
  cases e

example : (Node.text (utf16 (String.mk [Char.ofNat 128512, 'b']))).length = 3 := by decide
example : setStart sampleDoc createRange [0, 0, 0, 0] 4294967297
    = setStart sampleDoc createRange [0, 0, 0, 0] 1 := by decide
example : setStart sampleDoc createRange [0, 0, 0, 0] 3 = none := by decide
example : hasBody sampleDoc = true := by decide
example : hasBody noBodyDoc = false := by decide
example : unwrapAt rootMarkerDoc (some [0]) = Except.error "HierarchyRequestError" := by rfl
example : documentQuerySelector (markerSelector "h_good") sampleDoc = Except.ok none := by rfl

end StickyNotes
